import Mathlib

/-!
# pine-lang core collector (`pine_gc.c`): a shallow embedding

The conservative mark-and-sweep collector of `crates/c_gen/src/lib_core/core_c/pine_gc.c`
is embedded function by function.

Modelling conventions.

* Addresses, `size_t` and `uintptr_t` values are natural numbers; the machine is taken to be
  a 64-bit one (`sizeof(char *) = 8`).  Wrap-around is written out where the code can reach it:
  the multiplication in `gc_hash`, the unsigned subtraction in `gc_calc_sweep_limit` and the
  decrement of `nitems`.  Counters of objects that live in the address space (`nitems++`,
  `freed_bytes`) are plain naturals.
* A chain of `Allocation` records linked through `next` is a `List Allocation`; the array
  `am->allocs` is a list of chains.  A record is identified by its position in its chain.
* The `double` parameters (`lf_down`, `lf_up`, `sweep_factor`) are exact rationals.
* Memory is a byte-addressed function; `gc_mark_alloc` reads it, nothing in the collector
  writes it.  The address of the local `stk` of `gc_mark_stack` is a parameter `top`.
* The recursion of `gc_mark_alloc` is bounded by a fuel argument (recursion depth); running out
  of fuel is `none`.  `exit(42)` is the result `AllocResult.exit 42`.
* The answer of the system allocator to `malloc_wrapper(size)` is a parameter of the
  allocation entry points.  The allocations the collector makes for its own records and
  arrays are taken to succeed, and `free` has no effect on the model.
-/

namespace PineGc

/-! ## Data model (`pine_gc.h`) -/

/-- Flag `GC_FLAG_NONE` of `enum Gc_Flag`. -/
def GC_FLAG_NONE : Nat := 0x0
/-- Flag `GC_FLAG_ROOT` of `enum Gc_Flag`. -/
def GC_FLAG_ROOT : Nat := 0x1
/-- Flag `GC_FLAG_MARK` of `enum Gc_Flag`. -/
def GC_FLAG_MARK : Nat := 0x2

/-- Value of `~GC_FLAG_MARK` in the 32-bit type of the enumeration. -/
def GC_FLAG_MARK_COMPL : Nat := 0xFFFFFFFD

/-- Number of values of `size_t` (2^64). -/
def SIZE_MOD : Nat := 2 ^ 64

/-- Value of `sizeof(char *)`. -/
def PTRSIZE : Nat := 8

/-- Record `struct Allocation`; the `next` link is the tail of the chain the record is in. -/
structure Allocation where
  ptr : Nat
  size : Nat
  tag : Nat
  deriving DecidableEq, Repr

/-- Record `struct AllocationMap`; `allocs` is the array of chain heads. -/
structure AllocationMap where
  nslots : Nat
  nslots_min : Nat
  nitems : Nat
  lf_down : ℚ
  lf_up : ℚ
  sweep_factor : ℚ
  sweep_limit : Nat
  allocs : List (List Allocation)
  deriving DecidableEq

/-- Record `struct KiGc`. -/
structure KiGc where
  allocs : AllocationMap
  paused : Bool
  bottom : Nat
  min_size : Nat
  deriving DecidableEq

/-- Chain head `allocs[i]` (an index past the array reads as the empty chain). -/
def slot (allocs : List (List Allocation)) (i : Nat) : List Allocation :=
  allocs.getD i []

/-- All records of a map, bucket after bucket. -/
def records (am : AllocationMap) : List Allocation :=
  am.allocs.flatten

/-! ## Prime ladder -/

/-- Table `gc_primes`. -/
def gc_primes : List Nat :=
  [0, 1, 5, 11, 23, 53, 101, 197, 389, 683,
   1259, 2417, 4733, 9371, 18617, 37097, 74093, 148073, 296099, 592019,
   1100009, 2200013, 4400021, 8800019, 17600039, 35200091, 70400203, 140800427, 281600857,
   563201731]

/-- Constant `PRIMES_COUNT`. -/
def PRIMES_COUNT : Nat := 30

/-- Loop of `gc_ideal_size` over the entries from index `i` on: the first entry greater than
`size`, if any. -/
def gc_ideal_size_loop (size : Nat) : List Nat → Option Nat
  | [] => none
  | p :: rest => if p > size then some p else gc_ideal_size_loop size rest

/-- Function `gc_ideal_size`. -/
def gc_ideal_size (size : Nat) : Nat :=
  match gc_ideal_size_loop size (gc_primes.take PRIMES_COUNT) with
  | some p => p
  | none => gc_primes.getD (PRIMES_COUNT - 1) 0

/-! ## Allocation records and the allocation map -/

/-- Function `gc_alloc_new`. -/
def gc_alloc_new (ptr size : Nat) : Allocation :=
  { ptr := ptr, size := size, tag := GC_FLAG_NONE }

/-- Unsigned subtraction of two `size_t` values. -/
def size_sub (a b : Nat) : Nat :=
  (a + (SIZE_MOD - b % SIZE_MOD)) % SIZE_MOD

/-- Function `gc_calc_sweep_limit`: `nitems + sweep_factor * (nslots - nitems)`, the difference
taken in `size_t`, the sum converted back to `size_t` by truncation. -/
def gc_calc_sweep_limit (nitems nslots : Nat) (sweep_factor : ℚ) : Nat :=
  Int.toNat (Rat.floor ((nitems : ℚ) + sweep_factor * ((size_sub nslots nitems : Nat) : ℚ)))

/-- Function `gc_alloc_map_new`. -/
def gc_alloc_map_new (nslots_init nslots_min : Nat) (sweep_factor load_factor_down
    load_factor_up : ℚ) : AllocationMap :=
  let nslots_min := gc_ideal_size nslots_min
  let nslots_init := if nslots_init < nslots_min then nslots_min else gc_ideal_size nslots_init
  { nslots := nslots_init
    nslots_min := nslots_min
    sweep_factor := sweep_factor
    lf_down := load_factor_down
    lf_up := load_factor_up
    allocs := List.replicate nslots_init []
    nitems := 0
    sweep_limit := gc_calc_sweep_limit 0 nslots_init sweep_factor }

/-- Function `gc_hash`: `(13 * ad) ^ (ad >> 15)` in 64-bit arithmetic. -/
def gc_hash (ptr : Nat) : Nat :=
  ((13 * ptr) % SIZE_MOD) ^^^ (ptr >>> 15)

/-- Function `gc_alloc_map_load_factor`. -/
def gc_alloc_map_load_factor (am : AllocationMap) : ℚ :=
  (am.nitems : ℚ) / (am.nslots : ℚ)

/-- Body of the inner loop of `gc_alloc_map_resize`: the record is pushed on the front of its
new chain. -/
def gc_alloc_map_resize_step (new_capacity : Nat) (resized : List (List Allocation))
    (alloc : Allocation) : List (List Allocation) :=
  let new_index := gc_hash alloc.ptr % new_capacity
  resized.set new_index (alloc :: slot resized new_index)

/-- Function `gc_alloc_map_resize`. -/
def gc_alloc_map_resize (am : AllocationMap) (new_capacity : Nat) : AllocationMap :=
  let resized_allocs :=
    (am.allocs.take am.nslots).foldl
      (fun resized chain => chain.foldl (gc_alloc_map_resize_step new_capacity) resized)
      (List.replicate new_capacity [])
  { am with
    nslots := new_capacity
    allocs := resized_allocs
    sweep_limit := gc_calc_sweep_limit am.nitems new_capacity am.sweep_factor }

/-- Function `gc_resize_more`; the Boolean is the returned value. -/
def gc_resize_more (am : AllocationMap) : Bool × AllocationMap :=
  let new_size := gc_ideal_size am.nitems
  let old_size := am.nslots
  if new_size > old_size then (true, gc_alloc_map_resize am new_size) else (false, am)

/-- Function `gc_resize_less`; the Boolean is the returned value. -/
def gc_resize_less (am : AllocationMap) : Bool × AllocationMap :=
  let new_size := gc_ideal_size am.nitems
  let old_size := am.nslots
  let new_size := if new_size < am.nslots_min then am.nslots_min else new_size
  if new_size < old_size then (true, gc_alloc_map_resize am new_size) else (false, am)

/-- Function `gc_alloc_map_resize_to_fit`; the Boolean is the returned value. -/
def gc_alloc_map_resize_to_fit (am : AllocationMap) : Bool × AllocationMap :=
  let load_factor := gc_alloc_map_load_factor am
  if load_factor > am.lf_up then gc_resize_more am
  else if load_factor < am.lf_down then gc_resize_less am
  else (false, am)

/-- Chain walk of `gc_alloc_map_get`. -/
def gc_alloc_map_get_walk (ptr : Nat) : List Allocation → Option Allocation
  | [] => none
  | cur :: rest => if cur.ptr = ptr then some cur else gc_alloc_map_get_walk ptr rest

/-- Function `gc_alloc_map_get`; `none` is the null pointer. -/
def gc_alloc_map_get (am : AllocationMap) (ptr : Nat) : Option Allocation :=
  let index := gc_hash ptr % am.nslots
  gc_alloc_map_get_walk ptr (slot am.allocs index)

/-- Chain walk of `gc_alloc_map_insert`: when a record with the key exists, the chain with
`alloc` spliced in at its place; `none` when the walk reaches the end of the chain. -/
def gc_alloc_map_insert_walk (alloc : Allocation) : List Allocation → Option (List Allocation)
  | [] => none
  | cur :: rest =>
    if cur.ptr = alloc.ptr then some (alloc :: rest)
    else
      match gc_alloc_map_insert_walk alloc rest with
      | some rest' => some (cur :: rest')
      | none => none

/-- Function `gc_alloc_map_insert`; the first component is the returned record pointer
(`none` for null). -/
def gc_alloc_map_insert (am : AllocationMap) (ptr size : Nat) :
    Option Allocation × AllocationMap :=
  let index := gc_hash ptr % am.nslots
  let alloc := gc_alloc_new ptr size
  match gc_alloc_map_insert_walk alloc (slot am.allocs index) with
  | some chain => (some alloc, { am with allocs := am.allocs.set index chain })
  | none =>
    let am1 := { am with
      allocs := am.allocs.set index (alloc :: slot am.allocs index)
      nitems := am.nitems + 1 }
    let r := gc_alloc_map_resize_to_fit am1
    if r.1 then (gc_alloc_map_get r.2 ptr, r.2) else (some alloc, r.2)

/-- Decrement `nitems--` of a `size_t`. -/
def size_dec (n : Nat) : Nat :=
  if n = 0 then SIZE_MOD - 1 else n - 1

/-- Chain walk of `gc_allocation_map_remove`: every record with the key is unlinked and
`nitems` decremented for each; the pair is the new chain and the new `nitems`. -/
def gc_allocation_map_remove_walk (ptr : Nat) : List Allocation → Nat → List Allocation × Nat
  | [], nitems => ([], nitems)
  | cur :: rest, nitems =>
    if cur.ptr = ptr then gc_allocation_map_remove_walk ptr rest (size_dec nitems)
    else
      let r := gc_allocation_map_remove_walk ptr rest nitems
      (cur :: r.1, r.2)

/-- Function `gc_allocation_map_remove`. -/
def gc_allocation_map_remove (am : AllocationMap) (ptr : Nat) (allow_resize : Bool) :
    AllocationMap :=
  let index := gc_hash ptr % am.nslots
  let r := gc_allocation_map_remove_walk ptr (slot am.allocs index) am.nitems
  let am1 := { am with allocs := am.allocs.set index r.1, nitems := r.2 }
  if allow_resize then (gc_alloc_map_resize_to_fit am1).2 else am1

/-! ## Memory -/

/-- Word read `*(void **)p`: the eight bytes from address `p` on, least significant first. -/
def load_word (mem : Nat → Nat) (p : Nat) : Nat :=
  (List.range PTRSIZE).foldr (fun i acc => mem (p + i) % 256 + 256 * acc) 0

/-! ## Mark phase -/

/-- Chain walk that locates the record `gc_alloc_map_get` returns and rewrites its tag. -/
def tag_update_walk (ptr : Nat) (f : Nat → Nat) : List Allocation → List Allocation
  | [] => []
  | cur :: rest =>
    if cur.ptr = ptr then { cur with tag := f cur.tag } :: rest
    else cur :: tag_update_walk ptr f rest

/-- Assignment `alloc->tag = f (alloc->tag)` for `alloc = gc_alloc_map_get(am, ptr)`. -/
def tag_update (am : AllocationMap) (ptr : Nat) (f : Nat → Nat) : AllocationMap :=
  let index := gc_hash ptr % am.nslots
  { am with allocs := am.allocs.set index (tag_update_walk ptr f (slot am.allocs index)) }

/-- Positions visited by the loop of `gc_mark_alloc`:
`for (p = alloc->ptr; p <= alloc->ptr + alloc->size - sizeof(char *); ++p)`. -/
def gc_mark_alloc_positions (alloc : Allocation) : List Nat :=
  (List.range (alloc.size + 1 - PTRSIZE)).map (fun k => alloc.ptr + k)

/-- Function `gc_mark_alloc`; the first argument after the memory bounds the recursion depth. -/
def gc_mark_alloc (mem : Nat → Nat) : Nat → KiGc → Nat → Option KiGc
  | 0, _, _ => none
  | fuel + 1, gc, ptr =>
    match gc_alloc_map_get gc.allocs ptr with
    | none => some gc
    | some alloc =>
      if alloc.tag &&& GC_FLAG_MARK ≠ 0 then some gc
      else
        let gc1 := { gc with allocs := tag_update gc.allocs ptr (fun t => t ||| GC_FLAG_MARK) }
        (gc_mark_alloc_positions alloc).foldlM
          (fun g p => gc_mark_alloc mem fuel g (load_word mem p)) gc1

/-- Positions visited by the first loop of `gc_mark_stack`:
`for (p = top; p >= bot; p = p - sizeof(char *))`; the counter bounds the iterations. -/
def gc_mark_stack_down (bot : Nat) : Nat → Nat → List Nat
  | 0, _ => []
  | steps + 1, p => if p ≥ bot then p :: gc_mark_stack_down bot steps (p - PTRSIZE) else []

/-- Positions visited by the second loop of `gc_mark_stack`:
`for (p = top; p <= bot; p = p + sizeof(char *))`; the counter bounds the iterations. -/
def gc_mark_stack_up (bot : Nat) : Nat → Nat → List Nat
  | 0, _ => []
  | steps + 1, p => if p ≤ bot then p :: gc_mark_stack_up bot steps (p + PTRSIZE) else []

/-- Positions at which `gc_mark_stack` reads a word, in the order of the reads; `top` is the
address of its local `stk`. -/
def gc_mark_stack_positions (bot top : Nat) : List Nat :=
  if bot = top then []
  else
    (if bot > top then gc_mark_stack_down bot (top + 1) top else []) ++
    (if bot < top then gc_mark_stack_up bot (bot + 1) top else [])

/-- Function `gc_mark_stack`. -/
def gc_mark_stack (mem : Nat → Nat) (fuel : Nat) (top : Nat) (gc : KiGc) : Option KiGc :=
  (gc_mark_stack_positions gc.bottom top).foldlM
    (fun g p => gc_mark_alloc mem fuel g (load_word mem p)) gc

/-- Inner loop of `gc_mark_roots` over one chain.  The chain is the one read when the loop
starts: marking rewrites no link and no `ROOT` bit. -/
def gc_mark_roots_chain (mem : Nat → Nat) (fuel : Nat) : List Allocation → KiGc → Option KiGc
  | [], gc => some gc
  | chunk :: rest, gc =>
    if chunk.tag &&& GC_FLAG_ROOT ≠ 0 then
      match gc_mark_alloc mem fuel gc chunk.ptr with
      | some gc1 => gc_mark_roots_chain mem fuel rest gc1
      | none => none
    else gc_mark_roots_chain mem fuel rest gc

/-- Function `gc_mark_roots`. -/
def gc_mark_roots (mem : Nat → Nat) (fuel : Nat) (gc : KiGc) : Option KiGc :=
  (List.range gc.allocs.nslots).foldlM
    (fun g i => gc_mark_roots_chain mem fuel (slot g.allocs.allocs i) g) gc

/-- Function `gc_mark`.  The register dump (`setjmp` into the local `env`) writes into the frame
of `gc_mark`, which is part of the memory `mem` handed to the stack scan. -/
def gc_mark (mem : Nat → Nat) (fuel : Nat) (top : Nat) (gc : KiGc) : Option KiGc :=
  match gc_mark_roots mem fuel gc with
  | some gc1 => gc_mark_stack mem fuel top gc1
  | none => none

/-! ## Sweep phase -/

/-- Rewrite of the tag of the record at position `j` of a chain. -/
def tag_update_at (f : Nat → Nat) : Nat → List Allocation → List Allocation
  | _, [] => []
  | 0, cur :: rest => { cur with tag := f cur.tag } :: rest
  | j + 1, cur :: rest => cur :: tag_update_at f j rest

/-- Inner loop of `gc_sweep` over chain `i`.  The first list is the part of the chain still to
visit, `j` the position of its head in the current chain `allocs[i]`: a kept record advances
the position, a removed one leaves it.  This is the walk of the code whenever
`gc_allocation_map_remove` unlinks the visited record and no other, which is the case in a
chain that holds no base twice and whose records hash to `i`. -/
def gc_sweep_chain (i : Nat) : List Allocation → Nat → AllocationMap → Nat → AllocationMap × Nat
  | [], _, am, freed_bytes => (am, freed_bytes)
  | chunk :: rest, j, am, freed_bytes =>
    if chunk.tag &&& GC_FLAG_MARK ≠ 0 then
      let am1 := { am with
        allocs := am.allocs.set i
          (tag_update_at (fun t => t &&& GC_FLAG_MARK_COMPL) j (slot am.allocs i)) }
      gc_sweep_chain i rest (j + 1) am1 freed_bytes
    else
      gc_sweep_chain i rest j (gc_allocation_map_remove am chunk.ptr false)
        (freed_bytes + chunk.size)

/-- Outer loop of `gc_sweep` over the chains. -/
def gc_sweep_loop (am : AllocationMap) : AllocationMap × Nat :=
  (List.range am.nslots).foldl
    (fun s i => gc_sweep_chain i (slot s.1.allocs i) 0 s.1 s.2) (am, 0)

/-- Function `gc_sweep`; the first component is the returned number of bytes. -/
def gc_sweep (gc : KiGc) : Nat × KiGc :=
  let s := gc_sweep_loop gc.allocs
  (s.2, { gc with allocs := (gc_alloc_map_resize_to_fit s.1).2 })

/-- Function `gc_run`. -/
def gc_run (mem : Nat → Nat) (fuel : Nat) (top : Nat) (gc : KiGc) : Option KiGc :=
  match gc_mark mem fuel top gc with
  | some gc1 => some (gc_sweep gc1).2
  | none => none

/-! ## Allocation entry points -/

/-- Outcome of an allocation call: the process exits with a status, or the call returns a
pointer and leaves a collector state. -/
inductive AllocResult where
  | exit (status : Nat)
  | ok (ptr : Nat) (gc : KiGc)
  deriving DecidableEq

/-- Function `gc_allocate`; `malloc_result` is the answer of the system allocator to
`malloc_wrapper(size)`, `none` for a null pointer. -/
def gc_allocate (mem : Nat → Nat) (fuel : Nat) (top : Nat) (gc : KiGc) (size : Nat)
    (malloc_result : Option Nat) : Option AllocResult :=
  let collected :=
    if gc.allocs.nitems > gc.allocs.sweep_limit ∧ gc.paused = false then gc_run mem fuel top gc
    else some gc
  match collected with
  | none => none
  | some gc1 =>
    match malloc_result with
    | some ptr =>
      let r := gc_alloc_map_insert gc1.allocs ptr size
      match r.1 with
      | some a => some (AllocResult.ok a.ptr { gc1 with allocs := r.2 })
      | none => some (AllocResult.exit 42)
    | none => some (AllocResult.exit 42)

/-- Function `gc_make_root`. -/
def gc_make_root (gc : KiGc) (ptr : Nat) : KiGc :=
  match gc_alloc_map_get gc.allocs ptr with
  | some _ => { gc with allocs := tag_update gc.allocs ptr (fun t => t ||| GC_FLAG_ROOT) }
  | none => gc

/-- Function `gc_malloc`. -/
def gc_malloc (mem : Nat → Nat) (fuel : Nat) (top : Nat) (gc : KiGc) (size : Nat)
    (malloc_result : Option Nat) : Option AllocResult :=
  gc_allocate mem fuel top gc size malloc_result

/-- Function `gc_malloc_static`. -/
def gc_malloc_static (mem : Nat → Nat) (fuel : Nat) (top : Nat) (gc : KiGc) (size : Nat)
    (malloc_result : Option Nat) : Option AllocResult :=
  match gc_malloc mem fuel top gc size malloc_result with
  | some (AllocResult.ok ptr gc1) => some (AllocResult.ok ptr (gc_make_root gc1 ptr))
  | other => other

/-- Function `gc_start_ext`. -/
def gc_start_ext (gc : KiGc) (bottom nslots_init nslots_min : Nat)
    (lf_downsize lf_upsize sweep_fact : ℚ) : KiGc :=
  { gc with
    paused := false
    bottom := bottom
    allocs := gc_alloc_map_new nslots_init nslots_min sweep_fact lf_downsize lf_upsize }

/-- Function `gc_start`. -/
def gc_start (gc : KiGc) (bottom : Nat) : KiGc :=
  gc_start_ext gc bottom 1024 1024 (2 / 10) (8 / 10) (5 / 10)

/-- Function `gc_stop`. -/
def gc_stop (_gc : KiGc) : Nat := 0

/-! ## Predicates of the specification -/

/-- Test `alloc->tag & GC_FLAG_MARK`. -/
def is_marked (a : Allocation) : Prop := a.tag &&& GC_FLAG_MARK ≠ 0

/-- Test `alloc->tag & GC_FLAG_ROOT`. -/
def is_root (a : Allocation) : Prop := a.tag &&& GC_FLAG_ROOT ≠ 0

instance (a : Allocation) : Decidable (is_marked a) := by unfold is_marked; infer_instance

instance (a : Allocation) : Decidable (is_root a) := by unfold is_root; infer_instance

/-- Well-formed allocation map: the array has `nslots >= 1` chains, every record stored in
bucket `i` hashes to `i`, no two records have the same base, and `nitems` counts the records. -/
def well_formed (am : AllocationMap) : Prop :=
  am.allocs.length = am.nslots ∧ 0 < am.nslots ∧
  (∀ i < am.nslots, ∀ a ∈ slot am.allocs i, gc_hash a.ptr % am.nslots = i) ∧
  ((records am).map Allocation.ptr).Nodup ∧
  am.nitems = (records am).length

instance (am : AllocationMap) : Decidable (well_formed am) := by
  unfold well_formed; infer_instance

/-- Map with every record rewritten by `F`, chains and fields otherwise unchanged. -/
def map_records (F : Allocation → Allocation) (am : AllocationMap) : AllocationMap :=
  { am with allocs := am.allocs.map (List.map F) }

/-- Record with `GC_FLAG_MARK` set in its tag. -/
def set_mark (a : Allocation) : Allocation := { a with tag := a.tag ||| GC_FLAG_MARK }

/-- Record with `GC_FLAG_MARK` cleared in its tag (`tag &= ~GC_FLAG_MARK`). -/
def clear_mark (a : Allocation) : Allocation := { a with tag := a.tag &&& GC_FLAG_MARK_COMPL }

/-- The map has a record with base `p`. -/
def tracked (am : AllocationMap) (p : Nat) : Prop := ∃ a ∈ records am, a.ptr = p

/-- The map has a record with base `p` whose `MARK` bit is set. -/
def marked_ptr (am : AllocationMap) (p : Nat) : Prop :=
  ∃ a ∈ records am, a.ptr = p ∧ is_marked a

/-- The block with base `p` holds the word `q` at one of the positions `gc_mark_alloc` reads. -/
def scans (mem : Nat → Nat) (am : AllocationMap) (p q : Nat) : Prop :=
  ∃ a ∈ records am, a.ptr = p ∧ ∃ pos ∈ gc_mark_alloc_positions a, load_word mem pos = q

/-- Edge of the object graph the collector follows: block `p` holds, at a scanned position, the
base `q` of a tracked block. -/
def edge (mem : Nat → Nat) (am : AllocationMap) (p q : Nat) : Prop :=
  scans mem am p q ∧ tracked am q

/-- Reachability along the edges the collector follows. -/
def reach (mem : Nat → Nat) (am : AllocationMap) (p q : Nat) : Prop :=
  Relation.ReflTransGen (edge mem am) p q

/-- Record `r` points to record `s`: a pointer-sized word stored in the block of `r` at a
word-aligned offset `k * word` with `k * word + word <= r.size` equals the base of `s`. -/
def points_to (mem : Nat → Nat) (am : AllocationMap) (r s : Allocation) : Prop :=
  r ∈ records am ∧ s ∈ records am ∧
  ∃ k, k * PTRSIZE + PTRSIZE ≤ r.size ∧ load_word mem (r.ptr + k * PTRSIZE) = s.ptr

/-- Number of records whose `MARK` bit is clear. -/
def unmarked_count (am : AllocationMap) : Nat :=
  (records am).countP (fun a => decide (¬ is_marked a))

/-- Relation between a collector state and a later state of the same mark phase: records are
the same but for `MARK` bits that got set. -/
def mark_ext (gc gc' : KiGc) : Prop :=
  ∃ F : Allocation → Allocation, (∀ a, F a = a ∨ F a = set_mark a) ∧
    gc' = { gc with allocs := map_records F gc.allocs }

/-- Postcondition of marking from the pointer values `starts`: every tracked start is marked,
and every record marked on the way has all its tracked children marked and is reachable from a
start. -/
def mark_post (mem : Nat → Nat) (gc : KiGc) (starts : List Nat) (gc' : KiGc) : Prop :=
  mark_ext gc gc' ∧
  (∀ s ∈ starts, tracked gc.allocs s → marked_ptr gc'.allocs s) ∧
  (∀ p, marked_ptr gc'.allocs p → ¬ marked_ptr gc.allocs p →
    (∀ q, edge mem gc.allocs p q → marked_ptr gc'.allocs q) ∧
    ∃ s ∈ starts, reach mem gc.allocs s p)

/-- Bases of the `ROOT` records of a chain, in chain order: the pointers `gc_mark_roots` passes
to `gc_mark_alloc` for that chain. -/
def chain_roots (chain : List Allocation) : List Nat :=
  (chain.filter (fun a => decide (is_root a))).map Allocation.ptr

/-- Pointer values the mark phase starts from: the bases of the `ROOT` records, bucket after
bucket, then the words read from the stack. -/
def mark_starts (mem : Nat → Nat) (gc : KiGc) (top : Nat) : List Nat :=
  ((List.range gc.allocs.nslots).map (fun i => chain_roots (slot gc.allocs.allocs i))).flatten ++
    (gc_mark_stack_positions gc.bottom top).map (load_word mem)

/-- Chain left by the sweep of a chain: the marked records, in order, with `MARK` cleared. -/
def swept_chain (chain : List Allocation) : List Allocation :=
  (chain.filter (fun a => decide (is_marked a))).map clear_mark

/-- Number of records of a list whose `MARK` bit is clear. -/
def unmarked_in (l : List Allocation) : Nat :=
  l.countP (fun a => decide (¬ is_marked a))

/-- Sum of the sizes of the records of a list whose `MARK` bit is clear. -/
def unmarked_bytes (l : List Allocation) : Nat :=
  ((l.filter (fun a => decide (¬ is_marked a))).map Allocation.size).sum

/-! ## Scenarios -/

/-- Collector record before `gc_start`. -/
def gc_blank : KiGc :=
  { allocs := { nslots := 0, nslots_min := 0, nitems := 0, lf_down := 0, lf_up := 0,
                sweep_factor := 0, sweep_limit := 0, allocs := [] }
    paused := false, bottom := 0, min_size := 0 }

/-- State carried by an allocation result (the blank record when the process has exited). -/
def AllocResult.state : Option AllocResult → KiGc
  | some (AllocResult.ok _ gc) => gc
  | _ => gc_blank

/-- Scenario 1, stack: the local whose address is passed to `gc_start` lies at `0x7ffc0100`,
the local `stk` of `gc_mark_stack` at `0x7ffc0000`, and the stack variable that holds the
pointer to block A at `0x7ffc0080`. -/
def scenario1_bottom : Nat := 0x7ffc0100

/-- Scenario 1: address of the local `stk` of `gc_mark_stack`. -/
def scenario1_top : Nat := 0x7ffc0000

/-- Scenario 1: address of the stack variable that holds the pointer to block A. -/
def scenario1_var : Nat := 0x7ffc0080

/-- Scenario 1: base of block A. -/
def scenario1_A : Nat := 0x50001000

/-- Scenario 1: base of block B. -/
def scenario1_B : Nat := 0x50001020

/-- Scenario 1, memory: the bytes of the stack variable spell the base of A, every other byte
is zero. -/
def scenario1_mem (a : Nat) : Nat :=
  if a = 0x7ffc0081 then 0x10 else if a = 0x7ffc0083 then 0x50 else 0

/-- Scenario 1: state after `gc_start(&local)` and `A = gc_malloc(16)`. -/
def scenario1_state_A : KiGc :=
  AllocResult.state
    (gc_malloc scenario1_mem 3 scenario1_top (gc_start gc_blank scenario1_bottom) 16
      (some scenario1_A))

/-- Scenario 1: state after `gc_start(&local)`, `A = gc_malloc(16)` and `B = gc_malloc(16)`. -/
def scenario1_state : KiGc :=
  AllocResult.state
    (gc_malloc scenario1_mem 3 scenario1_top scenario1_state_A 16 (some scenario1_B))

/-- Successive collection cycles, each with the memory contents and the stack top of its
moment. -/
def gc_run_cycles (fuel : Nat) : List ((Nat → Nat) × Nat) → KiGc → Option KiGc
  | [], gc => some gc
  | (mem, top) :: rest, gc =>
    match gc_run mem fuel top gc with
    | some g => gc_run_cycles fuel rest g
    | none => none

/-- Successive `gc_malloc` calls, each given as its size and the pointer the system allocator
answers; `none` when a call does not return. -/
def gc_malloc_calls (mem : Nat → Nat) (fuel : Nat) (top : Nat) :
    List (Nat × Nat) → KiGc → Option KiGc
  | [], gc => some gc
  | (size, p) :: rest, gc =>
    match gc_malloc mem fuel top gc size (some p) with
    | some (AllocResult.ok _ g) => gc_malloc_calls mem fuel top rest g
    | _ => none

/-- The map has a record with base `p`, size `s` and the `ROOT` bit set. -/
def has_root_record (am : AllocationMap) (p s : Nat) : Prop :=
  ∃ a, gc_alloc_map_get am p = some a ∧ a.size = s ∧ is_root a

/-- Collector started by `gc_start_ext(&local, 5, 5, 0.2, 0.8, 0.5)`, the local at
`scenario1_bottom`: a map of 11 chains. -/
def small_start : KiGc :=
  gc_start_ext gc_blank scenario1_bottom 5 5 (2 / 10) (8 / 10) (5 / 10)

/-- Scenario 2: base of block X. -/
def scenario2_X : Nat := 0x50002000

/-- Scenario 2: base of block Y. -/
def scenario2_Y : Nat := 0x50002020

/-- Scenario 2, memory: the first word of X is the base of Y, the first word of Y the base of
X, every other byte is zero. -/
def scenario2_mem (a : Nat) : Nat :=
  if a = 0x50002000 then 0x20 else if a = 0x50002001 then 0x20
  else if a = 0x50002003 then 0x50
  else if a = 0x50002021 then 0x20 else if a = 0x50002023 then 0x50 else 0

/-- Scenario 2: state after `X = gc_malloc(32)` and `Y = gc_malloc(32)`. -/
def scenario2_state : KiGc :=
  AllocResult.state
    (gc_malloc scenario2_mem 3 scenario1_top
      (AllocResult.state
        (gc_malloc scenario2_mem 3 scenario1_top small_start 32 (some scenario2_X)))
      32 (some scenario2_Y))

/-- Scenario 3: base of the root block P. -/
def scenario3_P : Nat := 0x50001000

/-- Scenario 3: base of a block Q that P points to. -/
def scenario3_Q : Nat := 0x50001040

/-- Scenario 3, memory: the first word of P is the base of Q, every other byte is zero. -/
def scenario3_mem (a : Nat) : Nat :=
  if a = 0x50001000 then 0x40 else if a = 0x50001001 then 0x10
  else if a = 0x50001003 then 0x50 else 0

/-- Scenario 3: state after `P = gc_malloc_static(64)`. -/
def scenario3_state : KiGc :=
  AllocResult.state
    (gc_malloc_static scenario3_mem 3 scenario1_top small_start 64 (some scenario3_P))

/-- Scenario 3 continued: state after `P = gc_malloc_static(64)` and `Q = gc_malloc(16)`. -/
def scenario3_state_Q : KiGc :=
  AllocResult.state
    (gc_malloc scenario3_mem 3 scenario1_top scenario3_state 16 (some scenario3_Q))

/-- Scenario 6: state after `gc_start_ext(&local, 5, 5, 0.2, 0.8, 0)` (sweep factor 0) and
`A = gc_malloc(16)`. -/
def scenario6_state : KiGc :=
  AllocResult.state
    (gc_malloc scenario1_mem 3 scenario1_top
      (gc_start_ext gc_blank scenario1_bottom 5 5 (2 / 10) (8 / 10) 0) 16 (some scenario1_A))

/-- Map of one chain: `gc_alloc_map_new(0, 0, 0.5, 0.2, 0.8)`. -/
def tiny_map : AllocationMap := gc_alloc_map_new 0 0 (5 / 10) (2 / 10) (8 / 10)

/-- Map of 101 chains and floor 11: `gc_alloc_map_new(53, 5, 0.5, 0.2, 0.8)`. -/
def wide_map : AllocationMap := gc_alloc_map_new 53 5 (5 / 10) (2 / 10) (8 / 10)

/-- Maps reached from a new map by any sequence of inserts, removes (with or without the
follow-up resize), resizes to fit, sweeps and tag writes (`alloc->tag = f (alloc->tag)` on the
record of a pointer, as done when marking or making a root). -/
inductive reachable_map : AllocationMap → Prop where
  | new (nslots_init nslots_min : Nat) (sf ld lu : ℚ) :
    reachable_map (gc_alloc_map_new nslots_init nslots_min sf ld lu)
  | insert (am : AllocationMap) (p s : Nat) :
    reachable_map am → reachable_map (gc_alloc_map_insert am p s).2
  | remove (am : AllocationMap) (p : Nat) (allow_resize : Bool) :
    reachable_map am → reachable_map (gc_allocation_map_remove am p allow_resize)
  | resize_to_fit (am : AllocationMap) :
    reachable_map am → reachable_map (gc_alloc_map_resize_to_fit am).2
  | sweep (gc : KiGc) : reachable_map gc.allocs → reachable_map (gc_sweep gc).2.allocs
  | tag (am : AllocationMap) (p : Nat) (f : Nat → Nat) :
    reachable_map am → reachable_map (tag_update am p f)

/-- Positions the specification gives for the scan of a block: the word-aligned positions
`base + k * word` with `k * word + word <= size`. -/
def spec_mark_positions (alloc : Allocation) : List Nat :=
  (List.range (alloc.size / PTRSIZE)).map (fun k => alloc.ptr + k * PTRSIZE)

/-- Distinct block bases `0x50001000 + 32 * i` for `i < n`. -/
def scenario_keys (n : Nat) : List Nat :=
  (List.range n).map (fun i => 0x50001000 + 32 * i)

/-- Successive `gc_alloc_map_insert` of blocks of 16 bytes. -/
def insert_keys (am : AllocationMap) (ps : List Nat) : AllocationMap :=
  ps.foldl (fun m p => (gc_alloc_map_insert m p 16).2) am

/-- Successive `gc_allocation_map_remove` with `allow_resize = true`. -/
def remove_keys (am : AllocationMap) (ps : List Nat) : AllocationMap :=
  ps.foldl (fun m p => gc_allocation_map_remove m p true) am

/-- Scenario 5: a map with `nslots = 53` and `nslots_min = 11`
(`gc_alloc_map_new(23, 5, 0.5, 0.2, 0.8)`), 11 items inserted, then 10 of them removed with
`allow_resize = true`. -/
def scenario5_map : AllocationMap :=
  remove_keys (insert_keys (gc_alloc_map_new 23 5 (5 / 10) (2 / 10) (8 / 10)) (scenario_keys 11))
    (scenario_keys 10)

/-- Scenario 4, map: the map of `gc_start_ext(&local, 5, 5, 0.2, 0.8, 0.5)` after the first
`n` of the distinct blocks were inserted. -/
def scenario4_map (n : Nat) : AllocationMap :=
  insert_keys small_start.allocs (scenario_keys n)

/-- Scenario 3 continued, after the mark phase, with a memory in which P does not refer to Q:
the root P is marked, Q is not. -/
def scenario3_marked : KiGc :=
  (gc_mark scenario1_mem 3 scenario1_top scenario3_state_Q).getD gc_blank

/-- Capacity invariant of a map: `nslots_min` and `nslots` are entries of the prime ladder and
`nslots >= nslots_min`. -/
def capacity_ok (am : AllocationMap) : Prop :=
  am.nslots_min ∈ gc_primes ∧ am.nslots ∈ gc_primes ∧ am.nslots_min ≤ am.nslots

/-- Scenario 4: the collector of `gc_start_ext(&local, 5, 5, 0.2, 0.8, 0.5)`, paused
(`gc->paused = true`), after `n` distinct allocations of 16 bytes. -/
def scenario4_state (n : Nat) : Option KiGc :=
  gc_malloc_calls scenario1_mem 3 scenario1_top ((scenario_keys n).map (fun p => (16, p)))
    ({ small_start with paused := true } : KiGc)

/-- State of the map inside `gc_alloc_map_insert` of a new key, after the record was linked at
the head of its chain and `nitems` incremented, before `gc_alloc_map_resize_to_fit`. -/
def insert_front (am : AllocationMap) (ptr size : Nat) : AllocationMap :=
  { am with
    allocs := am.allocs.set (gc_hash ptr % am.nslots)
      (gc_alloc_new ptr size :: slot am.allocs (gc_hash ptr % am.nslots))
    nitems := am.nitems + 1 }

/-- Scenario 2 with another memory: the eight bytes from `X + 1` on hold the base of Y (so no
word-aligned word of X is the base of a block), every other byte is zero. -/
def scenario2_mem_unaligned (a : Nat) : Nat :=
  if a = 0x50002001 then 0x20 else if a = 0x50002002 then 0x20
  else if a = 0x50002004 then 0x50 else 0

end PineGc

set_option maxRecDepth 1000000

namespace PineGc

/-! ## Chains and arrays of chains -/

theorem slot_eq_getElem (l : List (List Allocation)) (i : Nat) (h : i < l.length) :
    slot l i = l[i] := by
  unfold slot
  rw [List.getD_eq_getElem?_getD, List.getElem?_eq_getElem h]; rfl

theorem slot_of_le (l : List (List Allocation)) (i : Nat) (h : l.length ≤ i) :
    slot l i = [] := by
  unfold slot
  rw [List.getD_eq_getElem?_getD, List.getElem?_eq_none h]; rfl

theorem slot_set_self (l : List (List Allocation)) (i : Nat) (c : List Allocation)
    (h : i < l.length) : slot (l.set i c) i = c := by
  unfold slot
  rw [List.getD_eq_getElem?_getD, List.getElem?_set_self h]; rfl

theorem slot_set_ne (l : List (List Allocation)) (i k : Nat) (c : List Allocation)
    (h : i ≠ k) : slot (l.set i c) k = slot l k := by
  unfold slot
  rw [List.getD_eq_getElem?_getD, List.getD_eq_getElem?_getD, List.getElem?_set_ne h]

theorem set_slot_self (l : List (List Allocation)) (i : Nat) : l.set i (slot l i) = l := by
  apply List.ext_getElem?
  intro k
  by_cases hk : i = k
  · subst hk
    by_cases hi : i < l.length
    · rw [List.getElem?_set_self hi, slot_eq_getElem l i hi, List.getElem?_eq_getElem hi]
    · rw [List.getElem?_eq_none (by rw [List.length_set]; omega),
        List.getElem?_eq_none (by omega)]
  · rw [List.getElem?_set_ne hk]

theorem mem_flatten_iff_slot (l : List (List Allocation)) (a : Allocation) :
    a ∈ l.flatten ↔ ∃ i, i < l.length ∧ a ∈ slot l i := by
  rw [List.mem_flatten]
  constructor
  · rintro ⟨c, hc, ha⟩
    obtain ⟨i, hi, rfl⟩ := List.getElem_of_mem hc
    exact ⟨i, hi, by rw [slot_eq_getElem l i hi]; exact ha⟩
  · rintro ⟨i, hi, ha⟩
    rw [slot_eq_getElem l i hi] at ha
    exact ⟨l[i], List.getElem_mem _, ha⟩

theorem flatten_split (l : List (List Allocation)) (i : Nat) (h : i < l.length) :
    l.flatten = (l.take i).flatten ++ slot l i ++ (l.drop (i + 1)).flatten := by
  conv_lhs => rw [← List.take_append_drop i l, List.drop_eq_getElem_cons h]
  rw [List.flatten_append, List.flatten_cons, slot_eq_getElem l i h, List.append_assoc]

theorem flatten_set (l : List (List Allocation)) (i : Nat) (c : List Allocation)
    (h : i < l.length) :
    (l.set i c).flatten = (l.take i).flatten ++ c ++ (l.drop (i + 1)).flatten := by
  rw [List.set_eq_take_cons_drop c h, List.flatten_append, List.flatten_cons,
    List.append_assoc]

/-- Replacing a chain by a permutation of another list changes the records accordingly. -/
theorem flatten_set_perm (l : List (List Allocation)) (i : Nat) (c : List Allocation)
    (h : i < l.length) :
    ∃ R, l.flatten.Perm (slot l i ++ R) ∧ (l.set i c).flatten.Perm (c ++ R) := by
  refine ⟨(l.take i).flatten ++ (l.drop (i + 1)).flatten, ?_, ?_⟩
  · rw [flatten_split l i h]
    have : ((l.take i).flatten ++ slot l i).Perm (slot l i ++ (l.take i).flatten) :=
      List.perm_append_comm
    simpa [List.append_assoc] using this.append_right (l.drop (i + 1)).flatten
  · rw [flatten_set l i c h]
    have : ((l.take i).flatten ++ c).Perm (c ++ (l.take i).flatten) := List.perm_append_comm
    simpa [List.append_assoc] using this.append_right (l.drop (i + 1)).flatten

theorem set_map_eq (l : List (List Allocation)) (i : Nat) (F : Allocation → Allocation)
    (hF : ∀ k, k ≠ i → k < l.length → (slot l k).map F = slot l k) :
    l.set i ((slot l i).map F) = l.map (List.map F) := by
  apply List.ext_getElem?
  intro k
  by_cases hk : i = k
  · subst hk
    by_cases hi : i < l.length
    · rw [List.getElem?_set_self hi, List.getElem?_map, List.getElem?_eq_getElem hi,
        slot_eq_getElem l i hi]; rfl
    · rw [List.getElem?_eq_none (by rw [List.length_set]; omega),
        List.getElem?_eq_none (by rw [List.length_map]; omega)]
  · rw [List.getElem?_set_ne hk, List.getElem?_map]
    by_cases hk2 : k < l.length
    · have := hF k (Ne.symm hk) hk2
      rw [slot_eq_getElem l k hk2] at this
      rw [List.getElem?_eq_getElem hk2, Option.map_some', this]
    · rw [List.getElem?_eq_none (by omega)]; rfl

theorem slot_map (l : List (List Allocation)) (F : Allocation → Allocation) (i : Nat) :
    slot (l.map (List.map F)) i = (slot l i).map F := by
  by_cases hi : i < l.length
  · rw [slot_eq_getElem _ i (by rw [List.length_map]; exact hi), slot_eq_getElem l i hi,
      List.getElem_map]
  · rw [slot_of_le _ i (by rw [List.length_map]; omega), slot_of_le l i (by omega)]; rfl

end PineGc

namespace PineGc

/-! ## Well-formed maps and lookup -/

theorem well_formed.length_eq {am : AllocationMap} (h : well_formed am) :
    am.allocs.length = am.nslots := h.1

theorem well_formed.nslots_pos {am : AllocationMap} (h : well_formed am) : 0 < am.nslots := h.2.1

theorem well_formed.bucket {am : AllocationMap} (h : well_formed am) {i : Nat}
    (hi : i < am.nslots) {a : Allocation} (ha : a ∈ slot am.allocs i) :
    gc_hash a.ptr % am.nslots = i := h.2.2.1 i hi a ha

theorem well_formed.nodup {am : AllocationMap} (h : well_formed am) :
    ((records am).map Allocation.ptr).Nodup := h.2.2.2.1

theorem well_formed.nitems_eq {am : AllocationMap} (h : well_formed am) :
    am.nitems = (records am).length := h.2.2.2.2

theorem well_formed.index_lt {am : AllocationMap} (h : well_formed am) (p : Nat) :
    gc_hash p % am.nslots < am.allocs.length := by
  rw [h.length_eq]; exact Nat.mod_lt _ h.nslots_pos

theorem mem_records_iff (am : AllocationMap) (a : Allocation) :
    a ∈ records am ↔ ∃ i, i < am.allocs.length ∧ a ∈ slot am.allocs i :=
  mem_flatten_iff_slot am.allocs a

theorem mem_records_of_mem_slot (am : AllocationMap) (i : Nat) (a : Allocation)
    (ha : a ∈ slot am.allocs i) : a ∈ records am := by
  by_cases hi : i < am.allocs.length
  · exact (mem_records_iff am a).mpr ⟨i, hi, ha⟩
  · rw [slot_of_le _ i (by omega)] at ha; simp at ha

theorem well_formed.mem_slot {am : AllocationMap} (h : well_formed am) {a : Allocation}
    (ha : a ∈ records am) : a ∈ slot am.allocs (gc_hash a.ptr % am.nslots) := by
  obtain ⟨i, hi, hs⟩ := (mem_records_iff am a).mp ha
  rw [h.length_eq] at hi
  rw [h.bucket hi hs]; exact hs

theorem well_formed.ptr_inj {am : AllocationMap} (h : well_formed am) {a b : Allocation}
    (ha : a ∈ records am) (hb : b ∈ records am) (hab : a.ptr = b.ptr) : a = b :=
  List.inj_on_of_nodup_map h.nodup ha hb hab

theorem get_walk_some {p : Nat} {c : List Allocation} {a : Allocation}
    (h : gc_alloc_map_get_walk p c = some a) : a ∈ c ∧ a.ptr = p := by
  induction c with
  | nil => simp [gc_alloc_map_get_walk] at h
  | cons x rest ih =>
    unfold gc_alloc_map_get_walk at h
    by_cases hx : x.ptr = p
    · rw [if_pos hx] at h
      cases Option.some.inj h
      exact ⟨List.mem_cons_self _ _, hx⟩
    · rw [if_neg hx] at h
      exact ⟨List.mem_cons_of_mem _ (ih h).1, (ih h).2⟩

theorem get_walk_none_iff (p : Nat) (c : List Allocation) :
    gc_alloc_map_get_walk p c = none ↔ ∀ a ∈ c, a.ptr ≠ p := by
  induction c with
  | nil => simp [gc_alloc_map_get_walk]
  | cons x rest ih =>
    unfold gc_alloc_map_get_walk
    by_cases hx : x.ptr = p
    · rw [if_pos hx]
      simp only [List.mem_cons, forall_eq_or_imp]
      constructor
      · intro h; cases h
      · intro h; exact absurd hx h.1
    · rw [if_neg hx, ih]
      simp only [List.mem_cons, forall_eq_or_imp]
      exact ⟨fun h => ⟨hx, h⟩, fun h => h.2⟩

theorem get_walk_isSome_of_mem {p : Nat} {c : List Allocation} {a : Allocation}
    (ha : a ∈ c) (hp : a.ptr = p) : ∃ b, gc_alloc_map_get_walk p c = some b := by
  cases h : gc_alloc_map_get_walk p c with
  | some b => exact ⟨b, rfl⟩
  | none => exact absurd hp ((get_walk_none_iff p c).mp h a ha)

theorem get_some_mem {am : AllocationMap} {p : Nat} {a : Allocation}
    (h : gc_alloc_map_get am p = some a) : a ∈ records am ∧ a.ptr = p := by
  unfold gc_alloc_map_get at h
  obtain ⟨h1, h2⟩ := get_walk_some h
  exact ⟨mem_records_of_mem_slot am _ a h1, h2⟩

theorem get_eq_some_iff {am : AllocationMap} (h : well_formed am) (p : Nat) (a : Allocation) :
    gc_alloc_map_get am p = some a ↔ a ∈ records am ∧ a.ptr = p := by
  constructor
  · exact get_some_mem
  · rintro ⟨ha, hp⟩
    have hs := h.mem_slot ha
    rw [hp] at hs
    obtain ⟨b, hb⟩ := get_walk_isSome_of_mem hs hp
    have hb2 := get_walk_some hb
    have : b = a :=
      h.ptr_inj (mem_records_of_mem_slot am _ b hb2.1) ha (by rw [hb2.2, hp])
    unfold gc_alloc_map_get
    rw [hb, this]

theorem get_eq_none_iff {am : AllocationMap} (h : well_formed am) (p : Nat) :
    gc_alloc_map_get am p = none ↔ ∀ a ∈ records am, a.ptr ≠ p := by
  constructor
  · intro hn a ha hp
    have := (get_eq_some_iff h p a).mpr ⟨ha, hp⟩
    rw [hn] at this; cases this
  · intro hall
    cases hg : gc_alloc_map_get am p with
    | none => rfl
    | some a => exact absurd (get_some_mem hg).2 (hall a (get_some_mem hg).1)

theorem get_of_mem {am : AllocationMap} (h : well_formed am) {a : Allocation}
    (ha : a ∈ records am) : gc_alloc_map_get am a.ptr = some a :=
  (get_eq_some_iff h a.ptr a).mpr ⟨ha, rfl⟩

/-- Chains of a well-formed map hold no key twice. -/
theorem well_formed.slot_nodup {am : AllocationMap} (h : well_formed am) (i : Nat) :
    ((slot am.allocs i).map Allocation.ptr).Nodup := by
  by_cases hi : i < am.allocs.length
  · have hn := h.nodup
    unfold records at hn
    rw [flatten_split am.allocs i hi, List.map_append, List.map_append] at hn
    exact (List.Nodup.of_append_left hn).of_append_right
  · rw [slot_of_le _ i (by omega)]; exact List.nodup_nil

/-! ## Rewriting records in place -/

theorem records_map_records (F : Allocation → Allocation) (am : AllocationMap) :
    records (map_records F am) = (records am).map F := by
  unfold records map_records
  simp only [List.map_flatten]

theorem well_formed_map_records {am : AllocationMap} (h : well_formed am)
    (F : Allocation → Allocation) (hF : ∀ a, (F a).ptr = a.ptr) :
    well_formed (map_records F am) := by
  have hptr : (List.map Allocation.ptr ∘ List.map F) = List.map Allocation.ptr := by
    funext c; simp [List.map_map, Function.comp_def, hF]
  refine ⟨?_, ?_, ?_, ?_, ?_⟩
  · show (am.allocs.map (List.map F)).length = am.nslots
    rw [List.length_map]; exact h.length_eq
  · exact h.nslots_pos
  · intro i hi a ha
    change a ∈ slot (am.allocs.map (List.map F)) i at ha
    rw [slot_map] at ha
    obtain ⟨b, hb, rfl⟩ := List.mem_map.mp ha
    rw [hF]; exact h.bucket hi hb
  · rw [records_map_records, List.map_map]
    have : (Allocation.ptr ∘ F) = Allocation.ptr := by funext a; exact hF a
    rw [this]; exact h.nodup
  · rw [records_map_records, List.length_map]; exact h.nitems_eq

theorem get_walk_map (F : Allocation → Allocation) (hF : ∀ a, (F a).ptr = a.ptr) (p : Nat)
    (c : List Allocation) :
    gc_alloc_map_get_walk p (c.map F) = (gc_alloc_map_get_walk p c).map F := by
  induction c with
  | nil => rfl
  | cons x rest ih =>
    simp only [List.map_cons, gc_alloc_map_get_walk, hF]
    by_cases hx : x.ptr = p
    · simp [hx]
    · simp [hx, ih]

theorem get_map_records (F : Allocation → Allocation) (hF : ∀ a, (F a).ptr = a.ptr)
    (am : AllocationMap) (p : Nat) :
    gc_alloc_map_get (map_records F am) p = (gc_alloc_map_get am p).map F := by
  unfold gc_alloc_map_get
  show gc_alloc_map_get_walk p (slot (am.allocs.map (List.map F)) _) = _
  rw [slot_map, get_walk_map F hF]
  rfl

/-- In a well-formed map, rewriting the chain of `p` by a function that only touches records
with key `p` is rewriting every record. -/
theorem set_index_map_eq {am : AllocationMap} (h : well_formed am) (p : Nat)
    (F : Allocation → Allocation) (hF : ∀ a, a.ptr ≠ p → F a = a) :
    am.allocs.set (gc_hash p % am.nslots) ((slot am.allocs (gc_hash p % am.nslots)).map F) =
      am.allocs.map (List.map F) := by
  apply set_map_eq
  intro k hk hkl
  rw [h.length_eq] at hkl
  conv_rhs => rw [← List.map_id (slot am.allocs k)]
  apply List.map_congr_left
  intro a ha
  have hb := h.bucket hkl ha
  have : a.ptr ≠ p := by
    intro hp; rw [hp] at hb; exact hk hb.symm
  rw [hF a this]; rfl

end PineGc

namespace PineGc

/-! ## Resize -/

/-- Invariant of the array under construction in `gc_alloc_map_resize`. -/
theorem resize_step_length (c : Nat) (acc : List (List Allocation)) (a : Allocation) :
    (gc_alloc_map_resize_step c acc a).length = acc.length := by
  unfold gc_alloc_map_resize_step
  simp only [List.length_set]

theorem resize_step_bucket (c : Nat) (acc : List (List Allocation))
    (hlen : acc.length = c)
    (hb : ∀ i < c, ∀ x ∈ slot acc i, gc_hash x.ptr % c = i) (a : Allocation) :
    ∀ i < c, ∀ x ∈ slot (gc_alloc_map_resize_step c acc a) i, gc_hash x.ptr % c = i := by
  intro i hi x hx
  unfold gc_alloc_map_resize_step at hx
  simp only at hx
  by_cases hk : gc_hash a.ptr % c = i
  · rw [hk, slot_set_self acc i _ (by omega)] at hx
    rcases List.mem_cons.mp hx with rfl | hx
    · exact hk
    · exact hb i hi x hx
  · rw [slot_set_ne acc _ i _ hk] at hx
    exact hb i hi x hx

theorem resize_step_perm (c : Nat) (hc : 0 < c) (acc : List (List Allocation))
    (hlen : acc.length = c) (a : Allocation) :
    (gc_alloc_map_resize_step c acc a).flatten.Perm (a :: acc.flatten) := by
  unfold gc_alloc_map_resize_step
  simp only
  have hlt : gc_hash a.ptr % c < acc.length := by rw [hlen]; exact Nat.mod_lt _ hc
  obtain ⟨R, h1, h2⟩ := flatten_set_perm acc (gc_hash a.ptr % c)
    (a :: slot acc (gc_hash a.ptr % c)) hlt
  exact h2.trans (List.Perm.cons a h1.symm)

theorem resize_chain (c : Nat) (hc : 0 < c) (chain : List Allocation) :
    ∀ (acc : List (List Allocation)), acc.length = c →
    (∀ i < c, ∀ x ∈ slot acc i, gc_hash x.ptr % c = i) →
    (chain.foldl (gc_alloc_map_resize_step c) acc).length = c ∧
    (∀ i < c, ∀ x ∈ slot (chain.foldl (gc_alloc_map_resize_step c) acc) i,
      gc_hash x.ptr % c = i) ∧
    (chain.foldl (gc_alloc_map_resize_step c) acc).flatten.Perm (chain ++ acc.flatten) := by
  induction chain with
  | nil => intro acc hl hb; exact ⟨hl, hb, List.Perm.refl _⟩
  | cons a rest ih =>
    intro acc hl hb
    have hl1 : (gc_alloc_map_resize_step c acc a).length = c := by
      rw [resize_step_length]; exact hl
    obtain ⟨h1, h2, h3⟩ := ih (gc_alloc_map_resize_step c acc a) hl1
      (resize_step_bucket c acc hl hb a)
    refine ⟨h1, h2, ?_⟩
    rw [List.foldl_cons]
    refine h3.trans ?_
    have h4 := (resize_step_perm c hc acc hl a).append_left rest
    refine h4.trans ?_
    rw [List.cons_append]
    exact List.perm_middle

theorem resize_chains (c : Nat) (hc : 0 < c) (chains : List (List Allocation)) :
    ∀ (acc : List (List Allocation)), acc.length = c →
    (∀ i < c, ∀ x ∈ slot acc i, gc_hash x.ptr % c = i) →
    (chains.foldl (fun resized chain => chain.foldl (gc_alloc_map_resize_step c) resized)
      acc).length = c ∧
    (∀ i < c, ∀ x ∈ slot (chains.foldl
      (fun resized chain => chain.foldl (gc_alloc_map_resize_step c) resized) acc) i,
      gc_hash x.ptr % c = i) ∧
    (chains.foldl (fun resized chain => chain.foldl (gc_alloc_map_resize_step c) resized)
      acc).flatten.Perm (chains.flatten ++ acc.flatten) := by
  induction chains with
  | nil => intro acc hl hb; exact ⟨hl, hb, List.Perm.refl _⟩
  | cons ch rest ih =>
    intro acc hl hb
    obtain ⟨g1, g2, g3⟩ := resize_chain c hc ch acc hl hb
    obtain ⟨h1, h2, h3⟩ := ih _ g1 g2
    refine ⟨h1, h2, ?_⟩
    rw [List.foldl_cons, List.flatten_cons]
    refine h3.trans ?_
    refine (g3.append_left rest.flatten).trans ?_
    rw [← List.append_assoc]
    exact List.perm_append_comm.append_right _

theorem slot_replicate_nil (c i : Nat) : slot (List.replicate c ([] : List Allocation)) i = [] := by
  by_cases hi : i < (List.replicate c ([] : List Allocation)).length
  · rw [slot_eq_getElem _ i hi, List.getElem_replicate]
  · rw [slot_of_le _ i (by omega)]

theorem flatten_replicate_nil (c : Nat) :
    (List.replicate c ([] : List Allocation)).flatten = [] := by
  induction c with
  | zero => rfl
  | succ n ih => rw [List.replicate_succ, List.flatten_cons, ih]; rfl

theorem resize_records_perm (am : AllocationMap) (c : Nat) (hc : 0 < c)
    (hlen : am.allocs.length = am.nslots) :
    (records (gc_alloc_map_resize am c)).Perm (records am) := by
  unfold records gc_alloc_map_resize
  simp only
  have htake : am.allocs.take am.nslots = am.allocs := by
    exact List.take_of_length_le (le_of_eq hlen)
  rw [htake]
  have := (resize_chains c hc am.allocs (List.replicate c []) (List.length_replicate _ _)
    (by intro i _ x hx; rw [slot_replicate_nil] at hx; simp at hx)).2.2
  rw [flatten_replicate_nil, List.append_nil] at this
  exact this

theorem well_formed_resize {am : AllocationMap} (h : well_formed am) (c : Nat) (hc : 0 < c) :
    well_formed (gc_alloc_map_resize am c) := by
  have hperm := resize_records_perm am c hc h.length_eq
  obtain ⟨h1, h2, _⟩ := resize_chains c hc (am.allocs.take am.nslots) (List.replicate c [])
    (List.length_replicate _ _)
    (by intro i _ x hx; rw [slot_replicate_nil] at hx; simp at hx)
  refine ⟨h1, hc, h2, ?_, ?_⟩
  · exact ((hperm.map Allocation.ptr).nodup_iff).mpr h.nodup
  · show am.nitems = _
    rw [hperm.length_eq]; exact h.nitems_eq

theorem get_resize {am : AllocationMap} (h : well_formed am) (c : Nat) (hc : 0 < c) (p : Nat) :
    gc_alloc_map_get (gc_alloc_map_resize am c) p = gc_alloc_map_get am p := by
  have hw := well_formed_resize h c hc
  have hperm := resize_records_perm am c hc h.length_eq
  cases hg : gc_alloc_map_get am p with
  | none =>
    rw [get_eq_none_iff hw]
    intro a ha
    exact (get_eq_none_iff h p).mp hg a (hperm.mem_iff.mp ha)
  | some a =>
    rw [get_eq_some_iff hw]
    obtain ⟨h1, h2⟩ := (get_eq_some_iff h p a).mp hg
    exact ⟨hperm.mem_iff.mpr h1, h2⟩

theorem resize_fields (am : AllocationMap) (c : Nat) :
    (gc_alloc_map_resize am c).nslots = c ∧
    (gc_alloc_map_resize am c).nitems = am.nitems ∧
    (gc_alloc_map_resize am c).nslots_min = am.nslots_min ∧
    (gc_alloc_map_resize am c).lf_up = am.lf_up ∧
    (gc_alloc_map_resize am c).lf_down = am.lf_down ∧
    (gc_alloc_map_resize am c).sweep_factor = am.sweep_factor :=
  ⟨rfl, rfl, rfl, rfl, rfl, rfl⟩

/-! ## Ideal size -/

theorem gc_ideal_size_loop_pos (n : Nat) : ∀ (l : List Nat) (p : Nat),
    gc_ideal_size_loop n l = some p → n < p := by
  intro l
  induction l with
  | nil => intro p h; simp [gc_ideal_size_loop] at h
  | cons x rest ih =>
    intro p h
    unfold gc_ideal_size_loop at h
    by_cases hx : x > n
    · rw [if_pos hx] at h; cases Option.some.inj h; exact hx
    · rw [if_neg hx] at h; exact ih p h

theorem gc_ideal_size_pos (n : Nat) : 0 < gc_ideal_size n := by
  unfold gc_ideal_size
  cases h : gc_ideal_size_loop n (gc_primes.take PRIMES_COUNT) with
  | some p => exact Nat.lt_of_le_of_lt (Nat.zero_le _) (gc_ideal_size_loop_pos n _ p h)
  | none => decide

/-! ## Resize to fit -/

/-- Every capacity `gc_alloc_map_resize_to_fit` can choose: either the map is returned as it
is, or it is resized to a positive capacity. -/
theorem resize_to_fit_cases (am : AllocationMap) :
    gc_alloc_map_resize_to_fit am = (false, am) ∨
    ∃ c, 0 < c ∧ gc_alloc_map_resize_to_fit am = (true, gc_alloc_map_resize am c) := by
  unfold gc_alloc_map_resize_to_fit
  simp only
  by_cases h1 : gc_alloc_map_load_factor am > am.lf_up
  · rw [if_pos h1]
    unfold gc_resize_more
    simp only
    by_cases h2 : gc_ideal_size am.nitems > am.nslots
    · rw [if_pos h2]; exact Or.inr ⟨_, gc_ideal_size_pos _, rfl⟩
    · rw [if_neg h2]; exact Or.inl rfl
  · rw [if_neg h1]
    by_cases h3 : gc_alloc_map_load_factor am < am.lf_down
    · rw [if_pos h3]
      unfold gc_resize_less
      simp only
      by_cases h4 : (if gc_ideal_size am.nitems < am.nslots_min then am.nslots_min
          else gc_ideal_size am.nitems) < am.nslots
      · rw [if_pos h4]
        refine Or.inr ⟨_, ?_, rfl⟩
        by_cases h5 : gc_ideal_size am.nitems < am.nslots_min
        · rw [if_pos h5]; exact Nat.lt_of_le_of_lt (Nat.zero_le _) h5
        · rw [if_neg h5]; exact gc_ideal_size_pos _
      · rw [if_neg h4]; exact Or.inl rfl
    · rw [if_neg h3]; exact Or.inl rfl

end PineGc

namespace PineGc

theorem well_formed_resize_to_fit {am : AllocationMap} (h : well_formed am) :
    well_formed (gc_alloc_map_resize_to_fit am).2 := by
  rcases resize_to_fit_cases am with h1 | ⟨c, hc, h1⟩
  · rw [h1]; exact h
  · rw [h1]; exact well_formed_resize h c hc

theorem get_resize_to_fit {am : AllocationMap} (h : well_formed am) (p : Nat) :
    gc_alloc_map_get (gc_alloc_map_resize_to_fit am).2 p = gc_alloc_map_get am p := by
  rcases resize_to_fit_cases am with h1 | ⟨c, hc, h1⟩
  · rw [h1]
  · rw [h1]; exact get_resize h c hc p

theorem records_resize_to_fit_perm (am : AllocationMap) (hlen : am.allocs.length = am.nslots) :
    (records (gc_alloc_map_resize_to_fit am).2).Perm (records am) := by
  rcases resize_to_fit_cases am with h1 | ⟨c, hc, h1⟩
  · rw [h1]
  · rw [h1]; exact resize_records_perm am c hc hlen

theorem nitems_resize_to_fit (am : AllocationMap) :
    (gc_alloc_map_resize_to_fit am).2.nitems = am.nitems := by
  rcases resize_to_fit_cases am with h1 | ⟨c, _, h1⟩
  · rw [h1]
  · rw [h1]; rfl

end PineGc

namespace PineGc

/-! ## Tag updates -/

theorem tag_update_walk_eq_map (p : Nat) (f : Nat → Nat) (c : List Allocation)
    (hn : (c.map Allocation.ptr).Nodup) :
    tag_update_walk p f c =
      c.map (fun a => if a.ptr = p then { a with tag := f a.tag } else a) := by
  induction c with
  | nil => rfl
  | cons x rest ih =>
    rw [List.map_cons, List.nodup_cons] at hn
    unfold tag_update_walk
    by_cases hx : x.ptr = p
    · rw [if_pos hx, List.map_cons, if_pos hx]
      congr 1
      conv_lhs => rw [← List.map_id rest]
      apply List.map_congr_left
      intro a ha
      have : a.ptr ≠ p := by
        intro hap
        exact hn.1 (by rw [hx, ← hap]; exact List.mem_map_of_mem _ ha)
      rw [if_neg this]; rfl
    · rw [if_neg hx, List.map_cons, if_neg hx, ih hn.2]

theorem tag_update_eq {am : AllocationMap} (h : well_formed am) (p : Nat) (f : Nat → Nat) :
    tag_update am p f =
      map_records (fun a => if a.ptr = p then { a with tag := f a.tag } else a) am := by
  unfold tag_update map_records
  simp only
  rw [tag_update_walk_eq_map p f _ (h.slot_nodup _)]
  rw [set_index_map_eq h p _ (by intro a ha; rw [if_neg ha])]

/-! ## Insert -/

theorem insert_walk_none_iff (alloc : Allocation) (c : List Allocation) :
    gc_alloc_map_insert_walk alloc c = none ↔ ∀ a ∈ c, a.ptr ≠ alloc.ptr := by
  induction c with
  | nil => simp [gc_alloc_map_insert_walk]
  | cons x rest ih =>
    unfold gc_alloc_map_insert_walk
    by_cases hx : x.ptr = alloc.ptr
    · rw [if_pos hx]
      simp only [List.mem_cons, forall_eq_or_imp]
      constructor
      · intro h; cases h
      · intro h; exact absurd hx h.1
    · rw [if_neg hx]
      simp only [List.mem_cons, forall_eq_or_imp]
      cases hw : gc_alloc_map_insert_walk alloc rest with
      | none => simp only [true_iff]; exact ⟨hx, ih.mp hw⟩
      | some r =>
        constructor
        · intro hc; cases hc
        · intro hall
          have := ih.mpr hall.2
          rw [hw] at this; cases this

theorem insert_walk_eq_map (alloc : Allocation) (c : List Allocation)
    (hn : (c.map Allocation.ptr).Nodup) (hex : ∃ a ∈ c, a.ptr = alloc.ptr) :
    gc_alloc_map_insert_walk alloc c =
      some (c.map (fun a => if a.ptr = alloc.ptr then alloc else a)) := by
  induction c with
  | nil => obtain ⟨a, ha, _⟩ := hex; simp at ha
  | cons x rest ih =>
    rw [List.map_cons, List.nodup_cons] at hn
    unfold gc_alloc_map_insert_walk
    by_cases hx : x.ptr = alloc.ptr
    · rw [if_pos hx, List.map_cons, if_pos hx]
      congr 2
      conv_lhs => rw [← List.map_id rest]
      apply List.map_congr_left
      intro a ha
      have : a.ptr ≠ alloc.ptr := by
        intro hap
        exact hn.1 (by rw [hx, ← hap]; exact List.mem_map_of_mem _ ha)
      rw [if_neg this]; rfl
    · rw [if_neg hx]
      have hex2 : ∃ a ∈ rest, a.ptr = alloc.ptr := by
        obtain ⟨a, ha, hp⟩ := hex
        rcases List.mem_cons.mp ha with rfl | ha
        · exact absurd hp hx
        · exact ⟨a, ha, hp⟩
      rw [ih hn.2 hex2, List.map_cons, if_neg hx]

/-- Insert of a key that has a record: the record is replaced where it stands. -/
theorem insert_existing {am : AllocationMap} (h : well_formed am) (p s : Nat)
    (old : Allocation) (hold : gc_alloc_map_get am p = some old) :
    gc_alloc_map_insert am p s =
      (some (gc_alloc_new p s),
        map_records (fun a => if a.ptr = p then gc_alloc_new p s else a) am) := by
  obtain ⟨hmem, hp⟩ := get_some_mem hold
  have hs := h.mem_slot hmem
  rw [hp] at hs
  unfold gc_alloc_map_insert
  simp only
  rw [insert_walk_eq_map (gc_alloc_new p s) _ (h.slot_nodup _) ⟨old, hs, hp⟩]
  simp only
  have hset := set_index_map_eq h p (fun a => if a.ptr = p then gc_alloc_new p s else a)
    (by intro a ha; simp only; rw [if_neg ha])
  show (some (gc_alloc_new p s), _) = _
  unfold map_records
  rw [← hset]
  rfl

/-- State of `gc_alloc_map_insert` after the new record is linked in and before the
resize-to-fit. -/
theorem insert_front_wf {am : AllocationMap} (h : well_formed am) (p s : Nat)
    (hnew : gc_alloc_map_get am p = none) :
    well_formed { am with
      allocs := am.allocs.set (gc_hash p % am.nslots)
        (gc_alloc_new p s :: slot am.allocs (gc_hash p % am.nslots))
      nitems := am.nitems + 1 } ∧
    (records { am with
      allocs := am.allocs.set (gc_hash p % am.nslots)
        (gc_alloc_new p s :: slot am.allocs (gc_hash p % am.nslots))
      nitems := am.nitems + 1 }).Perm (gc_alloc_new p s :: records am) := by
  have hlt := h.index_lt p
  obtain ⟨R, h1, h2⟩ := flatten_set_perm am.allocs (gc_hash p % am.nslots)
    (gc_alloc_new p s :: slot am.allocs (gc_hash p % am.nslots)) hlt
  have hperm : (am.allocs.set (gc_hash p % am.nslots)
      (gc_alloc_new p s :: slot am.allocs (gc_hash p % am.nslots))).flatten.Perm
      (gc_alloc_new p s :: records am) := h2.trans (List.Perm.cons _ h1.symm)
  refine ⟨⟨?_, h.nslots_pos, ?_, ?_, ?_⟩, hperm⟩
  · show (am.allocs.set _ _).length = am.nslots
    rw [List.length_set]; exact h.length_eq
  · intro i hi a ha
    change a ∈ slot (am.allocs.set _ _) i at ha
    by_cases hk : gc_hash p % am.nslots = i
    · rw [hk, slot_set_self _ _ _ (by rw [h.length_eq]; exact hi)] at ha
      rcases List.mem_cons.mp ha with rfl | ha
      · exact hk
      · exact h.bucket hi ha
    · rw [slot_set_ne _ _ _ _ hk] at ha
      exact h.bucket hi ha
  · show ((am.allocs.set _ _).flatten.map Allocation.ptr).Nodup
    rw [((hperm.map Allocation.ptr).nodup_iff), List.map_cons, List.nodup_cons]
    refine ⟨?_, h.nodup⟩
    intro hm
    obtain ⟨a, ha, hap⟩ := List.mem_map.mp hm
    exact (get_eq_none_iff h p).mp hnew a ha hap
  · show am.nitems + 1 = (am.allocs.set _ _).flatten.length
    rw [hperm.length_eq, List.length_cons, h.nitems_eq]

/-- Insert of a key that has no record. -/
theorem insert_new {am : AllocationMap} (h : well_formed am) (p s : Nat)
    (hnew : gc_alloc_map_get am p = none) :
    well_formed (gc_alloc_map_insert am p s).2 ∧
    (gc_alloc_map_insert am p s).1 = some (gc_alloc_new p s) ∧
    (records (gc_alloc_map_insert am p s).2).Perm (gc_alloc_new p s :: records am) ∧
    (gc_alloc_map_insert am p s).2.nitems = am.nitems + 1 := by
  obtain ⟨hw1, hp1⟩ := insert_front_wf h p s hnew
  have hwalk : gc_alloc_map_insert_walk (gc_alloc_new p s)
      (slot am.allocs (gc_hash p % am.nslots)) = none := by
    rw [insert_walk_none_iff]
    intro a ha
    exact (get_eq_none_iff h p).mp hnew a (mem_records_of_mem_slot am _ a ha)
  have hget1 : gc_alloc_map_get { am with
      allocs := am.allocs.set (gc_hash p % am.nslots)
        (gc_alloc_new p s :: slot am.allocs (gc_hash p % am.nslots))
      nitems := am.nitems + 1 } p = some (gc_alloc_new p s) :=
    (get_eq_some_iff hw1 p _).mpr ⟨hp1.mem_iff.mpr (List.mem_cons_self _ _), rfl⟩
  unfold gc_alloc_map_insert
  simp only
  rw [hwalk]
  simp only
  refine ⟨?_, ?_, ?_, ?_⟩
  · split
    · exact well_formed_resize_to_fit hw1
    · exact well_formed_resize_to_fit hw1
  · split
    · simp only
      rw [get_resize_to_fit hw1, hget1]
    · rfl
  · split
    · exact (records_resize_to_fit_perm _ hw1.length_eq).trans hp1
    · exact (records_resize_to_fit_perm _ hw1.length_eq).trans hp1
  · split
    · simp only; rw [nitems_resize_to_fit]
    · simp only; rw [nitems_resize_to_fit]

/-! ## Remove -/

theorem remove_walk_fst (p : Nat) (c : List Allocation) :
    ∀ n, (gc_allocation_map_remove_walk p c n).1 = c.filter (fun a => decide (a.ptr ≠ p)) := by
  induction c with
  | nil => intro n; rfl
  | cons x rest ih =>
    intro n
    unfold gc_allocation_map_remove_walk
    by_cases hx : x.ptr = p
    · rw [if_pos hx, ih, List.filter_cons_of_neg (by simp [hx])]
    · rw [if_neg hx]
      simp only
      rw [ih, List.filter_cons_of_pos (by simp [hx])]

theorem remove_walk_absent (p : Nat) (c : List Allocation) (hc : ∀ a ∈ c, a.ptr ≠ p) :
    ∀ n, gc_allocation_map_remove_walk p c n = (c, n) := by
  induction c with
  | nil => intro n; rfl
  | cons x rest ih =>
    intro n
    unfold gc_allocation_map_remove_walk
    rw [if_neg (hc x (List.mem_cons_self _ _))]
    simp only
    rw [ih (fun a ha => hc a (List.mem_cons_of_mem _ ha))]

theorem remove_walk_snd (p : Nat) (c : List Allocation) (hn : (c.map Allocation.ptr).Nodup)
    (hex : ∃ a ∈ c, a.ptr = p) :
    ∀ n, 0 < n → (gc_allocation_map_remove_walk p c n).2 = n - 1 := by
  induction c with
  | nil => obtain ⟨a, ha, _⟩ := hex; simp at ha
  | cons x rest ih =>
    intro n hpos
    rw [List.map_cons, List.nodup_cons] at hn
    unfold gc_allocation_map_remove_walk
    by_cases hx : x.ptr = p
    · rw [if_pos hx]
      have hrest : ∀ a ∈ rest, a.ptr ≠ p := by
        intro a ha hap
        exact hn.1 (by rw [hx, ← hap]; exact List.mem_map_of_mem _ ha)
      rw [remove_walk_absent p rest hrest]
      unfold size_dec
      rw [if_neg (by omega)]
    · rw [if_neg hx]
      simp only
      have hex2 : ∃ a ∈ rest, a.ptr = p := by
        obtain ⟨a, ha, hp⟩ := hex
        rcases List.mem_cons.mp ha with rfl | ha
        · exact absurd hp hx
        · exact ⟨a, ha, hp⟩
      exact ih hn.2 hex2 n hpos

/-- Remove of a key that has no record, without the follow-up resize: nothing changes. -/
theorem remove_absent_noresize (am : AllocationMap) (p : Nat)
    (hc : ∀ a ∈ slot am.allocs (gc_hash p % am.nslots), a.ptr ≠ p) :
    gc_allocation_map_remove am p false = am := by
  unfold gc_allocation_map_remove
  simp only
  rw [remove_walk_absent p _ hc]
  simp only [set_slot_self]
  rfl

theorem remove_absent_resize (am : AllocationMap) (p : Nat)
    (hc : ∀ a ∈ slot am.allocs (gc_hash p % am.nslots), a.ptr ≠ p) :
    gc_allocation_map_remove am p true = (gc_alloc_map_resize_to_fit am).2 := by
  have h := remove_absent_noresize am p hc
  unfold gc_allocation_map_remove at h ⊢
  simp only at h ⊢
  simp only [Bool.false_eq_true, if_false] at h
  simp only [if_true]
  rw [h]

end PineGc

namespace PineGc

/-! ## Flag bits -/

theorem and_mark_ne_zero_iff (t : Nat) : t &&& GC_FLAG_MARK ≠ 0 ↔ t.testBit 1 = true := by
  have h := Nat.and_two_pow t 1
  have h2 : t &&& GC_FLAG_MARK = (t.testBit 1).toNat * 2 := h
  rw [h2]
  cases t.testBit 1 <;> simp

theorem and_root_ne_zero_iff (t : Nat) : t &&& GC_FLAG_ROOT ≠ 0 ↔ t.testBit 0 = true := by
  have h := Nat.and_two_pow t 0
  have h2 : t &&& GC_FLAG_ROOT = (t.testBit 0).toNat * 1 := h
  rw [h2]
  cases t.testBit 0 <;> simp

theorem is_marked_iff (a : Allocation) : is_marked a ↔ a.tag.testBit 1 = true :=
  and_mark_ne_zero_iff a.tag

theorem is_root_iff (a : Allocation) : is_root a ↔ a.tag.testBit 0 = true :=
  and_root_ne_zero_iff a.tag

theorem is_marked_set_mark (a : Allocation) : is_marked (set_mark a) := by
  rw [is_marked_iff]
  show (a.tag ||| 2).testBit 1 = true
  rw [Nat.testBit_or]
  have : Nat.testBit 2 1 = true := by decide
  rw [this, Bool.or_true]

theorem is_root_set_mark (a : Allocation) : is_root (set_mark a) ↔ is_root a := by
  rw [is_root_iff, is_root_iff]
  show (a.tag ||| 2).testBit 0 = true ↔ _
  rw [Nat.testBit_or]
  have : Nat.testBit 2 0 = false := by decide
  rw [this, Bool.or_false]

theorem set_mark_set_mark (a : Allocation) : set_mark (set_mark a) = set_mark a := by
  unfold set_mark
  simp only [Nat.or_assoc, Nat.or_self]

theorem set_mark_ptr (a : Allocation) : (set_mark a).ptr = a.ptr := rfl

theorem set_mark_size (a : Allocation) : (set_mark a).size = a.size := rfl

theorem not_is_marked_clear_mark (a : Allocation) : ¬ is_marked (clear_mark a) := by
  rw [is_marked_iff]
  show ¬ (a.tag &&& 0xFFFFFFFD).testBit 1 = true
  rw [Nat.testBit_and]
  have : Nat.testBit 0xFFFFFFFD 1 = false := by decide
  rw [this, Bool.and_false]
  simp

theorem is_root_clear_mark (a : Allocation) : is_root (clear_mark a) ↔ is_root a := by
  rw [is_root_iff, is_root_iff]
  show (a.tag &&& 0xFFFFFFFD).testBit 0 = true ↔ _
  rw [Nat.testBit_and]
  have : Nat.testBit 0xFFFFFFFD 0 = true := by decide
  rw [this, Bool.and_true]

theorem is_root_or_root (t : Nat) : (t ||| GC_FLAG_ROOT) &&& GC_FLAG_ROOT ≠ 0 := by
  rw [and_root_ne_zero_iff]
  show (t ||| 1).testBit 0 = true
  rw [Nat.testBit_or]
  have : Nat.testBit 1 0 = true := by decide
  rw [this, Bool.or_true]

theorem is_marked_or_root (t : Nat) :
    (t ||| GC_FLAG_ROOT) &&& GC_FLAG_MARK ≠ 0 ↔ t &&& GC_FLAG_MARK ≠ 0 := by
  rw [and_mark_ne_zero_iff, and_mark_ne_zero_iff]
  show (t ||| 1).testBit 1 = true ↔ _
  rw [Nat.testBit_or]
  have : Nat.testBit 1 1 = false := by decide
  rw [this, Bool.or_false]

/-! ## States of one mark phase -/

theorem mark_ext_refl (gc : KiGc) : mark_ext gc gc := by
  refine ⟨id, fun a => Or.inl rfl, ?_⟩
  unfold map_records
  simp

theorem mark_ext_F_ptr {F : Allocation → Allocation} (hF : ∀ a, F a = a ∨ F a = set_mark a)
    (a : Allocation) : (F a).ptr = a.ptr := by
  rcases hF a with h | h <;> rw [h]; rfl

theorem mark_ext_F_size {F : Allocation → Allocation} (hF : ∀ a, F a = a ∨ F a = set_mark a)
    (a : Allocation) : (F a).size = a.size := by
  rcases hF a with h | h <;> rw [h]; rfl

theorem mark_ext_F_root {F : Allocation → Allocation} (hF : ∀ a, F a = a ∨ F a = set_mark a)
    (a : Allocation) : is_root (F a) ↔ is_root a := by
  rcases hF a with h | h <;> rw [h]; exact is_root_set_mark a

theorem mark_ext_F_marked {F : Allocation → Allocation} (hF : ∀ a, F a = a ∨ F a = set_mark a)
    (a : Allocation) (h : is_marked a) : is_marked (F a) := by
  rcases hF a with h1 | h1 <;> rw [h1]
  · exact h
  · exact is_marked_set_mark a

theorem map_records_comp (F G : Allocation → Allocation) (am : AllocationMap) :
    map_records G (map_records F am) = map_records (G ∘ F) am := by
  unfold map_records
  simp [List.map_map]

theorem mark_ext_trans {g1 g2 g3 : KiGc} (h12 : mark_ext g1 g2) (h23 : mark_ext g2 g3) :
    mark_ext g1 g3 := by
  obtain ⟨F, hF, rfl⟩ := h12
  obtain ⟨G, hG, rfl⟩ := h23
  refine ⟨G ∘ F, ?_, ?_⟩
  · intro a
    show G (F a) = a ∨ G (F a) = set_mark a
    rcases hF a with h | h <;> rcases hG (F a) with h' | h'
    · left; rw [h', h]
    · right; rw [h', h]
    · right; rw [h', h]
    · right; rw [h', h, set_mark_set_mark]
  · simp only [map_records_comp]

theorem mark_ext_wf {g g' : KiGc} (h : mark_ext g g') (hw : well_formed g.allocs) :
    well_formed g'.allocs := by
  obtain ⟨F, hF, rfl⟩ := h
  exact well_formed_map_records hw F (mark_ext_F_ptr hF)

theorem mark_ext_tracked {g g' : KiGc} (h : mark_ext g g') (p : Nat) :
    tracked g'.allocs p ↔ tracked g.allocs p := by
  obtain ⟨F, hF, rfl⟩ := h
  unfold tracked
  simp only [records_map_records, List.mem_map]
  constructor
  · rintro ⟨a, ⟨b, hb, rfl⟩, hp⟩
    exact ⟨b, hb, by rw [← hp, mark_ext_F_ptr hF]⟩
  · rintro ⟨a, ha, hp⟩
    exact ⟨F a, ⟨a, ha, rfl⟩, by rw [mark_ext_F_ptr hF, hp]⟩

theorem mark_ext_marked {g g' : KiGc} (h : mark_ext g g') (p : Nat)
    (hm : marked_ptr g.allocs p) : marked_ptr g'.allocs p := by
  obtain ⟨F, hF, rfl⟩ := h
  obtain ⟨a, ha, hp, hma⟩ := hm
  refine ⟨F a, ?_, by rw [mark_ext_F_ptr hF, hp], mark_ext_F_marked hF a hma⟩
  rw [records_map_records]
  exact List.mem_map_of_mem _ ha

theorem positions_congr {a b : Allocation} (hp : a.ptr = b.ptr) (hs : a.size = b.size) :
    gc_mark_alloc_positions a = gc_mark_alloc_positions b := by
  unfold gc_mark_alloc_positions
  rw [hp, hs]

theorem mark_ext_scans {g g' : KiGc} (h : mark_ext g g') (mem : Nat → Nat) (p q : Nat) :
    scans mem g'.allocs p q ↔ scans mem g.allocs p q := by
  obtain ⟨F, hF, rfl⟩ := h
  unfold scans
  simp only [records_map_records, List.mem_map]
  constructor
  · rintro ⟨a, ⟨b, hb, rfl⟩, hp, hpos⟩
    refine ⟨b, hb, by rw [← hp, mark_ext_F_ptr hF], ?_⟩
    rw [← positions_congr (mark_ext_F_ptr hF b) (mark_ext_F_size hF b)]
    exact hpos
  · rintro ⟨a, ha, hp, hpos⟩
    refine ⟨F a, ⟨a, ha, rfl⟩, by rw [mark_ext_F_ptr hF, hp], ?_⟩
    rw [positions_congr (mark_ext_F_ptr hF a) (mark_ext_F_size hF a)]
    exact hpos

theorem mark_ext_edge {g g' : KiGc} (h : mark_ext g g') (mem : Nat → Nat) (p q : Nat) :
    edge mem g'.allocs p q ↔ edge mem g.allocs p q := by
  unfold edge
  rw [mark_ext_scans h, mark_ext_tracked h]

theorem mark_ext_reach {g g' : KiGc} (h : mark_ext g g') (mem : Nat → Nat) (p q : Nat) :
    reach mem g'.allocs p q ↔ reach mem g.allocs p q := by
  unfold reach
  constructor
  · exact Relation.ReflTransGen.mono (fun a b hab => (mark_ext_edge h mem a b).mp hab)
  · exact Relation.ReflTransGen.mono (fun a b hab => (mark_ext_edge h mem a b).mpr hab)

theorem mark_ext_unmarked_le {g g' : KiGc} (h : mark_ext g g') :
    unmarked_count g'.allocs ≤ unmarked_count g.allocs := by
  obtain ⟨F, hF, rfl⟩ := h
  unfold unmarked_count
  rw [records_map_records, List.countP_map]
  apply List.countP_mono_left
  intro a _ ha
  simp only [Function.comp, decide_eq_true_eq] at ha ⊢
  exact fun hm => ha (mark_ext_F_marked hF a hm)

theorem mark_ext_fields {g g' : KiGc} (h : mark_ext g g') :
    g'.paused = g.paused ∧ g'.bottom = g.bottom ∧ g'.min_size = g.min_size ∧
    g'.allocs.nslots = g.allocs.nslots ∧ g'.allocs.nitems = g.allocs.nitems ∧
    g'.allocs.nslots_min = g.allocs.nslots_min ∧ g'.allocs.lf_up = g.allocs.lf_up ∧
    g'.allocs.lf_down = g.allocs.lf_down ∧ g'.allocs.sweep_factor = g.allocs.sweep_factor ∧
    g'.allocs.sweep_limit = g.allocs.sweep_limit := by
  obtain ⟨F, _, rfl⟩ := h
  exact ⟨rfl, rfl, rfl, rfl, rfl, rfl, rfl, rfl, rfl, rfl⟩

end PineGc

namespace PineGc

/-! ## Marking -/

theorem countP_lt_of_witness {α : Type} (P Q : α → Bool) :
    ∀ (l : List α), (∀ x ∈ l, P x = true → Q x = true) →
    (∃ x ∈ l, Q x = true ∧ P x = false) → l.countP P < l.countP Q := by
  intro l
  induction l with
  | nil => intro _ h; obtain ⟨x, hx, _⟩ := h; simp at hx
  | cons y rest ih =>
    intro hPQ hex
    have hle : rest.countP P ≤ rest.countP Q :=
      List.countP_mono_left (fun x hx => hPQ x (List.mem_cons_of_mem _ hx))
    obtain ⟨x, hx, hq, hp⟩ := hex
    rcases List.mem_cons.mp hx with rfl | hx
    · rw [List.countP_cons_of_neg _ _ (by rw [hp]; simp), List.countP_cons_of_pos _ _ hq]
      omega
    · have hlt := ih (fun z hz => hPQ z (List.mem_cons_of_mem _ hz)) ⟨x, hx, hq, hp⟩
      by_cases hy : P y = true
      · rw [List.countP_cons_of_pos _ _ hy,
          List.countP_cons_of_pos _ _ (hPQ y (List.mem_cons_self _ _) hy)]
        omega
      · rw [List.countP_cons_of_neg _ _ hy]
        by_cases hy2 : Q y = true
        · rw [List.countP_cons_of_pos _ _ hy2]; omega
        · rw [List.countP_cons_of_neg _ _ hy2]; exact hlt

theorem mark_one_ext (gc : KiGc) (ptr : Nat) :
    mark_ext gc
      { gc with
        allocs := (map_records (fun a => if a.ptr = ptr then set_mark a else a) gc.allocs) } := by
  refine ⟨fun a => if a.ptr = ptr then set_mark a else a, ?_, rfl⟩
  intro a
  by_cases h : a.ptr = ptr
  · right; simp only; rw [if_pos h]
  · left; simp only; rw [if_neg h]

theorem mark_one_unmarked_lt (gc : KiGc) (ptr : Nat) (alloc : Allocation)
    (hmem : alloc ∈ records gc.allocs) (hp : alloc.ptr = ptr) (hm : ¬ is_marked alloc) :
    unmarked_count (map_records (fun a => if a.ptr = ptr then set_mark a else a) gc.allocs) <
      unmarked_count gc.allocs := by
  unfold unmarked_count
  rw [records_map_records, List.countP_map]
  apply countP_lt_of_witness
  · intro a _ ha
    simp only [Function.comp, decide_eq_true_eq] at ha ⊢
    intro hma
    apply ha
    by_cases h : a.ptr = ptr
    · rw [if_pos h]; exact is_marked_set_mark a
    · rw [if_neg h]; exact hma
  · refine ⟨alloc, hmem, ?_, ?_⟩
    · simp only [decide_eq_true_eq]; exact hm
    · simp only [Function.comp, decide_eq_false_iff_not, not_not]
      rw [if_pos hp]; exact is_marked_set_mark alloc

theorem mark_post_nil (mem : Nat → Nat) (gc : KiGc) : mark_post mem gc [] gc := by
  refine ⟨mark_ext_refl gc, ?_, ?_⟩
  · intro s hs; simp at hs
  · intro p h1 h2; exact absurd h1 h2

theorem mark_post_of_marked (mem : Nat → Nat) (gc : KiGc) (ptr : Nat)
    (h : tracked gc.allocs ptr → marked_ptr gc.allocs ptr) : mark_post mem gc [ptr] gc := by
  refine ⟨mark_ext_refl gc, ?_, ?_⟩
  · intro s hs ht
    rw [List.mem_singleton] at hs
    subst hs; exact h ht
  · intro p h1 h2; exact absurd h1 h2

theorem mark_post_append (mem : Nat → Nat) {g g1 g2 : KiGc} {S1 S2 : List Nat}
    (h1 : mark_post mem g S1 g1) (h2 : mark_post mem g1 S2 g2) :
    mark_post mem g (S1 ++ S2) g2 := by
  obtain ⟨e1, a1, b1⟩ := h1
  obtain ⟨e2, a2, b2⟩ := h2
  refine ⟨mark_ext_trans e1 e2, ?_, ?_⟩
  · intro s hs ht
    rcases List.mem_append.mp hs with hs | hs
    · exact mark_ext_marked e2 s (a1 s hs ht)
    · exact a2 s hs ((mark_ext_tracked e1 s).mpr ht)
  · intro p hp hnp
    by_cases hm1 : marked_ptr g1.allocs p
    · obtain ⟨c1, s, hs, hr⟩ := b1 p hm1 hnp
      exact ⟨fun q hq => mark_ext_marked e2 q (c1 q hq), s, List.mem_append_left _ hs, hr⟩
    · obtain ⟨c2, s, hs, hr⟩ := b2 p hp hm1
      exact ⟨fun q hq => c2 q ((mark_ext_edge e1 mem p q).mpr hq), s,
        List.mem_append_right _ hs, (mark_ext_reach e1 mem s p).mp hr⟩

theorem reach_tracked_left {mem : Nat → Nat} {am : AllocationMap} {s p : Nat}
    (h : reach mem am s p) (hp : tracked am p) : tracked am s := by
  rcases Relation.ReflTransGen.cases_head h with rfl | ⟨c, hsc, _⟩
  · exact hp
  · obtain ⟨⟨a, ha, hap, _⟩, _⟩ := hsc
    exact ⟨a, ha, hap⟩

theorem marked_ptr_tracked {am : AllocationMap} {p : Nat} (h : marked_ptr am p) :
    tracked am p := by
  obtain ⟨a, ha, hp, _⟩ := h
  exact ⟨a, ha, hp⟩

/-- Loop of `gc_mark_alloc` calls over a list of positions, given the specification of
`gc_mark_alloc` at the same fuel. -/
theorem mark_loop_spec (mem : Nat → Nat) (fuel : Nat)
    (IH : ∀ gc ptr, well_formed gc.allocs → unmarked_count gc.allocs < fuel →
      ∃ gc', gc_mark_alloc mem fuel gc ptr = some gc' ∧ mark_post mem gc [ptr] gc') :
    ∀ (ps : List Nat) (g : KiGc), well_formed g.allocs → unmarked_count g.allocs < fuel →
    ∃ g', ps.foldlM (fun g p => gc_mark_alloc mem fuel g (load_word mem p)) g = some g' ∧
      mark_post mem g (ps.map (load_word mem)) g' := by
  intro ps
  induction ps with
  | nil => intro g _ _; exact ⟨g, rfl, mark_post_nil mem g⟩
  | cons p rest ih =>
    intro g hw hu
    obtain ⟨g1, hg1, hp1⟩ := IH g (load_word mem p) hw hu
    have hw1 := mark_ext_wf hp1.1 hw
    have hu1 := Nat.lt_of_le_of_lt (mark_ext_unmarked_le hp1.1) hu
    obtain ⟨g2, hg2, hp2⟩ := ih g1 hw1 hu1
    refine ⟨g2, ?_, ?_⟩
    · rw [List.foldlM_cons, hg1]
      exact hg2
    · rw [List.map_cons]
      exact mark_post_append mem hp1 hp2

/-- Specification of `gc_mark_alloc`: with more fuel than unmarked records the call returns,
and its result marks `ptr` and everything newly marked is closed under the edges and
reachable from `ptr`. -/
theorem mark_alloc_spec (mem : Nat → Nat) :
    ∀ (fuel : Nat) (gc : KiGc) (ptr : Nat), well_formed gc.allocs →
    unmarked_count gc.allocs < fuel →
    ∃ gc', gc_mark_alloc mem fuel gc ptr = some gc' ∧ mark_post mem gc [ptr] gc' := by
  intro fuel
  induction fuel with
  | zero => intro gc ptr _ hu; exact absurd hu (Nat.not_lt_zero _)
  | succ fuel ih =>
    intro gc ptr hw hu
    unfold gc_mark_alloc
    cases hget : gc_alloc_map_get gc.allocs ptr with
    | none =>
      refine ⟨gc, rfl, mark_post_of_marked mem gc ptr ?_⟩
      rintro ⟨a, ha, hp⟩
      exact absurd hp ((get_eq_none_iff hw ptr).mp hget a ha)
    | some alloc =>
      obtain ⟨hmem, hp⟩ := get_some_mem hget
      simp only
      by_cases hm : alloc.tag &&& GC_FLAG_MARK ≠ 0
      · rw [if_pos hm]
        exact ⟨gc, rfl, mark_post_of_marked mem gc ptr (fun _ => ⟨alloc, hmem, hp, hm⟩)⟩
      · rw [if_neg hm]
        have hupd : tag_update gc.allocs ptr (fun t => t ||| GC_FLAG_MARK) =
            map_records (fun a => if a.ptr = ptr then set_mark a else a) gc.allocs :=
          tag_update_eq hw ptr _
        rw [hupd]
        have e1 := mark_one_ext gc ptr
        have hw1 := mark_ext_wf e1 hw
        have hu1 : unmarked_count (map_records
            (fun a => if a.ptr = ptr then set_mark a else a) gc.allocs) < fuel :=
          Nat.lt_of_lt_of_le (mark_one_unmarked_lt gc ptr alloc hmem hp hm)
            (Nat.le_of_lt_succ hu)
        obtain ⟨g', hg', e2, a2, b2⟩ := mark_loop_spec mem fuel ih
          (gc_mark_alloc_positions alloc) _ hw1 hu1
        refine ⟨g', hg', mark_ext_trans e1 e2, ?_, ?_⟩
        · intro s hs _
          rw [List.mem_singleton] at hs
          rw [hs]
          apply mark_ext_marked e2
          refine ⟨set_mark alloc, ?_, hp, is_marked_set_mark alloc⟩
          show set_mark alloc ∈ records (map_records
            (fun a => if a.ptr = ptr then set_mark a else a) gc.allocs)
          rw [records_map_records]
          refine List.mem_map.mpr ⟨alloc, hmem, ?_⟩
          show (if alloc.ptr = ptr then set_mark alloc else alloc) = set_mark alloc
          rw [if_pos hp]
        · intro p hpm hnp
          by_cases hpp : p = ptr
          · subst hpp
            refine ⟨?_, p, List.mem_singleton.mpr rfl, Relation.ReflTransGen.refl⟩
            intro q hq
            obtain ⟨⟨a, ha, hap, pos, hpos, hload⟩, htq⟩ := hq
            have haeq : a = alloc := hw.ptr_inj ha hmem (by rw [hap, hp])
            subst haeq
            exact a2 q (List.mem_map.mpr ⟨pos, hpos, hload⟩) ((mark_ext_tracked e1 q).mpr htq)
          · have hn1 : ¬ marked_ptr (map_records
                (fun a => if a.ptr = ptr then set_mark a else a) gc.allocs) p := by
              rintro ⟨b, hb, hbp, hbm⟩
              rw [records_map_records] at hb
              obtain ⟨a, ha, rfl⟩ := List.mem_map.mp hb
              change (if a.ptr = ptr then set_mark a else a).ptr = p at hbp
              change is_marked (if a.ptr = ptr then set_mark a else a) at hbm
              by_cases hap : a.ptr = ptr
              · rw [if_pos hap] at hbp
                exact hpp (by rw [← hbp]; exact hap)
              · rw [if_neg hap] at hbp hbm
                exact hnp ⟨a, ha, hbp, hbm⟩
            obtain ⟨c2, s, hs, hr⟩ := b2 p hpm hn1
            refine ⟨fun q hq => c2 q ((mark_ext_edge e1 mem p q).mpr hq), ptr,
              List.mem_singleton.mpr rfl, ?_⟩
            have hr' : reach mem gc.allocs s p := (mark_ext_reach e1 mem s p).mp hr
            have htp : tracked gc.allocs p :=
              (mark_ext_tracked (mark_ext_trans e1 e2) p).mp (marked_ptr_tracked hpm)
            obtain ⟨pos, hpos, hload⟩ := List.mem_map.mp hs
            exact Relation.ReflTransGen.head
              ⟨⟨alloc, hmem, hp, pos, hpos, hload⟩, reach_tracked_left hr' htp⟩ hr'

end PineGc

namespace PineGc

/-! ## Mark roots, mark stack, mark -/

theorem chain_roots_map {F : Allocation → Allocation} (hF : ∀ a, F a = a ∨ F a = set_mark a)
    (chain : List Allocation) : chain_roots (chain.map F) = chain_roots chain := by
  unfold chain_roots
  induction chain with
  | nil => rfl
  | cons x rest ih =>
    rw [List.map_cons]
    by_cases hr : is_root x
    · rw [List.filter_cons_of_pos (by simpa using (mark_ext_F_root hF x).mpr hr),
        List.filter_cons_of_pos (by simpa using hr), List.map_cons, List.map_cons, ih,
        mark_ext_F_ptr hF]
    · rw [List.filter_cons_of_neg (by simpa using fun h => hr ((mark_ext_F_root hF x).mp h)),
        List.filter_cons_of_neg (by simpa using hr), ih]

theorem mark_ext_chain_roots {g g' : KiGc} (h : mark_ext g g') (i : Nat) :
    chain_roots (slot g'.allocs.allocs i) = chain_roots (slot g.allocs.allocs i) := by
  obtain ⟨F, hF, rfl⟩ := h
  show chain_roots (slot (g.allocs.allocs.map (List.map F)) i) = _
  rw [slot_map, chain_roots_map hF]

theorem mark_roots_chain_spec (mem : Nat → Nat) (fuel : Nat) :
    ∀ (chain : List Allocation) (g : KiGc), well_formed g.allocs →
    unmarked_count g.allocs < fuel →
    ∃ g', gc_mark_roots_chain mem fuel chain g = some g' ∧
      mark_post mem g (chain_roots chain) g' := by
  intro chain
  induction chain with
  | nil => intro g _ _; exact ⟨g, rfl, mark_post_nil mem g⟩
  | cons x rest ih =>
    intro g hw hu
    unfold gc_mark_roots_chain
    by_cases hr : x.tag &&& GC_FLAG_ROOT ≠ 0
    · rw [if_pos hr]
      obtain ⟨g1, hg1, hp1⟩ := mark_alloc_spec mem fuel g x.ptr hw hu
      have hw1 := mark_ext_wf hp1.1 hw
      have hu1 := Nat.lt_of_le_of_lt (mark_ext_unmarked_le hp1.1) hu
      obtain ⟨g2, hg2, hp2⟩ := ih g1 hw1 hu1
      rw [hg1]
      refine ⟨g2, hg2, ?_⟩
      have : chain_roots (x :: rest) = [x.ptr] ++ chain_roots rest := by
        unfold chain_roots
        rw [List.filter_cons_of_pos (by simpa [is_root] using hr)]
        rfl
      rw [this]
      exact mark_post_append mem hp1 hp2
    · rw [if_neg hr]
      obtain ⟨g2, hg2, hp2⟩ := ih g hw hu
      refine ⟨g2, hg2, ?_⟩
      have : chain_roots (x :: rest) = chain_roots rest := by
        unfold chain_roots
        rw [List.filter_cons_of_neg (by simpa [is_root] using hr)]
      rw [this]
      exact hp2

theorem mark_roots_upto (mem : Nat → Nat) (fuel : Nat) (gc : KiGc)
    (hw : well_formed gc.allocs) (hu : unmarked_count gc.allocs < fuel) :
    ∀ k, ∃ g', (List.range k).foldlM
        (fun g i => gc_mark_roots_chain mem fuel (slot g.allocs.allocs i) g) gc = some g' ∧
      mark_post mem gc
        ((List.range k).map (fun i => chain_roots (slot gc.allocs.allocs i))).flatten g' := by
  intro k
  induction k with
  | zero => exact ⟨gc, rfl, mark_post_nil mem gc⟩
  | succ k ih =>
    obtain ⟨g1, hg1, hp1⟩ := ih
    have hw1 := mark_ext_wf hp1.1 hw
    have hu1 := Nat.lt_of_le_of_lt (mark_ext_unmarked_le hp1.1) hu
    obtain ⟨g2, hg2, hp2⟩ := mark_roots_chain_spec mem fuel (slot g1.allocs.allocs k) g1 hw1 hu1
    refine ⟨g2, ?_, ?_⟩
    · rw [List.range_succ, List.foldlM_append, hg1]
      simp only [Option.bind_eq_bind, Option.some_bind, List.foldlM_cons, List.foldlM_nil, hg2]
      rfl
    · rw [List.range_succ, List.map_append, List.flatten_append]
      rw [mark_ext_chain_roots hp1.1 k] at hp2
      have := mark_post_append mem hp1 hp2
      simpa using this

theorem mark_roots_spec (mem : Nat → Nat) (fuel : Nat) (gc : KiGc)
    (hw : well_formed gc.allocs) (hu : unmarked_count gc.allocs < fuel) :
    ∃ g', gc_mark_roots mem fuel gc = some g' ∧
      mark_post mem gc
        ((List.range gc.allocs.nslots).map
          (fun i => chain_roots (slot gc.allocs.allocs i))).flatten g' :=
  mark_roots_upto mem fuel gc hw hu gc.allocs.nslots

theorem mark_stack_spec (mem : Nat → Nat) (fuel : Nat) (top : Nat) (gc : KiGc)
    (hw : well_formed gc.allocs) (hu : unmarked_count gc.allocs < fuel) :
    ∃ g', gc_mark_stack mem fuel top gc = some g' ∧
      mark_post mem gc ((gc_mark_stack_positions gc.bottom top).map (load_word mem)) g' :=
  mark_loop_spec mem fuel (mark_alloc_spec mem fuel) _ gc hw hu

theorem mark_spec (mem : Nat → Nat) (fuel : Nat) (top : Nat) (gc : KiGc)
    (hw : well_formed gc.allocs) (hu : unmarked_count gc.allocs < fuel) :
    ∃ g', gc_mark mem fuel top gc = some g' ∧ mark_post mem gc (mark_starts mem gc top) g' := by
  obtain ⟨g1, hg1, hp1⟩ := mark_roots_spec mem fuel gc hw hu
  have hw1 := mark_ext_wf hp1.1 hw
  have hu1 := Nat.lt_of_le_of_lt (mark_ext_unmarked_le hp1.1) hu
  obtain ⟨g2, hg2, hp2⟩ := mark_stack_spec mem fuel top g1 hw1 hu1
  refine ⟨g2, ?_, ?_⟩
  · unfold gc_mark
    rw [hg1]
    exact hg2
  · rw [(mark_ext_fields hp1.1).2.1] at hp2
    exact mark_post_append mem hp1 hp2

theorem unmarked_count_le_nitems {am : AllocationMap} (h : well_formed am) :
    unmarked_count am ≤ am.nitems := by
  rw [h.nitems_eq]
  exact List.countP_le_length _

/-- The words read from the stack: none, whatever the bottom and the top are. -/
theorem mark_stack_positions_nil (bot top : Nat) : gc_mark_stack_positions bot top = [] := by
  unfold gc_mark_stack_positions
  by_cases h : bot = top
  · rw [if_pos h]
  · rw [if_neg h]
    by_cases h1 : bot > top
    · rw [if_pos h1, if_neg (by omega)]
      unfold gc_mark_stack_down
      rw [if_neg (by omega)]
      rfl
    · rw [if_neg h1, if_pos (by omega)]
      have h2 : bot < top := by omega
      have : gc_mark_stack_up bot (bot + 1) top = [] := by
        unfold gc_mark_stack_up
        rw [if_neg (by omega)]
      rw [this]
      rfl

theorem mem_mark_starts_root (mem : Nat → Nat) (gc : KiGc) (top : Nat)
    (hw : well_formed gc.allocs) (r : Allocation) (hr : r ∈ records gc.allocs)
    (hroot : is_root r) : r.ptr ∈ mark_starts mem gc top := by
  unfold mark_starts
  apply List.mem_append_left
  rw [List.mem_flatten]
  obtain ⟨i, hi, hs⟩ := (mem_records_iff gc.allocs r).mp hr
  rw [hw.length_eq] at hi
  refine ⟨chain_roots (slot gc.allocs.allocs i), ?_, ?_⟩
  · exact List.mem_map.mpr ⟨i, List.mem_range.mpr hi, rfl⟩
  · unfold chain_roots
    exact List.mem_map.mpr ⟨r, List.mem_filter.mpr ⟨hs, by simpa using hroot⟩, rfl⟩

theorem mem_mark_starts_cases (mem : Nat → Nat) (gc : KiGc) (top : Nat) (s : Nat)
    (hs : s ∈ mark_starts mem gc top) :
    (∃ r ∈ records gc.allocs, is_root r ∧ r.ptr = s) ∨
    (∃ pos ∈ gc_mark_stack_positions gc.bottom top, load_word mem pos = s) := by
  unfold mark_starts at hs
  rcases List.mem_append.mp hs with h | h
  · left
    rw [List.mem_flatten] at h
    obtain ⟨l, hl, hsl⟩ := h
    obtain ⟨i, _, rfl⟩ := List.mem_map.mp hl
    unfold chain_roots at hsl
    obtain ⟨r, hr, rfl⟩ := List.mem_map.mp hsl
    obtain ⟨hr1, hr2⟩ := List.mem_filter.mp hr
    exact ⟨r, mem_records_of_mem_slot gc.allocs i r hr1, by simpa using hr2, rfl⟩
  · right
    exact List.mem_map.mp h

end PineGc

namespace PineGc

/-! ## Sweep -/

theorem tag_update_at_append (f : Nat → Nat) (done : List Allocation) (x : Allocation)
    (rest : List Allocation) :
    tag_update_at f done.length (done ++ x :: rest) =
      done ++ { x with tag := f x.tag } :: rest := by
  induction done with
  | nil => rfl
  | cons d ds ih =>
    show d :: tag_update_at f ds.length (ds ++ x :: rest) = _
    rw [ih]; rfl

theorem filter_ne_of_nodup (done : List Allocation) (x : Allocation) (rest : List Allocation)
    (hn : ((done ++ x :: rest).map Allocation.ptr).Nodup) :
    (done ++ x :: rest).filter (fun a => decide (a.ptr ≠ x.ptr)) = done ++ rest := by
  rw [List.map_append, List.map_cons] at hn
  have h1 : ∀ a ∈ done, a.ptr ≠ x.ptr := by
    intro a ha hax
    have := (List.nodup_append.mp hn).2.2
    exact this (List.mem_map_of_mem _ ha) (by rw [hax]; exact List.mem_cons_self _ _)
  have h2 : ∀ a ∈ rest, a.ptr ≠ x.ptr := by
    intro a ha hax
    have := (List.nodup_cons.mp (List.nodup_append.mp hn).2.1).1
    exact this (by rw [← hax]; exact List.mem_map_of_mem _ ha)
  rw [List.filter_append, List.filter_cons_of_neg (by simp)]
  congr 1
  · exact List.filter_eq_self.mpr (fun a ha => by simpa using h1 a ha)
  · exact List.filter_eq_self.mpr (fun a ha => by simpa using h2 a ha)

theorem unmarked_in_cons_marked (x : Allocation) (rest : List Allocation) (h : is_marked x) :
    unmarked_in (x :: rest) = unmarked_in rest := by
  unfold unmarked_in
  rw [List.countP_cons_of_neg _ _ (by simpa using h)]

theorem unmarked_in_cons_unmarked (x : Allocation) (rest : List Allocation)
    (h : ¬ is_marked x) : unmarked_in (x :: rest) = unmarked_in rest + 1 := by
  unfold unmarked_in
  rw [List.countP_cons_of_pos _ _ (by simpa using h)]

theorem unmarked_bytes_cons_marked (x : Allocation) (rest : List Allocation)
    (h : is_marked x) : unmarked_bytes (x :: rest) = unmarked_bytes rest := by
  unfold unmarked_bytes
  rw [List.filter_cons_of_neg (by simpa using h)]

theorem unmarked_bytes_cons_unmarked (x : Allocation) (rest : List Allocation)
    (h : ¬ is_marked x) : unmarked_bytes (x :: rest) = x.size + unmarked_bytes rest := by
  unfold unmarked_bytes
  rw [List.filter_cons_of_pos (by simpa using h), List.map_cons, List.sum_cons]

theorem swept_chain_cons_marked (x : Allocation) (rest : List Allocation) (h : is_marked x) :
    swept_chain (x :: rest) = clear_mark x :: swept_chain rest := by
  unfold swept_chain
  rw [List.filter_cons_of_pos (by simpa using h), List.map_cons]

theorem swept_chain_cons_unmarked (x : Allocation) (rest : List Allocation)
    (h : ¬ is_marked x) : swept_chain (x :: rest) = swept_chain rest := by
  unfold swept_chain
  rw [List.filter_cons_of_neg (by simpa using h)]

/-- Inner loop of `gc_sweep` on a chain of a well-formed map, entered with the records `done`
already visited and kept. -/
theorem sweep_chain_spec (i : Nat) :
    ∀ (rest done : List Allocation) (am : AllocationMap) (fb : Nat),
    am.allocs.length = am.nslots → i < am.nslots →
    slot am.allocs i = done ++ rest →
    ((done ++ rest).map Allocation.ptr).Nodup →
    (∀ a ∈ rest, gc_hash a.ptr % am.nslots = i) →
    unmarked_in rest ≤ am.nitems →
    gc_sweep_chain i rest done.length am fb =
      ({ am with
          allocs := am.allocs.set i (done ++ swept_chain rest)
          nitems := am.nitems - unmarked_in rest },
        fb + unmarked_bytes rest) := by
  intro rest
  induction rest with
  | nil =>
    intro done am fb _ _ hs _ _ _
    unfold gc_sweep_chain
    have : am.allocs.set i (done ++ swept_chain []) = am.allocs := by
      show am.allocs.set i (done ++ []) = am.allocs
      rw [← hs]; exact set_slot_self am.allocs i
    rw [this]
    rfl
  | cons chunk rest ih =>
    intro done am fb hlen hi hs hn hb hcount
    have hil : i < am.allocs.length := by rw [hlen]; exact hi
    unfold gc_sweep_chain
    by_cases hm : chunk.tag &&& GC_FLAG_MARK ≠ 0
    · rw [if_pos hm]
      simp only
      rw [hs, tag_update_at_append]
      have hm' : is_marked chunk := hm
      have key := ih (done ++ [clear_mark chunk])
        { am with allocs := am.allocs.set i (done ++ clear_mark chunk :: rest) } fb
        (by show (am.allocs.set i _).length = am.nslots; rw [List.length_set]; exact hlen)
        hi
        (by show slot (am.allocs.set i _) i = _
            rw [slot_set_self _ _ _ hil, List.append_assoc]; rfl)
        (by rw [List.append_assoc]
            have : (done ++ ([clear_mark chunk] ++ rest)).map Allocation.ptr =
                (done ++ chunk :: rest).map Allocation.ptr := by
              simp [clear_mark]
            rw [this]; exact hn)
        (fun a ha => hb a (List.mem_cons_of_mem _ ha))
        (by rw [unmarked_in_cons_marked _ _ hm'] at hcount; exact hcount)
      rw [List.length_append, List.length_singleton] at key
      show gc_sweep_chain i rest (done.length + 1)
        { am with allocs := am.allocs.set i (done ++ clear_mark chunk :: rest) } fb = _
      rw [key, unmarked_in_cons_marked _ _ hm', unmarked_bytes_cons_marked _ _ hm',
        swept_chain_cons_marked _ _ hm']
      simp only [List.set_set, List.append_assoc, List.singleton_append]
    · rw [if_neg hm]
      have hm' : ¬ is_marked chunk := hm
      have hidx : gc_hash chunk.ptr % am.nslots = i := hb chunk (List.mem_cons_self _ _)
      have hpos : 0 < am.nitems := by
        rw [unmarked_in_cons_unmarked _ _ hm'] at hcount; omega
      have hrem : gc_allocation_map_remove am chunk.ptr false =
          { am with allocs := am.allocs.set i (done ++ rest), nitems := am.nitems - 1 } := by
        unfold gc_allocation_map_remove
        simp only [hidx, hs]
        have h1 := remove_walk_fst chunk.ptr (done ++ chunk :: rest) am.nitems
        rw [filter_ne_of_nodup done chunk rest hn] at h1
        have h2 := remove_walk_snd chunk.ptr (done ++ chunk :: rest) hn
          ⟨chunk, List.mem_append_right _ (List.mem_cons_self _ _), rfl⟩ am.nitems hpos
        rw [h1, h2]
        rfl
      rw [hrem]
      have key := ih done
        { am with allocs := am.allocs.set i (done ++ rest), nitems := am.nitems - 1 }
        (fb + chunk.size)
        (by show (am.allocs.set i _).length = am.nslots; rw [List.length_set]; exact hlen)
        hi
        (by show slot (am.allocs.set i _) i = _
            rw [slot_set_self _ _ _ hil])
        (by rw [List.map_append] at hn ⊢
            rw [List.map_cons] at hn
            exact List.Nodup.sublist
              (List.Sublist.append_left (List.sublist_cons_self _ _) _) hn)
        (fun a ha => hb a (List.mem_cons_of_mem _ ha))
        (by show unmarked_in rest ≤ am.nitems - 1
            rw [unmarked_in_cons_unmarked _ _ hm'] at hcount; omega)
      rw [key, unmarked_in_cons_unmarked _ _ hm', unmarked_bytes_cons_unmarked _ _ hm',
        swept_chain_cons_unmarked _ _ hm']
      simp only [List.set_set]
      congr 1
      · congr 1
        omega
      · omega

end PineGc

namespace PineGc

/-! ## The sweep loop over all chains -/

theorem take_succ_slot (l : List (List Allocation)) (k : Nat) (h : k < l.length) :
    l.take (k + 1) = l.take k ++ [slot l k] := by
  rw [List.take_succ, List.getElem?_eq_getElem h, slot_eq_getElem l k h]
  rfl

theorem drop_slot (l : List (List Allocation)) (k : Nat) (h : k < l.length) :
    l.drop k = slot l k :: l.drop (k + 1) := by
  rw [List.drop_eq_getElem_cons h, slot_eq_getElem l k h]

theorem slot_append_at (A : List (List Allocation)) (c : List Allocation)
    (D : List (List Allocation)) (k : Nat) (hk : A.length = k) : slot (A ++ c :: D) k = c := by
  subst hk
  induction A with
  | nil => rfl
  | cons a as ih => exact ih

theorem set_append_at (A : List (List Allocation)) (c c' : List Allocation)
    (D : List (List Allocation)) (k : Nat) (hk : A.length = k) :
    (A ++ c :: D).set k c' = A ++ c' :: D := by
  subst hk
  induction A with
  | nil => rfl
  | cons a as ih =>
    show a :: (as ++ c :: D).set as.length c' = _
    rw [ih]; rfl

theorem unmarked_in_append (l1 l2 : List Allocation) :
    unmarked_in (l1 ++ l2) = unmarked_in l1 + unmarked_in l2 := by
  unfold unmarked_in
  exact List.countP_append _ _ _

theorem unmarked_bytes_append (l1 l2 : List Allocation) :
    unmarked_bytes (l1 ++ l2) = unmarked_bytes l1 + unmarked_bytes l2 := by
  unfold unmarked_bytes
  rw [List.filter_append, List.map_append, List.sum_append]

theorem unmarked_in_le_length (l : List Allocation) : unmarked_in l ≤ l.length :=
  List.countP_le_length _

theorem flatten_take_length_le (l : List (List Allocation)) (k : Nat) :
    (l.take k).flatten.length ≤ l.flatten.length := by
  conv_rhs => rw [← List.take_append_drop k l, List.flatten_append, List.length_append]
  exact Nat.le_add_right _ _

/-- State of the outer loop of `gc_sweep` after the first `k` chains of a well-formed map. -/
theorem sweep_loop_upto {am : AllocationMap} (h : well_formed am) :
    ∀ k, k ≤ am.nslots →
    (List.range k).foldl (fun s i => gc_sweep_chain i (slot s.1.allocs i) 0 s.1 s.2) (am, 0) =
      ({ am with
          allocs := (am.allocs.take k).map swept_chain ++ am.allocs.drop k
          nitems := am.nitems - unmarked_in (am.allocs.take k).flatten },
        unmarked_bytes (am.allocs.take k).flatten) := by
  intro k
  induction k with
  | zero =>
    intro _
    show (am, 0) = _
    simp [unmarked_in, unmarked_bytes]
  | succ k ih =>
    intro hk
    have hkl : k < am.allocs.length := by rw [h.length_eq]; omega
    rw [List.range_succ, List.foldl_append, ih (by omega)]
    simp only [List.foldl_cons, List.foldl_nil]
    have hA : ((am.allocs.take k).map swept_chain).length = k := by
      rw [List.length_map, List.length_take]; omega
    have hslot : slot ((am.allocs.take k).map swept_chain ++ am.allocs.drop k) k =
        slot am.allocs k := by
      rw [drop_slot am.allocs k hkl]
      exact slot_append_at _ _ _ k hA
    rw [hslot]
    have hU : unmarked_in (am.allocs.take (k + 1)).flatten =
        unmarked_in (am.allocs.take k).flatten + unmarked_in (slot am.allocs k) := by
      rw [take_succ_slot am.allocs k hkl, List.flatten_append, unmarked_in_append]
      simp
    have hB : unmarked_bytes (am.allocs.take (k + 1)).flatten =
        unmarked_bytes (am.allocs.take k).flatten + unmarked_bytes (slot am.allocs k) := by
      rw [take_succ_slot am.allocs k hkl, List.flatten_append, unmarked_bytes_append]
      simp
    have hle : unmarked_in (am.allocs.take (k + 1)).flatten ≤ am.nitems := by
      rw [h.nitems_eq]
      exact le_trans (unmarked_in_le_length _) (flatten_take_length_le am.allocs (k + 1))
    have key := sweep_chain_spec k (slot am.allocs k) []
      { am with
        allocs := (am.allocs.take k).map swept_chain ++ am.allocs.drop k
        nitems := am.nitems - unmarked_in (am.allocs.take k).flatten }
      (unmarked_bytes (am.allocs.take k).flatten)
      (by show ((am.allocs.take k).map swept_chain ++ am.allocs.drop k).length = am.nslots
          rw [List.length_append, hA, List.length_drop, h.length_eq]; omega)
      (by show k < am.nslots; omega)
      (by show slot ((am.allocs.take k).map swept_chain ++ am.allocs.drop k) k = _
          rw [hslot]; rfl)
      (by rw [List.nil_append]; exact h.slot_nodup k)
      (fun a ha => h.bucket (by omega) ha)
      (by show unmarked_in (slot am.allocs k) ≤
            am.nitems - unmarked_in (am.allocs.take k).flatten
          omega)
    rw [List.length_nil] at key
    rw [key, hU, hB]
    simp only [List.nil_append]
    have hset : ((am.allocs.take k).map swept_chain ++ am.allocs.drop k).set k
        (swept_chain (slot am.allocs k)) =
        (am.allocs.take (k + 1)).map swept_chain ++ am.allocs.drop (k + 1) := by
      rw [drop_slot am.allocs k hkl, set_append_at _ _ _ _ k hA,
        take_succ_slot am.allocs k hkl, List.map_append, List.map_singleton, List.append_assoc]
      rfl
    rw [hset]
    congr 2
    omega

theorem sweep_loop_spec {am : AllocationMap} (h : well_formed am) :
    gc_sweep_loop am =
      ({ am with
          allocs := am.allocs.map swept_chain
          nitems := am.nitems - unmarked_in (records am) },
        unmarked_bytes (records am)) := by
  unfold gc_sweep_loop
  rw [sweep_loop_upto h am.nslots (le_refl _)]
  have h1 : am.allocs.take am.nslots = am.allocs :=
    List.take_of_length_le (le_of_eq h.length_eq)
  have h2 : am.allocs.drop am.nslots = [] :=
    List.drop_of_length_le (le_of_eq h.length_eq)
  rw [h1, h2, List.append_nil]
  rfl

theorem flatten_map_swept (l : List (List Allocation)) :
    (l.map swept_chain).flatten = swept_chain l.flatten := by
  induction l with
  | nil => rfl
  | cons c rest ih =>
    rw [List.map_cons, List.flatten_cons, List.flatten_cons, ih]
    unfold swept_chain
    rw [List.filter_append, List.map_append]

theorem mem_swept_chain (c : List Allocation) (a : Allocation) :
    a ∈ swept_chain c ↔ ∃ b ∈ c, is_marked b ∧ a = clear_mark b := by
  unfold swept_chain
  rw [List.mem_map]
  constructor
  · rintro ⟨b, hb, rfl⟩
    obtain ⟨h1, h2⟩ := List.mem_filter.mp hb
    exact ⟨b, h1, by simpa using h2, rfl⟩
  · rintro ⟨b, hb, hm, rfl⟩
    exact ⟨b, List.mem_filter.mpr ⟨hb, by simpa using hm⟩, rfl⟩

theorem slot_map_swept (l : List (List Allocation)) (i : Nat) :
    slot (l.map swept_chain) i = swept_chain (slot l i) := by
  by_cases hi : i < l.length
  · rw [slot_eq_getElem _ i (by rw [List.length_map]; exact hi), slot_eq_getElem l i hi,
      List.getElem_map]
  · rw [slot_of_le _ i (by rw [List.length_map]; omega), slot_of_le l i (by omega)]; rfl

theorem length_swept_chain (c : List Allocation) :
    (swept_chain c).length = c.length - unmarked_in c := by
  unfold swept_chain unmarked_in
  rw [List.length_map]
  have h1 := List.length_eq_countP_add_countP (fun a => decide (is_marked a)) c
  have h2 : (c.filter (fun a => decide (is_marked a))).length =
      c.countP (fun a => decide (is_marked a)) := by
    rw [List.countP_eq_length_filter]
  have h3 : c.countP (fun a => decide ¬(decide (is_marked a) = true)) =
      c.countP (fun a => decide (¬ is_marked a)) := by
    congr 1; funext a; simp
  rw [h3] at h1
  omega

/-- State of the map after the loop of `gc_sweep`. -/
theorem well_formed_swept {am : AllocationMap} (h : well_formed am) :
    well_formed { am with
      allocs := am.allocs.map swept_chain
      nitems := am.nitems - unmarked_in (records am) } := by
  refine ⟨?_, h.nslots_pos, ?_, ?_, ?_⟩
  · show (am.allocs.map swept_chain).length = am.nslots
    rw [List.length_map]; exact h.length_eq
  · intro i hi a ha
    change a ∈ slot (am.allocs.map swept_chain) i at ha
    rw [slot_map_swept, mem_swept_chain] at ha
    obtain ⟨b, hb, _, rfl⟩ := ha
    exact h.bucket (a := b) hi hb
  · show (((am.allocs.map swept_chain).flatten).map Allocation.ptr).Nodup
    rw [flatten_map_swept]
    unfold swept_chain
    rw [List.map_map]
    have : (Allocation.ptr ∘ clear_mark) = Allocation.ptr := by funext a; rfl
    rw [this]
    exact List.Nodup.sublist (List.Sublist.map _ (List.filter_sublist _)) h.nodup
  · show am.nitems - unmarked_in (records am) = ((am.allocs.map swept_chain).flatten).length
    rw [flatten_map_swept, length_swept_chain, h.nitems_eq]
    rfl

/-- Specification of `gc_sweep` on a well-formed map: the records left are the marked ones
with `MARK` cleared, the returned value is the number of bytes of the unmarked ones. -/
theorem sweep_spec (gc : KiGc) (h : well_formed gc.allocs) :
    well_formed (gc_sweep gc).2.allocs ∧
    (records (gc_sweep gc).2.allocs).Perm (swept_chain (records gc.allocs)) ∧
    (gc_sweep gc).1 = unmarked_bytes (records gc.allocs) ∧
    (gc_sweep gc).2.allocs.nitems = gc.allocs.nitems - unmarked_in (records gc.allocs) ∧
    (gc_sweep gc).2.paused = gc.paused ∧ (gc_sweep gc).2.bottom = gc.bottom := by
  have hw := well_formed_swept h
  unfold gc_sweep
  simp only
  rw [sweep_loop_spec h]
  refine ⟨well_formed_resize_to_fit hw, ?_, rfl, ?_, trivial, trivial⟩
  · refine (records_resize_to_fit_perm _ hw.length_eq).trans ?_
    show ((gc.allocs.allocs.map swept_chain).flatten).Perm _
    rw [flatten_map_swept]
    exact List.Perm.refl _
  · rw [nitems_resize_to_fit]

end PineGc

namespace PineGc

/-! ## One collection cycle -/

/-- Specification of `gc_run` on a well-formed state, with more fuel than unmarked records. -/
theorem run_spec (mem : Nat → Nat) (fuel : Nat) (top : Nat) (gc : KiGc)
    (hw : well_formed gc.allocs) (hu : unmarked_count gc.allocs < fuel) :
    ∃ g1, gc_mark mem fuel top gc = some g1 ∧ gc_run mem fuel top gc = some (gc_sweep g1).2 ∧
      mark_post mem gc (mark_starts mem gc top) g1 ∧ well_formed g1.allocs := by
  obtain ⟨g1, hg1, hp1⟩ := mark_spec mem fuel top gc hw hu
  refine ⟨g1, hg1, ?_, hp1, mark_ext_wf hp1.1 hw⟩
  unfold gc_run
  rw [hg1]

/-- Records of the state after the mark phase, in terms of the state before it. -/
theorem mark_ext_mem_records {g g' : KiGc} (h : mark_ext g g') (hw : well_formed g.allocs)
    (b : Allocation) (hb : b ∈ records g.allocs) :
    ∃ c ∈ records g'.allocs, c.ptr = b.ptr ∧ c.size = b.size ∧ (is_root c ↔ is_root b) ∧
      (is_marked b → is_marked c) ∧ (marked_ptr g'.allocs b.ptr → is_marked c) := by
  obtain ⟨F, hF, rfl⟩ := h
  refine ⟨F b, ?_, mark_ext_F_ptr hF b, mark_ext_F_size hF b, mark_ext_F_root hF b,
    mark_ext_F_marked hF b, ?_⟩
  · rw [records_map_records]; exact List.mem_map_of_mem _ hb
  · rintro ⟨c, hc, hcp, hcm⟩
    rw [records_map_records] at hc
    obtain ⟨b', hb', rfl⟩ := List.mem_map.mp hc
    rw [mark_ext_F_ptr hF] at hcp
    have : b' = b := hw.ptr_inj hb' hb hcp
    rw [this] at hcm
    exact hcm

theorem mark_ext_records_back {g g' : KiGc} (h : mark_ext g g')
    (c : Allocation) (hc : c ∈ records g'.allocs) :
    ∃ b ∈ records g.allocs, c.ptr = b.ptr ∧ c.size = b.size ∧ (is_root c ↔ is_root b) := by
  obtain ⟨F, hF, rfl⟩ := h
  rw [records_map_records] at hc
  obtain ⟨b, hb, rfl⟩ := List.mem_map.mp hc
  exact ⟨b, hb, mark_ext_F_ptr hF b, mark_ext_F_size hF b, mark_ext_F_root hF b⟩

/-- A record whose base is marked after the mark phase is in the map after the sweep, with
the same base, size and `ROOT` bit, and `MARK` clear. -/
theorem sweep_keeps_marked (g1 : KiGc) (hw1 : well_formed g1.allocs) (c : Allocation)
    (hc : c ∈ records g1.allocs) (hm : is_marked c) :
    ∃ a, gc_alloc_map_get (gc_sweep g1).2.allocs c.ptr = some a ∧ a.size = c.size ∧
      (is_root a ↔ is_root c) ∧ ¬ is_marked a := by
  obtain ⟨hw2, hperm, _⟩ := sweep_spec g1 hw1
  refine ⟨clear_mark c, ?_, rfl, is_root_clear_mark c, not_is_marked_clear_mark c⟩
  rw [get_eq_some_iff hw2]
  refine ⟨hperm.mem_iff.mpr ?_, rfl⟩
  exact (mem_swept_chain _ _).mpr ⟨c, hc, hm, rfl⟩

/-- Every record in the map after the sweep comes from a record that was marked. -/
theorem sweep_records_back (g1 : KiGc) (hw1 : well_formed g1.allocs) (a : Allocation)
    (ha : a ∈ records (gc_sweep g1).2.allocs) :
    ∃ c ∈ records g1.allocs, is_marked c ∧ a = clear_mark c := by
  obtain ⟨_, hperm, _⟩ := sweep_spec g1 hw1
  exact (mem_swept_chain _ _).mp (hperm.mem_iff.mp ha)

theorem sweep_drops_unmarked (g1 : KiGc) (hw1 : well_formed g1.allocs) (p : Nat)
    (hm : ¬ marked_ptr g1.allocs p) : gc_alloc_map_get (gc_sweep g1).2.allocs p = none := by
  obtain ⟨hw2, _, _⟩ := sweep_spec g1 hw1
  rw [get_eq_none_iff hw2]
  intro a ha hap
  obtain ⟨c, hc, hcm, rfl⟩ := sweep_records_back g1 hw1 a ha
  exact hm ⟨c, hc, hap, hcm⟩

/-- With no `MARK` bit set on entry, the mark phase marks exactly the records reachable from
the tracked start pointers. -/
theorem mark_exact (mem : Nat → Nat) {gc g1 : KiGc} {starts : List Nat}
    (hp : mark_post mem gc starts g1) (h0 : ∀ a ∈ records gc.allocs, ¬ is_marked a) (p : Nat) :
    marked_ptr g1.allocs p ↔ ∃ s ∈ starts, tracked gc.allocs s ∧ reach mem gc.allocs s p := by
  have hnone : ∀ q, ¬ marked_ptr gc.allocs q := by
    rintro q ⟨a, ha, _, hm⟩; exact h0 a ha hm
  constructor
  · intro hm
    obtain ⟨_, s, hs, hr⟩ := hp.2.2 p hm (hnone p)
    exact ⟨s, hs, reach_tracked_left hr ((mark_ext_tracked hp.1 p).mp (marked_ptr_tracked hm)),
      hr⟩
  · rintro ⟨s, hs, hts, hr⟩
    have hms : marked_ptr g1.allocs s := hp.2.1 s hs hts
    unfold reach at hr
    induction hr with
    | refl => exact hms
    | tail _ hbc ih => exact (hp.2.2 _ ih (hnone _)).1 _ hbc

theorem unmarked_count_lt_of_nitems {am : AllocationMap} (h : well_formed am) {fuel : Nat}
    (hf : am.nitems < fuel) : unmarked_count am < fuel :=
  Nat.lt_of_le_of_lt (unmarked_count_le_nitems h) hf

/-- After a cycle the map is well formed, holds no more records than before and no record has
`MARK` set. -/
theorem run_post (mem : Nat → Nat) (fuel : Nat) (top : Nat) (gc : KiGc)
    (hw : well_formed gc.allocs) (hu : unmarked_count gc.allocs < fuel) :
    ∃ g2, gc_run mem fuel top gc = some g2 ∧ well_formed g2.allocs ∧
      g2.allocs.nitems ≤ gc.allocs.nitems ∧ (∀ a ∈ records g2.allocs, ¬ is_marked a) ∧
      g2.paused = gc.paused ∧ g2.bottom = gc.bottom := by
  obtain ⟨g1, _, hrun, hp, hw1⟩ := run_spec mem fuel top gc hw hu
  obtain ⟨hw2, _, _, hn, hpa, hbo⟩ := sweep_spec g1 hw1
  refine ⟨_, hrun, hw2, ?_, ?_, ?_, ?_⟩
  · rw [hn, (mark_ext_fields hp.1).2.2.2.2.1]; exact Nat.sub_le _ _
  · intro a ha
    obtain ⟨c, _, _, rfl⟩ := sweep_records_back g1 hw1 a ha
    exact not_is_marked_clear_mark c
  · rw [hpa, (mark_ext_fields hp.1).1]
  · rw [hbo, (mark_ext_fields hp.1).2.1]

end PineGc

namespace PineGc

/-! ## New maps -/

theorem well_formed_new (nslots_init nslots_min : Nat) (sf ld lu : ℚ) :
    well_formed (gc_alloc_map_new nslots_init nslots_min sf ld lu) := by
  unfold gc_alloc_map_new
  simp only
  refine ⟨?_, ?_, ?_, ?_, ?_⟩
  · exact List.length_replicate _ _
  · show 0 < (if nslots_init < gc_ideal_size nslots_min then gc_ideal_size nslots_min
      else gc_ideal_size nslots_init)
    split
    · exact gc_ideal_size_pos _
    · exact gc_ideal_size_pos _
  · intro i _ a ha
    change a ∈ slot (List.replicate _ []) i at ha
    rw [slot_replicate_nil] at ha
    simp at ha
  · show ((List.replicate _ ([] : List Allocation)).flatten.map Allocation.ptr).Nodup
    rw [flatten_replicate_nil]
    exact List.nodup_nil
  · show 0 = (List.replicate _ ([] : List Allocation)).flatten.length
    rw [flatten_replicate_nil]
    rfl

theorem records_new (nslots_init nslots_min : Nat) (sf ld lu : ℚ) :
    records (gc_alloc_map_new nslots_init nslots_min sf ld lu) = [] := by
  unfold gc_alloc_map_new records
  simp only
  exact flatten_replicate_nil _

/-! ## Insert, both cases -/

theorem insert_replace_ptr (p s : Nat) (a : Allocation) :
    (if a.ptr = p then gc_alloc_new p s else a).ptr = a.ptr := by
  by_cases h : a.ptr = p
  · rw [if_pos h, h]; rfl
  · rw [if_neg h]

theorem insert_wf {am : AllocationMap} (h : well_formed am) (p s : Nat) :
    well_formed (gc_alloc_map_insert am p s).2 := by
  cases hg : gc_alloc_map_get am p with
  | none => exact (insert_new h p s hg).1
  | some old =>
    rw [insert_existing h p s old hg]
    exact well_formed_map_records h _ (insert_replace_ptr p s)

theorem insert_fst {am : AllocationMap} (h : well_formed am) (p s : Nat) :
    (gc_alloc_map_insert am p s).1 = some (gc_alloc_new p s) := by
  cases hg : gc_alloc_map_get am p with
  | none => exact (insert_new h p s hg).2.1
  | some old => rw [insert_existing h p s old hg]

theorem insert_get_self {am : AllocationMap} (h : well_formed am) (p s : Nat) :
    gc_alloc_map_get (gc_alloc_map_insert am p s).2 p = some (gc_alloc_new p s) := by
  cases hg : gc_alloc_map_get am p with
  | none =>
    obtain ⟨hw, _, hperm, _⟩ := insert_new h p s hg
    exact (get_eq_some_iff hw p _).mpr ⟨hperm.mem_iff.mpr (List.mem_cons_self _ _), rfl⟩
  | some old =>
    rw [insert_existing h p s old hg]
    simp only
    rw [get_map_records _ (insert_replace_ptr p s), hg, Option.map_some',
      if_pos (get_some_mem hg).2]

theorem insert_get_other {am : AllocationMap} (h : well_formed am) (p s q : Nat)
    (hq : q ≠ p) :
    gc_alloc_map_get (gc_alloc_map_insert am p s).2 q = gc_alloc_map_get am q := by
  cases hg : gc_alloc_map_get am p with
  | none =>
    obtain ⟨hw, _, hperm, _⟩ := insert_new h p s hg
    cases hgq : gc_alloc_map_get am q with
    | none =>
      rw [get_eq_none_iff hw]
      intro a ha haq
      rcases List.mem_cons.mp (hperm.mem_iff.mp ha) with rfl | ha'
      · exact hq haq.symm
      · exact (get_eq_none_iff h q).mp hgq a ha' haq
    | some b =>
      rw [get_eq_some_iff hw]
      obtain ⟨hb, hbq⟩ := get_some_mem hgq
      exact ⟨hperm.mem_iff.mpr (List.mem_cons_of_mem _ hb), hbq⟩
  | some old =>
    rw [insert_existing h p s old hg]
    simp only
    rw [get_map_records _ (insert_replace_ptr p s)]
    cases hgq : gc_alloc_map_get am q with
    | none => rfl
    | some b =>
      have hbq := (get_some_mem hgq).2
      rw [Option.map_some', if_neg (by rw [hbq]; exact hq)]

theorem insert_nitems_new {am : AllocationMap} (h : well_formed am) (p s : Nat)
    (hnew : gc_alloc_map_get am p = none) :
    (gc_alloc_map_insert am p s).2.nitems = am.nitems + 1 :=
  (insert_new h p s hnew).2.2.2

theorem insert_nitems_existing {am : AllocationMap} (h : well_formed am) (p s : Nat)
    (old : Allocation) (hold : gc_alloc_map_get am p = some old) :
    (gc_alloc_map_insert am p s).2.nitems = am.nitems := by
  rw [insert_existing h p s old hold]; rfl

/-! ## Allocation entry points -/

/-- Specification of `gc_allocate` on a well-formed state with more fuel than records. -/
theorem allocate_spec (mem : Nat → Nat) (fuel : Nat) (top : Nat) (gc : KiGc) (size : Nat)
    (hw : well_formed gc.allocs) (hf : gc.allocs.nitems < fuel) :
    ∃ g1, well_formed g1.allocs ∧ g1.paused = gc.paused ∧ g1.bottom = gc.bottom ∧
      g1.allocs.nitems ≤ gc.allocs.nitems ∧
      ((gc.allocs.nitems > gc.allocs.sweep_limit ∧ gc.paused = false) →
        gc_run mem fuel top gc = some g1) ∧
      (¬ (gc.allocs.nitems > gc.allocs.sweep_limit ∧ gc.paused = false) → g1 = gc) ∧
      gc_allocate mem fuel top gc size none = some (AllocResult.exit 42) ∧
      ∀ p, gc_allocate mem fuel top gc size (some p) =
        some (AllocResult.ok p { g1 with allocs := (gc_alloc_map_insert g1.allocs p size).2 }) := by
  by_cases hc : gc.allocs.nitems > gc.allocs.sweep_limit ∧ gc.paused = false
  · obtain ⟨g2, hrun, hw2, hle, _, hpa, hbo⟩ :=
      run_post mem fuel top gc hw (unmarked_count_lt_of_nitems hw hf)
    refine ⟨g2, hw2, hpa, hbo, hle, fun _ => hrun, fun h => absurd hc h, ?_, ?_⟩
    · unfold gc_allocate
      simp only [if_pos hc, hrun]
    · intro p
      unfold gc_allocate
      simp only [if_pos hc, hrun, insert_fst hw2 p size]
      rfl
  · refine ⟨gc, hw, rfl, rfl, le_refl _, fun h => absurd h hc, fun _ => rfl, ?_, ?_⟩
    · unfold gc_allocate
      simp only [if_neg hc]
    · intro p
      unfold gc_allocate
      simp only [if_neg hc, insert_fst hw p size]
      rfl

/-- Allocation without collection. -/
theorem allocate_quiet (mem : Nat → Nat) (fuel : Nat) (top : Nat) (gc : KiGc) (size p : Nat)
    (hw : well_formed gc.allocs)
    (hc : ¬ (gc.allocs.nitems > gc.allocs.sweep_limit ∧ gc.paused = false)) :
    gc_allocate mem fuel top gc size (some p) =
      some (AllocResult.ok p { gc with allocs := (gc_alloc_map_insert gc.allocs p size).2 }) := by
  unfold gc_allocate
  simp only [if_neg hc, insert_fst hw p size]
  rfl

/-! ## Make root -/

theorem make_root_eq (gc : KiGc) (hw : well_formed gc.allocs) (p : Nat) :
    gc_make_root gc p =
      { gc with
        allocs := (map_records
          (fun a => if a.ptr = p then { a with tag := a.tag ||| GC_FLAG_ROOT } else a)
          gc.allocs) } := by
  unfold gc_make_root
  cases hg : gc_alloc_map_get gc.allocs p with
  | some a => simp only; rw [tag_update_eq hw]
  | none =>
    simp only
    have : map_records
        (fun a => if a.ptr = p then { a with tag := a.tag ||| GC_FLAG_ROOT } else a)
        gc.allocs = gc.allocs := by
      unfold map_records
      have hall := (get_eq_none_iff hw p).mp hg
      have : gc.allocs.allocs.map (List.map
          (fun a => if a.ptr = p then { a with tag := a.tag ||| GC_FLAG_ROOT } else a)) =
          gc.allocs.allocs := by
        conv_rhs => rw [← List.map_id gc.allocs.allocs]
        apply List.map_congr_left
        intro c hc
        conv_rhs => rw [id, ← List.map_id c]
        apply List.map_congr_left
        intro a ha
        have : a ∈ records gc.allocs := List.mem_flatten.mpr ⟨c, hc, ha⟩
        rw [if_neg (hall a this)]; rfl
      rw [this]
    rw [this]

theorem make_root_F_ptr (p : Nat) (a : Allocation) :
    (if a.ptr = p then { a with tag := a.tag ||| GC_FLAG_ROOT } else a).ptr = a.ptr := by
  by_cases h : a.ptr = p
  · rw [if_pos h]
  · rw [if_neg h]

theorem make_root_F_root (p : Nat) (a : Allocation) (h : is_root a) :
    is_root (if a.ptr = p then { a with tag := a.tag ||| GC_FLAG_ROOT } else a) := by
  by_cases hp : a.ptr = p
  · rw [if_pos hp]; exact is_root_or_root a.tag
  · rw [if_neg hp]; exact h

end PineGc

namespace PineGc

/-! ## Unreachable records are swept, reachable ones kept -/

/-- One cycle from a well-formed state with no `MARK` bit set: the records kept are exactly
those reachable from a tracked start pointer. -/
theorem run_exact (mem : Nat → Nat) (fuel : Nat) (top : Nat) (gc : KiGc)
    (hw : well_formed gc.allocs) (h0 : ∀ a ∈ records gc.allocs, ¬ is_marked a)
    (hf : gc.allocs.nitems < fuel) :
    ∃ g1 g2, gc_mark mem fuel top gc = some g1 ∧ gc_run mem fuel top gc = some g2 ∧
      g2 = (gc_sweep g1).2 ∧ well_formed g1.allocs ∧ well_formed g2.allocs ∧
      (∀ b ∈ records gc.allocs,
        (∃ s ∈ mark_starts mem gc top, tracked gc.allocs s ∧ reach mem gc.allocs s b.ptr) →
        (∃ c, gc_alloc_map_get g1.allocs b.ptr = some c ∧ is_marked c) ∧
        ∃ a, gc_alloc_map_get g2.allocs b.ptr = some a ∧ a.size = b.size ∧
          (is_root a ↔ is_root b)) ∧
      (∀ p, ¬ (∃ s ∈ mark_starts mem gc top,
          tracked gc.allocs s ∧ reach mem gc.allocs s p) →
        gc_alloc_map_get g2.allocs p = none) := by
  obtain ⟨g1, hg1, hrun, hp, hw1⟩ :=
    run_spec mem fuel top gc hw (unmarked_count_lt_of_nitems hw hf)
  obtain ⟨hw2, _⟩ := sweep_spec g1 hw1
  refine ⟨g1, _, hg1, hrun, rfl, hw1, hw2, ?_, ?_⟩
  · intro b hb hreach
    have hm : marked_ptr g1.allocs b.ptr := (mark_exact mem hp h0 b.ptr).mpr hreach
    obtain ⟨c, hc, hcp, hcs, hcr, _, hcm⟩ := mark_ext_mem_records hp.1 hw b hb
    have hmc := hcm hm
    refine ⟨⟨c, ?_, hmc⟩, ?_⟩
    · rw [← hcp]; exact get_of_mem hw1 hc
    · obtain ⟨a, ha, has, har, _⟩ := sweep_keeps_marked g1 hw1 c hc hmc
      rw [hcp] at ha
      exact ⟨a, ha, by rw [has, hcs], by rw [har, hcr]⟩
  · intro p hnp
    apply sweep_drops_unmarked g1 hw1
    intro hm
    exact hnp ((mark_exact mem hp h0 p).mp hm)

theorem records_eq_nil_of_get_none {am : AllocationMap} (h : well_formed am)
    (hnone : ∀ p, gc_alloc_map_get am p = none) : records am = [] := by
  cases hr : records am with
  | nil => rfl
  | cons a rest =>
    have ha : a ∈ records am := by rw [hr]; exact List.mem_cons_self _ _
    have := get_of_mem h ha
    rw [hnone] at this
    cases this

/-! ## Scenario 1 -/

theorem scenario1_start_quiet :
    (gc_start gc_blank scenario1_bottom).allocs.nitems < 3 ∧
    ¬ ((gc_start gc_blank scenario1_bottom).allocs.nitems >
        (gc_start gc_blank scenario1_bottom).allocs.sweep_limit ∧
      (gc_start gc_blank scenario1_bottom).paused = false) := by decide!

theorem scenario1_state_A_quiet :
    scenario1_state_A.allocs.nitems < 3 ∧
    ¬ (scenario1_state_A.allocs.nitems > scenario1_state_A.allocs.sweep_limit ∧
      scenario1_state_A.paused = false) := by decide!

theorem scenario1_state_A_eq :
    scenario1_state_A =
      { gc_start gc_blank scenario1_bottom with
        allocs := (gc_alloc_map_insert (gc_start gc_blank scenario1_bottom).allocs
          scenario1_A 16).2 } :=
  congrArg AllocResult.state
    (allocate_quiet scenario1_mem 3 scenario1_top (gc_start gc_blank scenario1_bottom) 16
      scenario1_A (well_formed_new _ _ _ _ _) scenario1_start_quiet.2)

theorem scenario1_state_A_wf : well_formed scenario1_state_A.allocs :=
  scenario1_state_A_eq ▸ insert_wf (well_formed_new _ _ _ _ _) _ _

theorem scenario1_state_eq :
    scenario1_state =
      { scenario1_state_A with
        allocs := (gc_alloc_map_insert scenario1_state_A.allocs scenario1_B 16).2 } :=
  congrArg AllocResult.state
    (allocate_quiet scenario1_mem 3 scenario1_top scenario1_state_A 16
      scenario1_B scenario1_state_A_wf scenario1_state_A_quiet.2)

theorem scenario1_state_wf : well_formed scenario1_state.allocs :=
  scenario1_state_eq ▸ insert_wf scenario1_state_A_wf _ _

theorem scenario1_no_flags :
    ∀ a ∈ records scenario1_state.allocs, ¬ is_root a ∧ ¬ is_marked a := by decide!

/-- No start pointer is tracked when no record is a root: the stack contributes none. -/
theorem no_tracked_start_of_no_root (mem : Nat → Nat) (gc : KiGc) (top : Nat)
    (hnr : ∀ a ∈ records gc.allocs, ¬ is_root a) (p : Nat) :
    ¬ ∃ s ∈ mark_starts mem gc top, tracked gc.allocs s ∧ reach mem gc.allocs s p := by
  rintro ⟨s, hs, _, _⟩
  rcases mem_mark_starts_cases mem gc top s hs with ⟨r, hr, hroot, _⟩ | ⟨pos, hpos, _⟩
  · exact hnr r hr hroot
  · rw [mark_stack_positions_nil] at hpos
    simp at hpos

/-- C1, evaluation at the failing input (scenario 1): the stack variable at `scenario1_var`
lies between the stack top and the stack bottom, at a whole number of pointer strides from the
top, and holds the base of block A, which is tracked; one cycle `gc_run` nevertheless removes A
(and B) from the allocation map, leaving `nitems = 0` instead of 1. -/
theorem scenario1_stack_referenced_block_is_swept :
    scenario1_top ≤ scenario1_var ∧ scenario1_var + PTRSIZE ≤ scenario1_bottom ∧
    (scenario1_var - scenario1_top) % PTRSIZE = 0 ∧
    scenario1_state.bottom = scenario1_bottom ∧
    load_word scenario1_mem scenario1_var = scenario1_A ∧
    gc_alloc_map_get scenario1_state.allocs scenario1_A = some ⟨scenario1_A, 16, 0⟩ ∧
    gc_alloc_map_get scenario1_state.allocs scenario1_B = some ⟨scenario1_B, 16, 0⟩ ∧
    scenario1_state.allocs.nitems = 2 ∧
    ∃ g, gc_run scenario1_mem 3 scenario1_top scenario1_state = some g ∧
      gc_alloc_map_get g.allocs scenario1_A = none ∧
      gc_alloc_map_get g.allocs scenario1_B = none ∧ g.allocs.nitems = 0 := by
  refine ⟨by decide, by decide, by decide, by decide!, by decide!, by decide!, by decide!,
    by decide!, ?_⟩
  have hn : scenario1_state.allocs.nitems < 3 := by decide!
  obtain ⟨g1, g2, _, hrun, _, _, hw2, _, hdrop⟩ := run_exact scenario1_mem 3 scenario1_top
    scenario1_state scenario1_state_wf (fun a ha => (scenario1_no_flags a ha).2) hn
  have hnone : ∀ p, gc_alloc_map_get g2.allocs p = none := fun p =>
    hdrop p (no_tracked_start_of_no_root scenario1_mem scenario1_state scenario1_top
      (fun a ha => (scenario1_no_flags a ha).1) p)
  refine ⟨g2, hrun, hnone _, hnone _, ?_⟩
  rw [hw2.nitems_eq, records_eq_nil_of_get_none hw2 hnone]
  rfl

end PineGc

namespace PineGc

/-! ## Root records -/

theorem has_root_record_mem {am : AllocationMap} {p s : Nat} (h : has_root_record am p s) :
    ∃ a ∈ records am, a.ptr = p ∧ a.size = s ∧ is_root a := by
  obtain ⟨a, ha, hs, hr⟩ := h
  exact ⟨a, (get_some_mem ha).1, (get_some_mem ha).2, hs, hr⟩

theorem has_root_record_of_mem {am : AllocationMap} (hw : well_formed am) {a : Allocation}
    (ha : a ∈ records am) (hr : is_root a) : has_root_record am a.ptr a.size :=
  ⟨a, get_of_mem hw ha, rfl, hr⟩

theorem has_root_record_mark_ext {g g' : KiGc} (h : mark_ext g g') {p s : Nat}
    (hr : has_root_record g.allocs p s) : has_root_record g'.allocs p s := by
  obtain ⟨F, hF, rfl⟩ := h
  obtain ⟨a, ha, hs, hroot⟩ := hr
  refine ⟨F a, ?_, by rw [mark_ext_F_size hF, hs], (mark_ext_F_root hF a).mpr hroot⟩
  show gc_alloc_map_get (map_records F g.allocs) p = _
  rw [get_map_records F (mark_ext_F_ptr hF), ha]
  rfl

/-- One cycle keeps every root record. -/
theorem run_keeps_root (mem : Nat → Nat) (fuel : Nat) (top : Nat) (gc : KiGc)
    (hw : well_formed gc.allocs) (hu : unmarked_count gc.allocs < fuel) (p s : Nat)
    (hr : has_root_record gc.allocs p s) :
    ∃ g', gc_run mem fuel top gc = some g' ∧ well_formed g'.allocs ∧
      g'.allocs.nitems ≤ gc.allocs.nitems ∧ has_root_record g'.allocs p s := by
  obtain ⟨g1, _, hrun, hp, hw1⟩ := run_spec mem fuel top gc hw hu
  obtain ⟨hw2, _, _, hn, _⟩ := sweep_spec g1 hw1
  obtain ⟨a, ha, hap, has, haroot⟩ := has_root_record_mem hr
  have hstart : a.ptr ∈ mark_starts mem gc top := mem_mark_starts_root mem gc top hw a ha haroot
  have hm : marked_ptr g1.allocs a.ptr := hp.2.1 a.ptr hstart ⟨a, ha, rfl⟩
  obtain ⟨c, hc, hcp, hcs, hcr, _, hcm⟩ := mark_ext_mem_records hp.1 hw a ha
  obtain ⟨a', ha', has', har', _⟩ := sweep_keeps_marked g1 hw1 c hc (hcm hm)
  refine ⟨_, hrun, hw2, ?_, a', ?_, ?_, ?_⟩
  · rw [hn, (mark_ext_fields hp.1).2.2.2.2.1]; exact Nat.sub_le _ _
  · rw [← hap, ← hcp]; exact ha'
  · rw [has', hcs, has]
  · exact har'.mpr (hcr.mpr haroot)

theorem run_cycles_keep_root (fuel : Nat) :
    ∀ (cycles : List ((Nat → Nat) × Nat)) (gc : KiGc), well_formed gc.allocs →
    gc.allocs.nitems < fuel → ∀ p s, has_root_record gc.allocs p s →
    ∃ g', gc_run_cycles fuel cycles gc = some g' ∧ has_root_record g'.allocs p s := by
  intro cycles
  induction cycles with
  | nil => intro gc _ _ p s hr; exact ⟨gc, rfl, hr⟩
  | cons c rest ih =>
    intro gc hw hf p s hr
    obtain ⟨mem, top⟩ := c
    obtain ⟨g1, hrun, hw1, hle, hr1⟩ := run_keeps_root mem fuel top gc hw
      (unmarked_count_lt_of_nitems hw hf) p s hr
    obtain ⟨g2, hg2, hr2⟩ := ih g1 hw1 (Nat.lt_of_le_of_lt hle hf) p s hr1
    refine ⟨g2, ?_, hr2⟩
    unfold gc_run_cycles
    rw [hrun]
    exact hg2

theorem sweep_keeps_marked_root (gc : KiGc) (hw : well_formed gc.allocs) (r : Allocation)
    (hr : r ∈ records gc.allocs) (hroot : is_root r) (hm : is_marked r) :
    has_root_record (gc_sweep gc).2.allocs r.ptr r.size := by
  obtain ⟨a, ha, has, har, _⟩ := sweep_keeps_marked gc hw r hr hm
  exact ⟨a, ha, has, har.mpr hroot⟩

theorem make_root_keeps_root (gc : KiGc) (hw : well_formed gc.allocs) (q p s : Nat)
    (hr : has_root_record gc.allocs p s) : has_root_record (gc_make_root gc q).allocs p s := by
  obtain ⟨a, ha, hs, hroot⟩ := hr
  rw [make_root_eq gc hw q]
  refine ⟨_, ?_, ?_, make_root_F_root q a hroot⟩
  · show gc_alloc_map_get (map_records _ gc.allocs) p = _
    rw [get_map_records _ (make_root_F_ptr q), ha]
    rfl
  · by_cases h : a.ptr = q
    · rw [if_pos h]; exact hs
    · rw [if_neg h]; exact hs

theorem malloc_keeps_root (mem : Nat → Nat) (fuel : Nat) (top : Nat) (gc : KiGc)
    (hw : well_formed gc.allocs) (hf : gc.allocs.nitems < fuel) (size q p s : Nat)
    (hq : q ≠ p) (hr : has_root_record gc.allocs p s) :
    ∃ g', gc_malloc mem fuel top gc size (some q) = some (AllocResult.ok q g') ∧
      has_root_record g'.allocs p s := by
  obtain ⟨g1, hw1, _, _, _, hyes, hno, _, hsome⟩ := allocate_spec mem fuel top gc size hw hf
  have hr1 : has_root_record g1.allocs p s := by
    by_cases hc : gc.allocs.nitems > gc.allocs.sweep_limit ∧ gc.paused = false
    · obtain ⟨g', hrun, _, _, hr'⟩ := run_keeps_root mem fuel top gc hw
        (unmarked_count_lt_of_nitems hw hf) p s hr
      have : g' = g1 := Option.some.inj (hrun.symm.trans (hyes hc))
      rw [← this]; exact hr'
    · rw [hno hc]; exact hr
  refine ⟨_, hsome q, ?_⟩
  obtain ⟨a, ha, has, haroot⟩ := hr1
  refine ⟨a, ?_, has, haroot⟩
  show gc_alloc_map_get (gc_alloc_map_insert g1.allocs q size).2 p = some a
  rw [insert_get_other hw1 q size p (Ne.symm hq)]
  exact ha

theorem malloc_static_makes_root (mem : Nat → Nat) (fuel : Nat) (top : Nat) (gc : KiGc)
    (hw : well_formed gc.allocs) (hf : gc.allocs.nitems < fuel) (size q : Nat) :
    ∃ g', gc_malloc_static mem fuel top gc size (some q) = some (AllocResult.ok q g') ∧
      has_root_record g'.allocs q size := by
  obtain ⟨g1, hw1, _, _, _, _, _, _, hsome⟩ := allocate_spec mem fuel top gc size hw hf
  have hw2 : well_formed (gc_alloc_map_insert g1.allocs q size).2 := insert_wf hw1 q size
  refine ⟨gc_make_root { g1 with allocs := (gc_alloc_map_insert g1.allocs q size).2 } q, ?_, ?_⟩
  · unfold gc_malloc_static gc_malloc
    rw [hsome q]
  · rw [make_root_eq { g1 with allocs := (gc_alloc_map_insert g1.allocs q size).2 } hw2 q]
    refine ⟨{ gc_alloc_new q size with tag := (gc_alloc_new q size).tag ||| GC_FLAG_ROOT },
      ?_, rfl, is_root_or_root _⟩
    show gc_alloc_map_get (map_records _ (gc_alloc_map_insert g1.allocs q size).2) q = _
    rw [get_map_records _ (make_root_F_ptr q), insert_get_self hw1 q size, Option.map_some']
    have : (gc_alloc_new q size).ptr = q := rfl
    rw [if_pos this]

/-- C2. Root survival and stickiness: in a well-formed state, a record `r` with the `ROOT`
flag set is, after `gc_run` with any memory and stack top, still in the map with the same
base and size and `ROOT` set; so it is after any number of successive cycles; and neither
`gc_mark_alloc`, `gc_mark_roots`, `gc_mark`, `gc_sweep` of a marked record, a resize,
`gc_make_root` nor `gc_malloc` of another block clears its `ROOT` flag.  `gc_malloc_static`
produces such a record. -/
theorem root_survival_and_stickiness (gc : KiGc) (r : Allocation)
    (hw : well_formed gc.allocs) (hr : r ∈ records gc.allocs) (hroot : is_root r) :
    (∀ (mem : Nat → Nat) (fuel top : Nat), gc.allocs.nitems < fuel →
      ∃ g', gc_run mem fuel top gc = some g' ∧ well_formed g'.allocs ∧
        has_root_record g'.allocs r.ptr r.size) ∧
    (∀ (fuel : Nat) (cycles : List ((Nat → Nat) × Nat)), gc.allocs.nitems < fuel →
      ∃ g', gc_run_cycles fuel cycles gc = some g' ∧ has_root_record g'.allocs r.ptr r.size) ∧
    (∀ (mem : Nat → Nat) (fuel ptr : Nat), gc.allocs.nitems < fuel →
      ∃ g', gc_mark_alloc mem fuel gc ptr = some g' ∧ has_root_record g'.allocs r.ptr r.size) ∧
    (∀ (mem : Nat → Nat) (fuel : Nat), gc.allocs.nitems < fuel →
      ∃ g', gc_mark_roots mem fuel gc = some g' ∧ has_root_record g'.allocs r.ptr r.size) ∧
    (∀ (mem : Nat → Nat) (fuel top : Nat), gc.allocs.nitems < fuel →
      ∃ g', gc_mark mem fuel top gc = some g' ∧ has_root_record g'.allocs r.ptr r.size) ∧
    (is_marked r → has_root_record (gc_sweep gc).2.allocs r.ptr r.size) ∧
    (∀ c, 0 < c → has_root_record (gc_alloc_map_resize gc.allocs c) r.ptr r.size) ∧
    has_root_record (gc_alloc_map_resize_to_fit gc.allocs).2 r.ptr r.size ∧
    (∀ q, has_root_record (gc_make_root gc q).allocs r.ptr r.size) ∧
    (∀ (mem : Nat → Nat) (fuel top size q : Nat), gc.allocs.nitems < fuel → q ≠ r.ptr →
      ∃ g', gc_malloc mem fuel top gc size (some q) = some (AllocResult.ok q g') ∧
        has_root_record g'.allocs r.ptr r.size) ∧
    (∀ (mem : Nat → Nat) (fuel top size q : Nat), gc.allocs.nitems < fuel →
      ∃ g', gc_malloc_static mem fuel top gc size (some q) = some (AllocResult.ok q g') ∧
        has_root_record g'.allocs q size) := by
  have h0 : has_root_record gc.allocs r.ptr r.size := has_root_record_of_mem hw hr hroot
  refine ⟨?_, ?_, ?_, ?_, ?_, ?_, ?_, ?_, ?_, ?_, ?_⟩
  · intro mem fuel top hf
    obtain ⟨g', h1, h2, _, h4⟩ := run_keeps_root mem fuel top gc hw
      (unmarked_count_lt_of_nitems hw hf) _ _ h0
    exact ⟨g', h1, h2, h4⟩
  · intro fuel cycles hf
    exact run_cycles_keep_root fuel cycles gc hw hf _ _ h0
  · intro mem fuel ptr hf
    obtain ⟨g', h1, h2⟩ := mark_alloc_spec mem fuel gc ptr hw (unmarked_count_lt_of_nitems hw hf)
    exact ⟨g', h1, has_root_record_mark_ext h2.1 h0⟩
  · intro mem fuel hf
    obtain ⟨g', h1, h2⟩ := mark_roots_spec mem fuel gc hw (unmarked_count_lt_of_nitems hw hf)
    exact ⟨g', h1, has_root_record_mark_ext h2.1 h0⟩
  · intro mem fuel top hf
    obtain ⟨g', h1, h2⟩ := mark_spec mem fuel top gc hw (unmarked_count_lt_of_nitems hw hf)
    exact ⟨g', h1, has_root_record_mark_ext h2.1 h0⟩
  · exact sweep_keeps_marked_root gc hw r hr hroot
  · intro c hc
    exact ⟨r, by rw [get_resize hw c hc]; exact get_of_mem hw hr, rfl, hroot⟩
  · exact ⟨r, by rw [get_resize_to_fit hw]; exact get_of_mem hw hr, rfl, hroot⟩
  · intro q
    exact make_root_keeps_root gc hw q _ _ h0
  · intro mem fuel top size q hf hq
    exact malloc_keeps_root mem fuel top gc hw hf size q _ _ hq h0
  · intro mem fuel top size q hf
    exact malloc_static_makes_root mem fuel top gc hw hf size q

theorem scenario3_state_wf : well_formed scenario3_state.allocs := by decide!

/-- C2, witness: scenario 3, the record of `P = gc_malloc_static(64)`. -/
theorem root_survival_and_stickiness_witness :
    (⟨scenario3_P, 64, 1⟩ : Allocation) ∈ records scenario3_state.allocs ∧
    ∃ g', gc_run scenario3_mem 3 scenario1_top scenario3_state = some g' ∧
      well_formed g'.allocs ∧ has_root_record g'.allocs scenario3_P 64 :=
  ⟨by decide!,
    (root_survival_and_stickiness scenario3_state ⟨scenario3_P, 64, 1⟩ scenario3_state_wf
      (by decide!) (by decide)).1 scenario3_mem 3 scenario1_top (by decide!)⟩

end PineGc

namespace PineGc

/-! ## Ideal size -/

theorem gc_ideal_size_loop_some (n : Nat) : ∀ (l : List Nat) (p : Nat),
    gc_ideal_size_loop n l = some p → l.Pairwise (· < ·) →
    p ∈ l ∧ n < p ∧ ∀ q ∈ l, n < q → p ≤ q := by
  intro l
  induction l with
  | nil => intro p h; simp [gc_ideal_size_loop] at h
  | cons x rest ih =>
    intro p h hs
    rw [List.pairwise_cons] at hs
    unfold gc_ideal_size_loop at h
    by_cases hx : x > n
    · rw [if_pos hx] at h
      have hxp : x = p := Option.some.inj h
      subst hxp
      refine ⟨List.mem_cons_self _ _, hx, ?_⟩
      intro q hq _
      rcases List.mem_cons.mp hq with rfl | hq
      · exact le_refl _
      · exact le_of_lt (hs.1 q hq)
    · rw [if_neg hx] at h
      obtain ⟨h1, h2, h3⟩ := ih p h hs.2
      refine ⟨List.mem_cons_of_mem _ h1, h2, ?_⟩
      intro q hq hnq
      rcases List.mem_cons.mp hq with rfl | hq
      · exact absurd hnq hx
      · exact h3 q hq hnq

theorem gc_ideal_size_loop_none (n : Nat) : ∀ (l : List Nat),
    gc_ideal_size_loop n l = none → ∀ q ∈ l, q ≤ n := by
  intro l
  induction l with
  | nil => intro _ q hq; simp at hq
  | cons x rest ih =>
    intro h q hq
    unfold gc_ideal_size_loop at h
    by_cases hx : x > n
    · rw [if_pos hx] at h; exact absurd h (by simp)
    · rw [if_neg hx] at h
      rcases List.mem_cons.mp hq with rfl | hq
      · exact Nat.le_of_not_gt hx
      · exact ih h q hq

theorem gc_primes_take : gc_primes.take PRIMES_COUNT = gc_primes := by decide

theorem gc_primes_sorted : gc_primes.Pairwise (· < ·) := by decide

theorem gc_primes_last_mem : 563201731 ∈ gc_primes := by decide

/-- C10. Ideal size: the table `gc_primes` has 30 strictly increasing entries, the first 0 and
the last 563201731; for `n < 563201731`, `gc_ideal_size n` is the smallest table entry
strictly greater than `n`, and for `n >= 563201731` it is 563201731; `gc_ideal_size 0 = 1`,
`gc_ideal_size 562000000000 = 563201731`, and the result is always a table entry `>= 1`. -/
theorem gc_ideal_size_spec :
    gc_primes.length = 30 ∧ gc_primes.Pairwise (· < ·) ∧
    gc_primes.head? = some 0 ∧ gc_primes.getLast? = some 563201731 ∧
    (∀ n : Nat, n < 563201731 →
      gc_ideal_size n ∈ gc_primes ∧ n < gc_ideal_size n ∧
      ∀ q ∈ gc_primes, n < q → gc_ideal_size n ≤ q) ∧
    (∀ n : Nat, 563201731 ≤ n → gc_ideal_size n = 563201731) ∧
    gc_ideal_size 0 = 1 ∧ gc_ideal_size 562000000000 = 563201731 ∧
    (∀ n : Nat, gc_ideal_size n ∈ gc_primes ∧ 1 ≤ gc_ideal_size n) := by
  have hlt : ∀ n : Nat, n < 563201731 →
      gc_ideal_size n ∈ gc_primes ∧ n < gc_ideal_size n ∧
      ∀ q ∈ gc_primes, n < q → gc_ideal_size n ≤ q := by
    intro n hn
    unfold gc_ideal_size
    rw [gc_primes_take]
    cases h : gc_ideal_size_loop n gc_primes with
    | some p => exact gc_ideal_size_loop_some n gc_primes p h gc_primes_sorted
    | none =>
      have := gc_ideal_size_loop_none n gc_primes h 563201731 gc_primes_last_mem
      omega
  have hge : ∀ n : Nat, 563201731 ≤ n → gc_ideal_size n = 563201731 := by
    intro n hn
    unfold gc_ideal_size
    rw [gc_primes_take]
    cases h : gc_ideal_size_loop n gc_primes with
    | some p =>
      obtain ⟨h1, h2, _⟩ := gc_ideal_size_loop_some n gc_primes p h gc_primes_sorted
      have hall : ∀ q ∈ gc_primes, q ≤ 563201731 := by decide
      have := hall p h1
      omega
    | none => rfl
  refine ⟨by decide, gc_primes_sorted, by decide, by decide, hlt, hge, by decide, ?_, ?_⟩
  · exact hge _ (by norm_num)
  · intro n
    by_cases hn : n < 563201731
    · obtain ⟨h1, h2, _⟩ := hlt n hn
      exact ⟨h1, by omega⟩
    · rw [hge n (by omega)]
      exact ⟨gc_primes_last_mem, by norm_num⟩

end PineGc

namespace PineGc

/-! ## Mark soundness -/

theorem edge_of_points_to {mem : Nat → Nat} {am : AllocationMap} {r s : Allocation}
    (h : points_to mem am r s) : edge mem am r.ptr s.ptr := by
  obtain ⟨hr, hs, k, hk, hload⟩ := h
  refine ⟨⟨r, hr, rfl, r.ptr + k * PTRSIZE, ?_, hload⟩, ⟨s, hs, rfl⟩⟩
  unfold gc_mark_alloc_positions
  refine List.mem_map.mpr ⟨k * PTRSIZE, List.mem_range.mpr ?_, rfl⟩
  have : PTRSIZE = 8 := rfl
  omega

theorem reach_of_points_to_chain {mem : Nat → Nat} {am : AllocationMap} {r s : Allocation}
    (h : Relation.ReflTransGen (points_to mem am) r s) (hr : r ∈ records am) :
    s ∈ records am ∧ reach mem am r.ptr s.ptr := by
  induction h with
  | refl => exact ⟨hr, Relation.ReflTransGen.refl⟩
  | tail _ hbc ih => exact ⟨hbc.2.1, Relation.ReflTransGen.tail ih.2 (edge_of_points_to hbc)⟩

/-- C3. Mark soundness: in a well-formed state in which no record has `MARK` set, `gc_mark`
(given more fuel than records) returns, and afterwards every record `s` reachable from a
`ROOT` record `r` through the relation `points_to` (a word at a word-aligned offset of the
block holds the base of the next record) has `MARK` set; `gc_run` returns too, and every such
record is still in the map after it, with its base and size. -/
theorem mark_soundness (mem : Nat → Nat) (fuel top : Nat) (gc : KiGc)
    (hw : well_formed gc.allocs) (h0 : ∀ a ∈ records gc.allocs, ¬ is_marked a)
    (hf : gc.allocs.nitems < fuel) :
    ∃ g1 g2, gc_mark mem fuel top gc = some g1 ∧ gc_run mem fuel top gc = some g2 ∧
      ∀ r s, r ∈ records gc.allocs → is_root r →
        Relation.ReflTransGen (points_to mem gc.allocs) r s →
        (∃ c, gc_alloc_map_get g1.allocs s.ptr = some c ∧ is_marked c) ∧
        (∃ a, gc_alloc_map_get g2.allocs s.ptr = some a ∧ a.size = s.size) := by
  obtain ⟨g1, g2, hg1, hg2, _, _, _, hkeep, _⟩ := run_exact mem fuel top gc hw h0 hf
  refine ⟨g1, g2, hg1, hg2, ?_⟩
  intro r s hr hroot hchain
  obtain ⟨hs, hreach⟩ := reach_of_points_to_chain hchain hr
  obtain ⟨hc, a, ha, has, _⟩ := hkeep s hs
    ⟨r.ptr, mem_mark_starts_root mem gc top hw r hr hroot, ⟨r, hr, rfl⟩, hreach⟩
  exact ⟨hc, a, ha, has⟩

/-- C3, witness: scenario 3 continued, the root block P holds the base of Q in its first
word; after the mark phase Q is marked and after the cycle Q is still in the map. -/
theorem mark_soundness_witness :
    points_to scenario3_mem scenario3_state_Q.allocs ⟨scenario3_P, 64, 1⟩ ⟨scenario3_Q, 16, 0⟩ ∧
    ∃ g1 g2, gc_mark scenario3_mem 3 scenario1_top scenario3_state_Q = some g1 ∧
      gc_run scenario3_mem 3 scenario1_top scenario3_state_Q = some g2 ∧
      (∃ c, gc_alloc_map_get g1.allocs scenario3_Q = some c ∧ is_marked c) ∧
      (∃ a, gc_alloc_map_get g2.allocs scenario3_Q = some a ∧ a.size = 16) := by
  have hpt : points_to scenario3_mem scenario3_state_Q.allocs
      ⟨scenario3_P, 64, 1⟩ ⟨scenario3_Q, 16, 0⟩ :=
    ⟨by decide!, by decide!, 0, by decide, by decide!⟩
  obtain ⟨g1, g2, h1, h2, h3⟩ := mark_soundness scenario3_mem 3 scenario1_top scenario3_state_Q
    (by decide!) (by decide!) (by decide!)
  exact ⟨hpt, g1, g2, h1, h2,
    h3 ⟨scenario3_P, 64, 1⟩ ⟨scenario3_Q, 16, 0⟩ (by decide!) (by decide)
      (Relation.ReflTransGen.single hpt)⟩

/-! ## Unreachable records -/

/-- C4. Unreachable records are reclaimed: in a well-formed state with no `MARK` set, a record
`x` of the map that is not `ROOT`, whose base no scanned stack word holds, and that is not
reachable, along the words the collector reads in block contents, from another record that is
`ROOT` or whose base a scanned stack word holds, is not in the map after `gc_run` (which
returns, given more fuel than records), whether or not it lies on a reference cycle. -/
theorem unreachable_reclaimed (mem : Nat → Nat) (fuel top : Nat) (gc : KiGc) (x : Allocation)
    (hw : well_formed gc.allocs) (h0 : ∀ a ∈ records gc.allocs, ¬ is_marked a)
    (hf : gc.allocs.nitems < fuel) (hx : x ∈ records gc.allocs)
    (hnroot : ¬ is_root x)
    (hnstack : ∀ pos ∈ gc_mark_stack_positions gc.bottom top, load_word mem pos ≠ x.ptr)
    (hnreach : ∀ r ∈ records gc.allocs, r ≠ x →
      (is_root r ∨ ∃ pos ∈ gc_mark_stack_positions gc.bottom top, load_word mem pos = r.ptr) →
      ¬ reach mem gc.allocs r.ptr x.ptr) :
    gc_alloc_map_get gc.allocs x.ptr = some x ∧
    ∃ g1 g2, gc_mark mem fuel top gc = some g1 ∧ gc_run mem fuel top gc = some g2 ∧
      g2 = (gc_sweep g1).2 ∧ gc_alloc_map_get g2.allocs x.ptr = none ∧
      ∀ a ∈ records g2.allocs, a.ptr ≠ x.ptr := by
  obtain ⟨g1, g2, hg1, hg2, heq, _, hw2, _, hdrop⟩ := run_exact mem fuel top gc hw h0 hf
  have hnone : gc_alloc_map_get g2.allocs x.ptr = none := by
    apply hdrop
    rintro ⟨s, hs, ⟨r, hr, hrs⟩, hreach⟩
    subst hrs
    by_cases hrx : r = x
    · subst hrx
      rcases mem_mark_starts_cases mem gc top r.ptr hs with ⟨r', hr', hroot', hp'⟩ | hstack
      · have : r' = r := hw.ptr_inj hr' hr hp'
        subst this
        exact hnroot hroot'
      · obtain ⟨pos, hpos, hload⟩ := hstack
        exact hnstack pos hpos hload
    · rcases mem_mark_starts_cases mem gc top r.ptr hs with ⟨r', hr', hroot', hp'⟩ | hstack
      · have : r' = r := hw.ptr_inj hr' hr hp'
        subst this
        exact hnreach r' hr hrx (Or.inl hroot') hreach
      · exact hnreach r hr hrx (Or.inr hstack) hreach
  exact ⟨get_of_mem hw hx, g1, g2, hg1, hg2, heq, hnone, (get_eq_none_iff hw2 x.ptr).mp hnone⟩

theorem scenario2_no_root : ∀ a ∈ records scenario2_state.allocs, ¬ is_root a := by decide!

/-- C4, witness: scenario 2, the blocks X and Y of 32 bytes point to each other and nothing
else refers to them; after one cycle neither is in the map, `nitems` went from 2 to 0 and
`gc_sweep` returned 64. -/
theorem unreachable_reclaimed_witness :
    load_word scenario2_mem scenario2_X = scenario2_Y ∧
    load_word scenario2_mem scenario2_Y = scenario2_X ∧
    scenario2_state.allocs.nitems = 2 ∧
    (gc_alloc_map_get scenario2_state.allocs (⟨scenario2_X, 32, 0⟩ : Allocation).ptr =
        some ⟨scenario2_X, 32, 0⟩ ∧
      ∃ g1 g2, gc_mark scenario2_mem 3 scenario1_top scenario2_state = some g1 ∧
      gc_run scenario2_mem 3 scenario1_top scenario2_state = some g2 ∧
      g2 = (gc_sweep g1).2 ∧
      gc_alloc_map_get g2.allocs (⟨scenario2_X, 32, 0⟩ : Allocation).ptr = none ∧
      ∀ a ∈ records g2.allocs, a.ptr ≠ (⟨scenario2_X, 32, 0⟩ : Allocation).ptr) ∧
    (gc_mark scenario2_mem 3 scenario1_top scenario2_state).map
      (fun g => ((gc_sweep g).1, (gc_sweep g).2.allocs.nitems,
        gc_alloc_map_get (gc_sweep g).2.allocs scenario2_X,
        gc_alloc_map_get (gc_sweep g).2.allocs scenario2_Y)) = some (64, 0, none, none) :=
  ⟨by decide!, by decide!, by decide!,
    unreachable_reclaimed scenario2_mem 3 scenario1_top scenario2_state ⟨scenario2_X, 32, 0⟩
      (by decide!) (by decide!) (by decide!) (by decide!) (by decide)
      (fun pos hpos => by rw [mark_stack_positions_nil] at hpos; simp at hpos)
      (fun r hr _ hrs => by
        rcases hrs with hroot | ⟨pos, hpos, _⟩
        · exact absurd hroot (scenario2_no_root r hr)
        · rw [mark_stack_positions_nil] at hpos; simp at hpos),
    by decide!⟩

end PineGc

namespace PineGc

/-! ## Allocation -/

/-- C5. Allocation failure semantics: on a well-formed state (with more fuel than records, so
that a collection it may trigger returns), `gc_malloc` ends in `exit(42)` exactly when the
system allocator answers null; when the allocator answers `p`, `gc_malloc` returns `p` and the
map then has a record with base `p` and the requested size; the call never exits with another
status; and `gc_alloc_map_insert` never returns null on a well-formed map. -/
theorem allocation_failure_semantics (mem : Nat → Nat) (fuel top : Nat) (gc : KiGc) (size : Nat)
    (hw : well_formed gc.allocs) (hf : gc.allocs.nitems < fuel) :
    (∀ malloc_result : Option Nat,
      gc_malloc mem fuel top gc size malloc_result = some (AllocResult.exit 42) ↔
        malloc_result = none) ∧
    (∀ p : Nat, ∃ g', gc_malloc mem fuel top gc size (some p) = some (AllocResult.ok p g') ∧
      well_formed g'.allocs ∧
      ∃ a, gc_alloc_map_get g'.allocs p = some a ∧ a.ptr = p ∧ a.size = size) ∧
    (∀ (malloc_result : Option Nat) (status : Nat),
      gc_malloc mem fuel top gc size malloc_result = some (AllocResult.exit status) →
        status = 42) ∧
    (∀ (am : AllocationMap) (p s : Nat), well_formed am →
      ∃ a, (gc_alloc_map_insert am p s).1 = some a ∧ a.ptr = p ∧ a.size = s) := by
  obtain ⟨g1, hw1, _, _, _, _, _, hnone, hsome⟩ := allocate_spec mem fuel top gc size hw hf
  refine ⟨?_, ?_, ?_, ?_⟩
  · intro malloc_result
    cases malloc_result with
    | none => exact ⟨fun _ => rfl, fun _ => hnone⟩
    | some p =>
      constructor
      · intro h
        unfold gc_malloc at h
        rw [hsome p] at h
        cases h
      · intro h; cases h
  · intro p
    refine ⟨_, hsome p, insert_wf hw1 p size, gc_alloc_new p size, ?_, rfl, rfl⟩
    exact insert_get_self hw1 p size
  · intro malloc_result status h
    unfold gc_malloc at h
    cases malloc_result with
    | none =>
      rw [hnone] at h
      cases h
      rfl
    | some p =>
      rw [hsome p] at h
      cases h
  · intro am p s hwam
    exact ⟨gc_alloc_new p s, insert_fst hwam p s, rfl, rfl⟩

theorem small_start_wf : well_formed small_start.allocs := by decide!

/-- C5, witness: the collector of 11 chains just started, a request of 16 bytes. -/
theorem allocation_failure_semantics_witness :
    gc_malloc scenario1_mem 3 scenario1_top small_start 16 none = some (AllocResult.exit 42) ∧
    ∃ g', gc_malloc scenario1_mem 3 scenario1_top small_start 16 (some scenario1_A) =
        some (AllocResult.ok scenario1_A g') ∧
      well_formed g'.allocs ∧
      ∃ a, gc_alloc_map_get g'.allocs scenario1_A = some a ∧ a.ptr = scenario1_A ∧
        a.size = 16 :=
  ⟨((allocation_failure_semantics scenario1_mem 3 scenario1_top small_start 16 small_start_wf
      (by decide!)).1 none).mpr rfl,
    (allocation_failure_semantics scenario1_mem 3 scenario1_top small_start 16 small_start_wf
      (by decide!)).2.1 scenario1_A⟩

/-- C6. Collection trigger: on a well-formed state, when `nitems > sweep_limit` and the
collector is not paused, `gc_allocate` inserts the new block into the map `gc_run` leaves (the
cycle runs first); otherwise it inserts into the map as it is (no cycle runs).  With
`paused = true`, `gc_malloc` returns the allocator's pointer `p`, every record with another
base is found unchanged (base, size and tag), and when `p` had no record `nitems` grows by
exactly 1 and every record of the map is found unchanged. -/
theorem collection_trigger (mem : Nat → Nat) (top : Nat) (gc : KiGc) (size : Nat)
    (hw : well_formed gc.allocs) :
    ((gc.allocs.nitems > gc.allocs.sweep_limit ∧ gc.paused = false) →
      ∀ fuel, gc.allocs.nitems < fuel →
      ∃ g1, gc_run mem fuel top gc = some g1 ∧
        gc_allocate mem fuel top gc size none = some (AllocResult.exit 42) ∧
        ∀ p, gc_allocate mem fuel top gc size (some p) =
          some (AllocResult.ok p
            { g1 with allocs := (gc_alloc_map_insert g1.allocs p size).2 })) ∧
    (¬ (gc.allocs.nitems > gc.allocs.sweep_limit ∧ gc.paused = false) →
      ∀ fuel, gc_allocate mem fuel top gc size none = some (AllocResult.exit 42) ∧
        ∀ p, gc_allocate mem fuel top gc size (some p) =
          some (AllocResult.ok p
            { gc with allocs := (gc_alloc_map_insert gc.allocs p size).2 })) ∧
    (gc.paused = true → ∀ fuel p,
      ∃ g', gc_malloc mem fuel top gc size (some p) = some (AllocResult.ok p g') ∧
        g'.paused = true ∧
        (∀ a ∈ records gc.allocs, a.ptr ≠ p → gc_alloc_map_get g'.allocs a.ptr = some a) ∧
        (∀ q, q ≠ p → gc_alloc_map_get g'.allocs q = gc_alloc_map_get gc.allocs q) ∧
        (gc_alloc_map_get gc.allocs p = none →
          g'.allocs.nitems = gc.allocs.nitems + 1 ∧
          ∀ a ∈ records gc.allocs, gc_alloc_map_get g'.allocs a.ptr = some a)) := by
  refine ⟨?_, ?_, ?_⟩
  · intro hc fuel hf
    obtain ⟨g1, _, _, _, _, hyes, _, hnone, hsome⟩ := allocate_spec mem fuel top gc size hw hf
    exact ⟨g1, hyes hc, hnone, hsome⟩
  · intro hc fuel
    refine ⟨?_, fun p => allocate_quiet mem fuel top gc size p hw hc⟩
    unfold gc_allocate
    simp only [if_neg hc]
  · intro hp fuel p
    have hc : ¬ (gc.allocs.nitems > gc.allocs.sweep_limit ∧ gc.paused = false) := by
      rw [hp]; simp
    have hother : ∀ q, q ≠ p →
        gc_alloc_map_get (gc_alloc_map_insert gc.allocs p size).2 q =
          gc_alloc_map_get gc.allocs q := fun q hq => insert_get_other hw p size q hq
    refine ⟨_, allocate_quiet mem fuel top gc size p hw hc, hp, ?_, hother, ?_⟩
    · intro a ha hap
      show gc_alloc_map_get (gc_alloc_map_insert gc.allocs p size).2 a.ptr = some a
      rw [hother a.ptr hap]
      exact get_of_mem hw ha
    · intro hnew
      refine ⟨insert_nitems_new hw p size hnew, ?_⟩
      intro a ha
      show gc_alloc_map_get (gc_alloc_map_insert gc.allocs p size).2 a.ptr = some a
      rw [hother a.ptr ((get_eq_none_iff hw p).mp hnew a ha)]
      exact get_of_mem hw ha

/-- C6, witness: scenario 6, sweep factor 0 and one block allocated, so `nitems = 1` exceeds
`sweep_limit = 0`: the next `gc_allocate` runs a cycle first (which sweeps the unreferenced
block A) and inserts B into the map the cycle leaves. -/
theorem collection_trigger_witness :
    (scenario6_state.allocs.nitems > scenario6_state.allocs.sweep_limit ∧
      scenario6_state.paused = false) ∧
    ∃ g1, gc_run scenario1_mem 3 scenario1_top scenario6_state = some g1 ∧
      gc_allocate scenario1_mem 3 scenario1_top scenario6_state 16 none =
        some (AllocResult.exit 42) ∧
      ∀ p, gc_allocate scenario1_mem 3 scenario1_top scenario6_state 16 (some p) =
        some (AllocResult.ok p
          { g1 with allocs := (gc_alloc_map_insert g1.allocs p 16).2 }) :=
  ⟨by decide!,
    (collection_trigger scenario1_mem scenario1_top scenario6_state 16 (by decide!)).1
      (by decide!) 3 (by decide!)⟩

end PineGc

namespace PineGc

/-! ## Insert and lookup -/

theorem count_ptr_eq_one {am : AllocationMap} (hw : well_formed am) {a : Allocation}
    (ha : a ∈ records am) : ((records am).map Allocation.ptr).count a.ptr = 1 :=
  List.count_eq_one_of_mem hw.nodup (List.mem_map_of_mem _ ha)

theorem malloc_calls_tracked (mem : Nat → Nat) (fuel top : Nat) :
    ∀ (calls : List (Nat × Nat)) (gc : KiGc), well_formed gc.allocs → gc.paused = true →
    ∃ g', gc_malloc_calls mem fuel top calls gc = some g' ∧ well_formed g'.allocs ∧
      g'.paused = true ∧
      (∀ q, (∃ a, gc_alloc_map_get gc.allocs q = some a) →
        ∃ a, gc_alloc_map_get g'.allocs q = some a) ∧
      ∀ c ∈ calls, ∃ a, gc_alloc_map_get g'.allocs c.2 = some a := by
  intro calls
  induction calls with
  | nil =>
    intro gc hw hp
    exact ⟨gc, rfl, hw, hp, fun _ h => h, fun c hc => by simp at hc⟩
  | cons c rest ih =>
    intro gc hw hp
    obtain ⟨size, p⟩ := c
    have hc : ¬ (gc.allocs.nitems > gc.allocs.sweep_limit ∧ gc.paused = false) := by
      rw [hp]; simp
    have hstep := allocate_quiet mem fuel top gc size p hw hc
    have hw1 : well_formed (gc_alloc_map_insert gc.allocs p size).2 := insert_wf hw p size
    obtain ⟨g', hg', hw', hp', hkeep, hall⟩ :=
      ih { gc with allocs := (gc_alloc_map_insert gc.allocs p size).2 } hw1 hp
    have hkeep1 : ∀ q, (∃ a, gc_alloc_map_get gc.allocs q = some a) →
        ∃ a, gc_alloc_map_get (gc_alloc_map_insert gc.allocs p size).2 q = some a := by
      intro q hq
      by_cases hqp : q = p
      · rw [hqp]; exact ⟨_, insert_get_self hw p size⟩
      · rw [insert_get_other hw p size q hqp]; exact hq
    refine ⟨g', ?_, hw', hp', fun q hq => hkeep q (hkeep1 q hq), ?_⟩
    · unfold gc_malloc_calls gc_malloc
      rw [hstep]
      exact hg'
    · intro c hcm
      rcases List.mem_cons.mp hcm with rfl | hcm
      · exact hkeep p ⟨_, insert_get_self hw p size⟩
      · exact hall c hcm

/-- C7. Insert/lookup agreement across resize: on a well-formed map and for a pointer `p`
with no record, after `gc_alloc_map_insert(am, p, s)` the lookup of `p` returns the record
insert returned, which has base `p`, size `s` and no flag; the lookup of every other pointer
returns what it returned before; the map is well formed again (whether or not the insert
resized it).  Hence after any sequence of `gc_malloc` calls on a paused collector (no
collection), each pointer returned has exactly one record in the map. -/
theorem insert_lookup_agreement (am : AllocationMap) (p s : Nat) (hw : well_formed am)
    (hnew : gc_alloc_map_get am p = none) :
    gc_alloc_map_get (gc_alloc_map_insert am p s).2 p = (gc_alloc_map_insert am p s).1 ∧
    (gc_alloc_map_insert am p s).1 = some ⟨p, s, GC_FLAG_NONE⟩ ∧
    (∀ q, q ≠ p →
      gc_alloc_map_get (gc_alloc_map_insert am p s).2 q = gc_alloc_map_get am q) ∧
    well_formed (gc_alloc_map_insert am p s).2 ∧
    (gc_alloc_map_insert am p s).2.nitems = am.nitems + 1 ∧
    (∀ (mem : Nat → Nat) (fuel top : Nat) (gc : KiGc) (calls : List (Nat × Nat)),
      gc.allocs = am → gc.paused = true →
      ∃ g', gc_malloc_calls mem fuel top calls gc = some g' ∧
        ∀ c ∈ calls, ((records g'.allocs).map Allocation.ptr).count c.2 = 1) := by
  refine ⟨?_, insert_fst hw p s, fun q hq => insert_get_other hw p s q hq, insert_wf hw p s,
    insert_nitems_new hw p s hnew, ?_⟩
  · rw [insert_get_self hw p s, insert_fst hw p s]
  · intro mem fuel top gc calls hgc hp
    obtain ⟨g', hg', hw', _, _, hall⟩ :=
      malloc_calls_tracked mem fuel top calls gc (by rw [hgc]; exact hw) hp
    refine ⟨g', hg', ?_⟩
    intro c hc
    obtain ⟨a, ha⟩ := hall c hc
    obtain ⟨hmem, hptr⟩ := get_some_mem ha
    rw [← hptr]
    exact count_ptr_eq_one hw' hmem

theorem tiny_map_wf : well_formed tiny_map := by decide!

/-- C7, witness: a map of one chain; the insert of the first key resizes it to 5 chains, and
the lookup finds the record insert returned. -/
theorem insert_lookup_agreement_witness :
    tiny_map.nslots = 1 ∧ (gc_alloc_map_insert tiny_map scenario1_A 16).2.nslots = 5 ∧
    gc_alloc_map_get (gc_alloc_map_insert tiny_map scenario1_A 16).2 scenario1_A =
      (gc_alloc_map_insert tiny_map scenario1_A 16).1 ∧
    (gc_alloc_map_insert tiny_map scenario1_A 16).1 = some ⟨scenario1_A, 16, GC_FLAG_NONE⟩ :=
  ⟨by decide!, by decide!,
    (insert_lookup_agreement tiny_map scenario1_A 16 tiny_map_wf (by decide!)).1,
    (insert_lookup_agreement tiny_map scenario1_A 16 tiny_map_wf (by decide!)).2.1⟩

/-- C8. Double insert replaces: on a well-formed map, after `gc_alloc_map_insert(am, p, s1)`
a second `gc_alloc_map_insert(am, p, s2)` returns the new record and leaves the map of the
first call with the record of `p` rewritten where it stands: every field of the map but the
chains is unchanged (`nitems`, `nslots`), every chain keeps its length and, position by
position, its records, except that the record with base `p` (the one of size `s1` and no
flag) is replaced by one of size `s2` and no flag; the map holds exactly one record with base
`p`. -/
theorem double_insert_replaces (am : AllocationMap) (p s1 s2 : Nat) (hw : well_formed am) :
    gc_alloc_map_get (gc_alloc_map_insert am p s1).2 p = some ⟨p, s1, GC_FLAG_NONE⟩ ∧
    (gc_alloc_map_insert (gc_alloc_map_insert am p s1).2 p s2).1 =
      some ⟨p, s2, GC_FLAG_NONE⟩ ∧
    (gc_alloc_map_insert (gc_alloc_map_insert am p s1).2 p s2).2 =
      map_records (fun a => if a.ptr = p then ⟨p, s2, GC_FLAG_NONE⟩ else a)
        (gc_alloc_map_insert am p s1).2 ∧
    (gc_alloc_map_insert (gc_alloc_map_insert am p s1).2 p s2).2.nitems =
      (gc_alloc_map_insert am p s1).2.nitems ∧
    (gc_alloc_map_insert (gc_alloc_map_insert am p s1).2 p s2).2.nslots =
      (gc_alloc_map_insert am p s1).2.nslots ∧
    (∀ i j : Nat,
      (slot (gc_alloc_map_insert (gc_alloc_map_insert am p s1).2 p s2).2.allocs i)[j]? =
        ((slot (gc_alloc_map_insert am p s1).2.allocs i)[j]?).map
          (fun a => if a.ptr = p then ⟨p, s2, GC_FLAG_NONE⟩ else a)) ∧
    ((records (gc_alloc_map_insert (gc_alloc_map_insert am p s1).2 p s2).2).map
      Allocation.ptr).count p = 1 ∧
    (∀ a ∈ records (gc_alloc_map_insert (gc_alloc_map_insert am p s1).2 p s2).2,
      a.ptr = p → a = ⟨p, s2, GC_FLAG_NONE⟩) := by
  have hw1 : well_formed (gc_alloc_map_insert am p s1).2 := insert_wf hw p s1
  have hget1 := insert_get_self hw p s1
  have heq := insert_existing hw1 p s2 _ hget1
  have hw2 : well_formed (gc_alloc_map_insert (gc_alloc_map_insert am p s1).2 p s2).2 :=
    insert_wf hw1 p s2
  have hget2 := insert_get_self hw1 p s2
  refine ⟨hget1, insert_fst hw1 p s2, ?_, ?_, ?_, ?_, ?_, ?_⟩
  · rw [heq]; rfl
  · rw [heq]; rfl
  · rw [heq]; rfl
  · intro i j
    rw [heq]
    show (slot ((gc_alloc_map_insert am p s1).2.allocs.map (List.map _)) i)[j]? = _
    rw [slot_map, List.getElem?_map]
    rfl
  · have := count_ptr_eq_one hw2 (get_some_mem hget2).1
    exact this
  · intro a ha hap
    have h1 := get_of_mem hw2 ha
    rw [hap, hget2] at h1
    exact (Option.some.inj h1).symm

/-- C8, witness: the map of scenario 1 after A was allocated; A is inserted again with size
32. -/
theorem double_insert_replaces_witness :
    gc_alloc_map_get (gc_alloc_map_insert small_start.allocs scenario1_A 16).2 scenario1_A =
      some ⟨scenario1_A, 16, GC_FLAG_NONE⟩ ∧
    (gc_alloc_map_insert (gc_alloc_map_insert small_start.allocs scenario1_A 16).2
      scenario1_A 32).2.nitems = 1 ∧
    (gc_alloc_map_insert (gc_alloc_map_insert small_start.allocs scenario1_A 16).2
      scenario1_A 32).1 = some ⟨scenario1_A, 32, GC_FLAG_NONE⟩ :=
  ⟨(double_insert_replaces small_start.allocs scenario1_A 16 32 small_start_wf).1,
    by decide!,
    (double_insert_replaces small_start.allocs scenario1_A 16 32 small_start_wf).2.1⟩

end PineGc

namespace PineGc

/-! ## Remove -/

theorem wide_map_wf : well_formed wide_map := well_formed_new _ _ _ _ _

/-- C9, counterexample: on the well-formed map `gc_alloc_map_new(53, 5, 0.5, 0.2, 0.8)` of
101 empty chains, the pointer `0x1234` has no record, yet
`gc_allocation_map_remove(am, 0x1234, true)` changes `nslots` from 101 to 11 and replaces the
array of chains: the load factor 0 is below `lf_down`, so the resize-to-fit that follows the
walk shrinks the map. -/
theorem remove_unknown_key_resizes :
    well_formed wide_map ∧ gc_alloc_map_get wide_map 0x1234 = none ∧
    (∀ a ∈ records wide_map, a.ptr ≠ 0x1234) ∧
    wide_map.nslots = 101 ∧
    (gc_allocation_map_remove wide_map 0x1234 true).nslots = 11 ∧
    ¬ ((gc_allocation_map_remove wide_map 0x1234 true).nitems = wide_map.nitems ∧
      (gc_allocation_map_remove wide_map 0x1234 true).nslots = wide_map.nslots ∧
      (gc_allocation_map_remove wide_map 0x1234 true).allocs = wide_map.allocs) := by
  refine ⟨wide_map_wf, by decide!, ?_, by decide!, by decide!, ?_⟩
  · intro a ha
    have : records wide_map = [] := records_new _ _ _ _ _
    rw [this] at ha
    simp at ha
  · intro h
    have h1 : (gc_allocation_map_remove wide_map 0x1234 true).nslots = 11 := by decide!
    have h2 : wide_map.nslots = 101 := by decide!
    rw [h.2.1, h2] at h1
    exact absurd h1 (by decide)

/-- C9, amended. Removing an unknown key: on a well-formed map and for a pointer `p` with no
record, `gc_allocation_map_remove(am, p, false)` leaves the map as it is (`nitems`, `nslots`
and every chain); `gc_allocation_map_remove(am, p, true)` has exactly the effect of
`gc_alloc_map_resize_to_fit` on the unchanged map: `nitems` and the records are unchanged,
every lookup returns what it returned before, and the map is left as it is when the load
factor lies between `lf_down` and `lf_up`. -/
theorem remove_unknown_key (am : AllocationMap) (p : Nat) (hw : well_formed am)
    (hp : ∀ a ∈ records am, a.ptr ≠ p) :
    gc_allocation_map_remove am p false = am ∧
    gc_allocation_map_remove am p true = (gc_alloc_map_resize_to_fit am).2 ∧
    (gc_allocation_map_remove am p true).nitems = am.nitems ∧
    (records (gc_allocation_map_remove am p true)).Perm (records am) ∧
    (∀ q, gc_alloc_map_get (gc_allocation_map_remove am p true) q = gc_alloc_map_get am q) ∧
    (am.lf_down ≤ gc_alloc_map_load_factor am → gc_alloc_map_load_factor am ≤ am.lf_up →
      gc_allocation_map_remove am p true = am) := by
  have hc : ∀ a ∈ slot am.allocs (gc_hash p % am.nslots), a.ptr ≠ p :=
    fun a ha => hp a (mem_records_of_mem_slot am _ a ha)
  have h1 := remove_absent_noresize am p hc
  have h2 := remove_absent_resize am p hc
  refine ⟨h1, h2, ?_, ?_, ?_, ?_⟩
  · rw [h2]; exact nitems_resize_to_fit am
  · rw [h2]; exact records_resize_to_fit_perm am hw.length_eq
  · intro q
    rw [h2]; exact get_resize_to_fit hw q
  · intro hd hu
    rw [h2]
    unfold gc_alloc_map_resize_to_fit
    simp only
    rw [if_neg (not_lt.mpr hu), if_neg (not_lt.mpr hd)]

/-- C9, witness of the amended claim: the map of 101 empty chains and the pointer `0x1234`. -/
theorem remove_unknown_key_witness :
    gc_allocation_map_remove wide_map 0x1234 false = wide_map ∧
    gc_allocation_map_remove wide_map 0x1234 true = (gc_alloc_map_resize_to_fit wide_map).2 :=
  ⟨(remove_unknown_key wide_map 0x1234 wide_map_wf
      (fun a ha => by rw [show records wide_map = [] from records_new _ _ _ _ _] at ha
                      simp at ha)).1,
    (remove_unknown_key wide_map 0x1234 wide_map_wf
      (fun a ha => by rw [show records wide_map = [] from records_new _ _ _ _ _] at ha
                      simp at ha)).2.1⟩

end PineGc

namespace PineGc

/-! ## Ideal size, bounds -/

theorem gc_ideal_size_mem (n : Nat) : gc_ideal_size n ∈ gc_primes := by
  unfold gc_ideal_size
  rw [gc_primes_take]
  cases h : gc_ideal_size_loop n gc_primes with
  | some p => exact (gc_ideal_size_loop_some n gc_primes p h gc_primes_sorted).1
  | none => decide

theorem gc_primes_le_top : ∀ q ∈ gc_primes, q ≤ 563201731 := by decide

theorem gc_ideal_size_le_top (n : Nat) : gc_ideal_size n ≤ 563201731 :=
  gc_primes_le_top _ (gc_ideal_size_mem n)

theorem gc_ideal_size_gt (n : Nat) (h : n < 563201731) : n < gc_ideal_size n := by
  unfold gc_ideal_size
  rw [gc_primes_take]
  cases hl : gc_ideal_size_loop n gc_primes with
  | some p => exact (gc_ideal_size_loop_some n gc_primes p hl gc_primes_sorted).2.1
  | none =>
    have := gc_ideal_size_loop_none n gc_primes hl 563201731 gc_primes_last_mem
    omega

theorem gc_ideal_size_saturates (n : Nat) (h : 563201731 ≤ n) :
    gc_ideal_size n = 563201731 := by
  unfold gc_ideal_size
  rw [gc_primes_take]
  cases hl : gc_ideal_size_loop n gc_primes with
  | some p =>
    obtain ⟨h1, h2, _⟩ := gc_ideal_size_loop_some n gc_primes p hl gc_primes_sorted
    have := gc_primes_le_top p h1
    omega
  | none => rfl

/-! ## Sweep limit -/

theorem size_sub_eq (a b : Nat) (hab : b ≤ a) (ha : a < SIZE_MOD) : size_sub a b = a - b := by
  unfold size_sub
  have hb : b % SIZE_MOD = b := Nat.mod_eq_of_lt (by omega)
  rw [hb]
  have h1 : a + (SIZE_MOD - b) = (a - b) + SIZE_MOD := by omega
  rw [h1, Nat.add_mod_right]
  exact Nat.mod_eq_of_lt (by omega)

/-- Value of `gc_calc_sweep_limit` when the subtraction does not wrap. -/
theorem calc_sweep_limit_eq (n c : Nat) (sf : ℚ) (hnc : n ≤ c) (hc : c < SIZE_MOD) :
    gc_calc_sweep_limit n c sf = Int.toNat (Rat.floor ((n : ℚ) + sf * ((c : ℚ) - (n : ℚ)))) := by
  unfold gc_calc_sweep_limit
  rw [size_sub_eq c n hnc hc, Nat.cast_sub hnc]

theorem calc_sweep_limit_bounds (n c : Nat) (sf : ℚ) (hnc : n ≤ c) (hc : c < SIZE_MOD)
    (h0 : 0 ≤ sf) (h1 : sf ≤ 1) :
    n ≤ gc_calc_sweep_limit n c sf ∧ gc_calc_sweep_limit n c sf ≤ c := by
  rw [calc_sweep_limit_eq n c sf hnc hc]
  have hcn : (0 : ℚ) ≤ (c : ℚ) - (n : ℚ) := by
    have : (n : ℚ) ≤ (c : ℚ) := by exact_mod_cast hnc
    linarith
  have hlow : (n : ℚ) ≤ (n : ℚ) + sf * ((c : ℚ) - (n : ℚ)) := by
    have := mul_nonneg h0 hcn
    linarith
  have hhigh : (n : ℚ) + sf * ((c : ℚ) - (n : ℚ)) ≤ (c : ℚ) := by
    have : sf * ((c : ℚ) - (n : ℚ)) ≤ 1 * ((c : ℚ) - (n : ℚ)) :=
      mul_le_mul_of_nonneg_right h1 hcn
    linarith
  have hfl : ((n : ℕ) : ℤ) ≤ Rat.floor ((n : ℚ) + sf * ((c : ℚ) - (n : ℚ))) := by
    rw [Rat.le_floor]
    exact_mod_cast hlow
  have hnonneg : (0 : ℤ) ≤ Rat.floor ((n : ℚ) + sf * ((c : ℚ) - (n : ℚ))) :=
    le_trans (Int.ofNat_nonneg n) hfl
  constructor
  · rw [Int.le_toNat hnonneg]; exact hfl
  · rw [Int.toNat_le]
    by_contra hcon
    have h2 : ((c : ℤ) + 1) ≤ Rat.floor ((n : ℚ) + sf * ((c : ℚ) - (n : ℚ))) := by omega
    rw [Rat.le_floor] at h2
    have h3 : ((c : ℚ) + 1) ≤ (n : ℚ) + sf * ((c : ℚ) - (n : ℚ)) := by exact_mod_cast h2
    linarith

/-! ## Fields the sweep loop leaves alone -/

/-- Fields of a map other than the chains and the item count. -/
theorem sweep_chain_fields (i : Nat) :
    ∀ (rest : List Allocation) (j : Nat) (am : AllocationMap) (fb : Nat),
    (gc_sweep_chain i rest j am fb).1.nslots = am.nslots ∧
    (gc_sweep_chain i rest j am fb).1.nslots_min = am.nslots_min ∧
    (gc_sweep_chain i rest j am fb).1.lf_down = am.lf_down ∧
    (gc_sweep_chain i rest j am fb).1.lf_up = am.lf_up ∧
    (gc_sweep_chain i rest j am fb).1.sweep_factor = am.sweep_factor ∧
    (gc_sweep_chain i rest j am fb).1.sweep_limit = am.sweep_limit := by
  intro rest
  induction rest with
  | nil => intro j am fb; exact ⟨rfl, rfl, rfl, rfl, rfl, rfl⟩
  | cons chunk rest ih =>
    intro j am fb
    unfold gc_sweep_chain
    by_cases hm : chunk.tag &&& GC_FLAG_MARK ≠ 0
    · rw [if_pos hm]
      exact ih _ _ _
    · rw [if_neg hm]
      obtain ⟨h1, h2, h3, h4, h5, h6⟩ :=
        ih j (gc_allocation_map_remove am chunk.ptr false) (fb + chunk.size)
      exact ⟨h1, h2, h3, h4, h5, h6⟩

theorem sweep_fold_fields (l : List Nat) :
    ∀ (s : AllocationMap × Nat),
    (l.foldl (fun s i => gc_sweep_chain i (slot s.1.allocs i) 0 s.1 s.2) s).1.nslots =
        s.1.nslots ∧
    (l.foldl (fun s i => gc_sweep_chain i (slot s.1.allocs i) 0 s.1 s.2) s).1.nslots_min =
        s.1.nslots_min ∧
    (l.foldl (fun s i => gc_sweep_chain i (slot s.1.allocs i) 0 s.1 s.2) s).1.lf_down =
        s.1.lf_down ∧
    (l.foldl (fun s i => gc_sweep_chain i (slot s.1.allocs i) 0 s.1 s.2) s).1.lf_up =
        s.1.lf_up ∧
    (l.foldl (fun s i => gc_sweep_chain i (slot s.1.allocs i) 0 s.1 s.2) s).1.sweep_factor =
        s.1.sweep_factor ∧
    (l.foldl (fun s i => gc_sweep_chain i (slot s.1.allocs i) 0 s.1 s.2) s).1.sweep_limit =
        s.1.sweep_limit := by
  induction l with
  | nil => intro s; exact ⟨rfl, rfl, rfl, rfl, rfl, rfl⟩
  | cons i rest ih =>
    intro s
    rw [List.foldl_cons]
    obtain ⟨h1, h2, h3, h4, h5, h6⟩ := ih (gc_sweep_chain i (slot s.1.allocs i) 0 s.1 s.2)
    obtain ⟨g1, g2, g3, g4, g5, g6⟩ := sweep_chain_fields i (slot s.1.allocs i) 0 s.1 s.2
    exact ⟨h1.trans g1, h2.trans g2, h3.trans g3, h4.trans g4, h5.trans g5, h6.trans g6⟩

theorem sweep_loop_fields (am : AllocationMap) :
    (gc_sweep_loop am).1.nslots = am.nslots ∧
    (gc_sweep_loop am).1.nslots_min = am.nslots_min ∧
    (gc_sweep_loop am).1.lf_down = am.lf_down ∧
    (gc_sweep_loop am).1.lf_up = am.lf_up ∧
    (gc_sweep_loop am).1.sweep_factor = am.sweep_factor ∧
    (gc_sweep_loop am).1.sweep_limit = am.sweep_limit :=
  sweep_fold_fields (List.range am.nslots) (am, 0)

end PineGc

namespace PineGc

/-! ## Remove of a key that has a record -/

theorem filter_ne_length {c : List Allocation} (hn : (c.map Allocation.ptr).Nodup)
    {a : Allocation} (ha : a ∈ c) :
    (c.filter (fun x => decide (x.ptr ≠ a.ptr))).length + 1 = c.length := by
  obtain ⟨s, t, rfl⟩ := List.append_of_mem ha
  rw [filter_ne_of_nodup s a t hn]
  simp only [List.length_append, List.length_cons]
  omega

/-- Remove of a key that has a record, without the follow-up resize. -/
theorem remove_present_noresize {am : AllocationMap} (h : well_formed am) {a : Allocation}
    (ha : a ∈ records am) :
    well_formed (gc_allocation_map_remove am a.ptr false) ∧
    (gc_allocation_map_remove am a.ptr false).nitems + 1 = am.nitems ∧
    (∀ x, x ∈ records (gc_allocation_map_remove am a.ptr false) ↔
      x ∈ records am ∧ x.ptr ≠ a.ptr) := by
  have hs := h.mem_slot ha
  have hlt := h.index_lt a.ptr
  have hnd := h.slot_nodup (gc_hash a.ptr % am.nslots)
  have hpos : 0 < am.nitems := by
    rw [h.nitems_eq]; exact List.length_pos_of_mem ha
  have hfst := remove_walk_fst a.ptr (slot am.allocs (gc_hash a.ptr % am.nslots)) am.nitems
  have hsnd := remove_walk_snd a.ptr (slot am.allocs (gc_hash a.ptr % am.nslots)) hnd
    ⟨a, hs, rfl⟩ am.nitems hpos
  have heq : gc_allocation_map_remove am a.ptr false =
      { am with
        allocs := am.allocs.set (gc_hash a.ptr % am.nslots)
          ((slot am.allocs (gc_hash a.ptr % am.nslots)).filter
            (fun x => decide (x.ptr ≠ a.ptr)))
        nitems := am.nitems - 1 } := by
    unfold gc_allocation_map_remove
    simp only [Bool.false_eq_true, if_false]
    rw [hfst, hsnd]
  obtain ⟨R, hR1, hR2⟩ := flatten_set_perm am.allocs (gc_hash a.ptr % am.nslots)
    ((slot am.allocs (gc_hash a.ptr % am.nslots)).filter (fun x => decide (x.ptr ≠ a.ptr))) hlt
  have hmem : ∀ x, x ∈ (am.allocs.set (gc_hash a.ptr % am.nslots)
      ((slot am.allocs (gc_hash a.ptr % am.nslots)).filter
        (fun x => decide (x.ptr ≠ a.ptr)))).flatten ↔ x ∈ records am ∧ x.ptr ≠ a.ptr := by
    intro x
    rw [hR2.mem_iff, List.mem_append, List.mem_filter]
    have hrec : x ∈ records am ↔
        x ∈ slot am.allocs (gc_hash a.ptr % am.nslots) ∨ x ∈ R := by
      unfold records; rw [hR1.mem_iff, List.mem_append]
    constructor
    · rintro (⟨hx, hne⟩ | hx)
      · exact ⟨hrec.mpr (Or.inl hx), by simpa using hne⟩
      · refine ⟨hrec.mpr (Or.inr hx), ?_⟩
        intro hxa
        have hx' : x ∈ records am := hrec.mpr (Or.inr hx)
        have hxeq : x = a := h.ptr_inj hx' ha hxa
        subst hxeq
        have hnodup := h.nodup
        unfold records at hnodup
        rw [(hR1.map Allocation.ptr).nodup_iff, List.map_append] at hnodup
        exact (List.nodup_append.mp hnodup).2.2 (List.mem_map_of_mem _ hs)
          (List.mem_map_of_mem _ hx)
    · rintro ⟨hx, hne⟩
      rcases hrec.mp hx with hx1 | hx2
      · exact Or.inl ⟨hx1, by simpa using hne⟩
      · exact Or.inr hx2
  rw [heq]
  refine ⟨⟨?_, h.nslots_pos, ?_, ?_, ?_⟩, ?_, hmem⟩
  · show (am.allocs.set _ _).length = am.nslots
    rw [List.length_set]; exact h.length_eq
  · intro i hi x hx
    change x ∈ slot (am.allocs.set _ _) i at hx
    by_cases hk : gc_hash a.ptr % am.nslots = i
    · rw [hk, slot_set_self _ _ _ (by rw [h.length_eq]; exact hi)] at hx
      rw [← hk] at hx
      have := (List.mem_filter.mp hx).1
      rw [hk] at this
      exact h.bucket hi this
    · rw [slot_set_ne _ _ _ _ hk] at hx
      exact h.bucket hi hx
  · show ((am.allocs.set _ _).flatten.map Allocation.ptr).Nodup
    rw [(hR2.map Allocation.ptr).nodup_iff]
    have hnodup := h.nodup
    unfold records at hnodup
    rw [(hR1.map Allocation.ptr).nodup_iff] at hnodup
    exact List.Nodup.sublist
      (List.Sublist.map _ (List.Sublist.append_right (List.filter_sublist _) R)) hnodup
  · show am.nitems - 1 = (am.allocs.set _ _).flatten.length
    rw [hR2.length_eq, List.length_append]
    have h1 := filter_ne_length hnd hs
    have h2 : am.nitems = (slot am.allocs (gc_hash a.ptr % am.nslots)).length + R.length := by
      rw [h.nitems_eq]; unfold records; rw [hR1.length_eq, List.length_append]
    omega
  · show am.nitems - 1 + 1 = am.nitems
    omega

theorem remove_true_eq (am : AllocationMap) (p : Nat) :
    gc_allocation_map_remove am p true =
      (gc_alloc_map_resize_to_fit (gc_allocation_map_remove am p false)).2 := by
  unfold gc_allocation_map_remove
  simp

/-- Remove keeps a map well formed, whatever the key and the flag. -/
theorem remove_wf {am : AllocationMap} (h : well_formed am) (p : Nat) (allow_resize : Bool) :
    well_formed (gc_allocation_map_remove am p allow_resize) := by
  have hfalse : well_formed (gc_allocation_map_remove am p false) := by
    cases hg : gc_alloc_map_get am p with
    | none =>
      rw [remove_absent_noresize am p
        (fun a ha => (get_eq_none_iff h p).mp hg a (mem_records_of_mem_slot am _ a ha))]
      exact h
    | some a =>
      obtain ⟨ha, hp⟩ := get_some_mem hg
      rw [← hp]
      exact (remove_present_noresize h ha).1
  cases allow_resize with
  | false => exact hfalse
  | true =>
    rw [remove_true_eq]
    exact well_formed_resize_to_fit hfalse

theorem tag_update_wf {am : AllocationMap} (h : well_formed am) (p : Nat) (f : Nat → Nat) :
    well_formed (tag_update am p f) := by
  rw [tag_update_eq h p f]
  apply well_formed_map_records h
  intro a
  by_cases hp : a.ptr = p
  · rw [if_pos hp]
  · rw [if_neg hp]

end PineGc

namespace PineGc

/-! ## Sweep limit after resize and sweep -/

theorem resize_to_fit_true (am : AllocationMap) (h : (gc_alloc_map_resize_to_fit am).1 = true) :
    ∃ c, 0 < c ∧ (gc_alloc_map_resize_to_fit am).2 = gc_alloc_map_resize am c := by
  rcases resize_to_fit_cases am with h1 | ⟨c, hc, h1⟩
  · rw [h1] at h; cases h
  · exact ⟨c, hc, by rw [h1]⟩

theorem resize_to_fit_false (am : AllocationMap)
    (h : (gc_alloc_map_resize_to_fit am).1 = false) : (gc_alloc_map_resize_to_fit am).2 = am := by
  rcases resize_to_fit_cases am with h1 | ⟨c, _, h1⟩
  · rw [h1]
  · rw [h1] at h; cases h

/-- C11, counterexample: scenario 3 continued, after the mark phase (root P marked, Q not).
`gc_sweep` frees Q and its resize-to-fit does not resize; the map then has `nitems = 1`,
`nslots = 11` and `sweep_factor = 1/2`, for which the formula gives 6, but `sweep_limit` is
still 5, the value computed when the map was created. -/
theorem sweep_limit_stale_after_sweep :
    well_formed scenario3_marked.allocs ∧
    (gc_alloc_map_resize_to_fit (gc_sweep_loop scenario3_marked.allocs).1).1 = false ∧
    (gc_sweep scenario3_marked).2.allocs.nitems = 1 ∧
    (gc_sweep scenario3_marked).2.allocs.nslots = 11 ∧
    (gc_sweep scenario3_marked).2.allocs.sweep_factor = 1 / 2 ∧
    (gc_sweep scenario3_marked).2.allocs.sweep_limit = 5 ∧
    Int.toNat (Rat.floor ((1 : ℚ) + 1 / 2 * ((11 : ℚ) - 1))) = 6 ∧
    (gc_sweep scenario3_marked).2.allocs.sweep_limit ≠
      gc_calc_sweep_limit (gc_sweep scenario3_marked).2.allocs.nitems
        (gc_sweep scenario3_marked).2.allocs.nslots
        (gc_sweep scenario3_marked).2.allocs.sweep_factor := by
  refine ⟨by decide!, by decide!, by decide!, by decide!, by decide!, by decide!, by decide!,
    by decide!⟩

/-- C11, amended. Immediately after any `gc_alloc_map_resize`, `sweep_limit` is
`nitems + sweep_factor * (nslots - nitems)` truncated, computed from the map's current `nitems`
and `nslots` (the difference taken in `size_t`, hence the plain difference when
`nitems <= nslots`); so it is immediately after a `gc_sweep` whose final resize-to-fit resized
the map; after a `gc_sweep` whose resize-to-fit did not resize, `sweep_limit` is the value it
had before the sweep. -/
theorem sweep_limit_after_resize_and_sweep (am : AllocationMap) (c : Nat) (gc : KiGc) :
    (gc_alloc_map_resize am c).sweep_limit =
      gc_calc_sweep_limit (gc_alloc_map_resize am c).nitems (gc_alloc_map_resize am c).nslots
        (gc_alloc_map_resize am c).sweep_factor ∧
    (am.nitems ≤ c → c < SIZE_MOD →
      (gc_alloc_map_resize am c).sweep_limit =
        Int.toNat (Rat.floor (((gc_alloc_map_resize am c).nitems : ℚ) +
          (gc_alloc_map_resize am c).sweep_factor *
            (((gc_alloc_map_resize am c).nslots : ℚ) -
              ((gc_alloc_map_resize am c).nitems : ℚ))))) ∧
    ((gc_alloc_map_resize_to_fit (gc_sweep_loop gc.allocs).1).1 = true →
      (gc_sweep gc).2.allocs.sweep_limit =
        gc_calc_sweep_limit (gc_sweep gc).2.allocs.nitems (gc_sweep gc).2.allocs.nslots
          (gc_sweep gc).2.allocs.sweep_factor) ∧
    ((gc_alloc_map_resize_to_fit (gc_sweep_loop gc.allocs).1).1 = false →
      (gc_sweep gc).2.allocs.sweep_limit = gc.allocs.sweep_limit) := by
  refine ⟨rfl, ?_, ?_, ?_⟩
  · intro h1 h2
    exact calc_sweep_limit_eq am.nitems c am.sweep_factor h1 h2
  · intro h
    obtain ⟨c', _, hc'⟩ := resize_to_fit_true _ h
    show (gc_alloc_map_resize_to_fit (gc_sweep_loop gc.allocs).1).2.sweep_limit =
      gc_calc_sweep_limit (gc_alloc_map_resize_to_fit (gc_sweep_loop gc.allocs).1).2.nitems
        (gc_alloc_map_resize_to_fit (gc_sweep_loop gc.allocs).1).2.nslots
        (gc_alloc_map_resize_to_fit (gc_sweep_loop gc.allocs).1).2.sweep_factor
    rw [hc']
    rfl
  · intro h
    show (gc_alloc_map_resize_to_fit (gc_sweep_loop gc.allocs).1).2.sweep_limit = _
    rw [resize_to_fit_false _ h]
    exact (sweep_loop_fields gc.allocs).2.2.2.2.2

end PineGc

namespace PineGc

/-! ## Sweep: flags and accounting -/

/-- C13. After any sweep no record has `MARK` set: in a well-formed state, whatever the flags
of its records, every record in the map after `gc_sweep` has the `MARK` bit clear and is a
record that was in the map before with `MARK` set, with the same base, the same size and the
same `ROOT` bit. -/
theorem sweep_clears_marks (gc : KiGc) (hw : well_formed gc.allocs) :
    ∀ a ∈ records (gc_sweep gc).2.allocs,
      ¬ is_marked a ∧
      ∃ c ∈ records gc.allocs, is_marked c ∧ a.ptr = c.ptr ∧ a.size = c.size ∧
        (is_root a ↔ is_root c) := by
  intro a ha
  obtain ⟨c, hc, hcm, rfl⟩ := sweep_records_back gc hw a ha
  exact ⟨not_is_marked_clear_mark c, c, hc, hcm, rfl, rfl, is_root_clear_mark c⟩

/-- C13, witness: scenario 3 continued after the mark phase; the root P, marked, is the one
record left by the sweep, with `MARK` clear and `ROOT` set. -/
theorem sweep_clears_marks_witness :
    records (gc_sweep scenario3_marked).2.allocs = [⟨scenario3_P, 64, 1⟩] ∧
    ∀ a ∈ records (gc_sweep scenario3_marked).2.allocs,
      ¬ is_marked a ∧
      ∃ c ∈ records scenario3_marked.allocs, is_marked c ∧ a.ptr = c.ptr ∧ a.size = c.size ∧
        (is_root a ↔ is_root c) :=
  ⟨by decide!, sweep_clears_marks scenario3_marked (by decide!)⟩

theorem unmarked_bytes_eq_zero (l : List Allocation) (h : ∀ c ∈ l, is_marked c) :
    unmarked_bytes l = 0 ∧ unmarked_in l = 0 := by
  unfold unmarked_bytes unmarked_in
  have hf : l.filter (fun a => decide (¬ is_marked a)) = [] := by
    rw [List.filter_eq_nil_iff]
    intro a ha
    simpa using h a ha
  constructor
  · rw [hf]; rfl
  · rw [List.countP_eq_length_filter, hf]; rfl

/-- C14. Sweep accounting: in a well-formed state, `gc_sweep` removes from the map every
record whose `MARK` bit was clear and keeps every record whose `MARK` bit was set (and the
map holds nothing else afterwards); `nitems` decreases by the number of records removed; the
value returned is the sum of the sizes of the records removed, 0 when every record was
marked. -/
theorem sweep_accounting (gc : KiGc) (hw : well_formed gc.allocs) :
    (∀ c ∈ records gc.allocs, ¬ is_marked c →
      gc_alloc_map_get (gc_sweep gc).2.allocs c.ptr = none) ∧
    (∀ c ∈ records gc.allocs, is_marked c →
      ∃ a, gc_alloc_map_get (gc_sweep gc).2.allocs c.ptr = some a ∧ a.size = c.size) ∧
    (∀ a ∈ records (gc_sweep gc).2.allocs,
      ∃ c ∈ records gc.allocs, is_marked c ∧ a.ptr = c.ptr) ∧
    (gc_sweep gc).2.allocs.nitems + unmarked_in (records gc.allocs) = gc.allocs.nitems ∧
    (gc_sweep gc).1 = unmarked_bytes (records gc.allocs) ∧
    ((∀ c ∈ records gc.allocs, is_marked c) →
      (gc_sweep gc).1 = 0 ∧ (gc_sweep gc).2.allocs.nitems = gc.allocs.nitems) := by
  obtain ⟨_, _, hret, hn, _⟩ := sweep_spec gc hw
  have hle : unmarked_in (records gc.allocs) ≤ gc.allocs.nitems := by
    rw [hw.nitems_eq]; exact unmarked_in_le_length _
  refine ⟨?_, ?_, ?_, ?_, hret, ?_⟩
  · intro c hc hcm
    apply sweep_drops_unmarked gc hw
    rintro ⟨b, hb, hbp, hbm⟩
    have : b = c := hw.ptr_inj hb hc hbp
    rw [this] at hbm
    exact hcm hbm
  · intro c hc hcm
    obtain ⟨a, ha, has, _⟩ := sweep_keeps_marked gc hw c hc hcm
    exact ⟨a, ha, has⟩
  · intro a ha
    obtain ⟨c, hc, hcm, rfl⟩ := sweep_records_back gc hw a ha
    exact ⟨c, hc, hcm, rfl⟩
  · rw [hn]; omega
  · intro hall
    obtain ⟨h1, h2⟩ := unmarked_bytes_eq_zero (records gc.allocs) hall
    rw [hret, hn, h1, h2]
    exact ⟨rfl, rfl⟩

/-- C14, witness: scenario 3 continued after the mark phase; the sweep removes the unmarked
block Q of 16 bytes, keeps P, returns 16 and takes `nitems` from 2 to 1. -/
theorem sweep_accounting_witness :
    scenario3_marked.allocs.nitems = 2 ∧ (gc_sweep scenario3_marked).1 = 16 ∧
    (gc_sweep scenario3_marked).2.allocs.nitems = 1 ∧
    gc_alloc_map_get (gc_sweep scenario3_marked).2.allocs scenario3_Q = none ∧
    (gc_sweep scenario3_marked).2.allocs.nitems + unmarked_in (records scenario3_marked.allocs) =
      scenario3_marked.allocs.nitems ∧
    (gc_sweep scenario3_marked).1 = unmarked_bytes (records scenario3_marked.allocs) :=
  ⟨by decide!, by decide!, by decide!, by decide!,
    (sweep_accounting scenario3_marked (by decide!)).2.2.2.1,
    (sweep_accounting scenario3_marked (by decide!)).2.2.2.2.1⟩

end PineGc

namespace PineGc

/-! ## Capacity invariant -/

theorem capacity_ok_new (nslots_init nslots_min : Nat) (sf ld lu : ℚ) :
    capacity_ok (gc_alloc_map_new nslots_init nslots_min sf ld lu) := by
  unfold capacity_ok gc_alloc_map_new
  simp only
  refine ⟨gc_ideal_size_mem _, ?_, ?_⟩
  · by_cases h : nslots_init < gc_ideal_size nslots_min
    · rw [if_pos h]; exact gc_ideal_size_mem _
    · rw [if_neg h]; exact gc_ideal_size_mem _
  · by_cases h : nslots_init < gc_ideal_size nslots_min
    · rw [if_pos h]
    · rw [if_neg h]
      by_cases ht : nslots_init < 563201731
      · have := gc_ideal_size_gt nslots_init ht
        omega
      · rw [gc_ideal_size_saturates nslots_init (by omega)]
        exact gc_ideal_size_le_top _

theorem capacity_ok_of_fields {am am' : AllocationMap} (h : capacity_ok am)
    (h1 : am'.nslots = am.nslots) (h2 : am'.nslots_min = am.nslots_min) : capacity_ok am' := by
  unfold capacity_ok at h ⊢
  rw [h1, h2]; exact h

theorem capacity_ok_resize_to_fit {am : AllocationMap} (h : capacity_ok am) :
    capacity_ok (gc_alloc_map_resize_to_fit am).2 := by
  obtain ⟨hmin, hn, hle⟩ := h
  unfold gc_alloc_map_resize_to_fit
  simp only
  by_cases h1 : gc_alloc_map_load_factor am > am.lf_up
  · rw [if_pos h1]
    unfold gc_resize_more
    simp only
    by_cases h2 : gc_ideal_size am.nitems > am.nslots
    · rw [if_pos h2]
      exact ⟨hmin, gc_ideal_size_mem _, by show am.nslots_min ≤ gc_ideal_size am.nitems; omega⟩
    · rw [if_neg h2]; exact ⟨hmin, hn, hle⟩
  · rw [if_neg h1]
    by_cases h3 : gc_alloc_map_load_factor am < am.lf_down
    · rw [if_pos h3]
      unfold gc_resize_less
      simp only
      by_cases h4 : (if gc_ideal_size am.nitems < am.nslots_min then am.nslots_min
          else gc_ideal_size am.nitems) < am.nslots
      · rw [if_pos h4]
        refine ⟨hmin, ?_, ?_⟩
        · show (if gc_ideal_size am.nitems < am.nslots_min then am.nslots_min
            else gc_ideal_size am.nitems) ∈ gc_primes
          by_cases h5 : gc_ideal_size am.nitems < am.nslots_min
          · rw [if_pos h5]; exact hmin
          · rw [if_neg h5]; exact gc_ideal_size_mem _
        · show am.nslots_min ≤ (if gc_ideal_size am.nitems < am.nslots_min then am.nslots_min
            else gc_ideal_size am.nitems)
          by_cases h5 : gc_ideal_size am.nitems < am.nslots_min
          · rw [if_pos h5]
          · rw [if_neg h5]; omega
      · rw [if_neg h4]; exact ⟨hmin, hn, hle⟩
    · rw [if_neg h3]; exact ⟨hmin, hn, hle⟩

theorem capacity_ok_insert {am : AllocationMap} (h : capacity_ok am) (p s : Nat) :
    capacity_ok (gc_alloc_map_insert am p s).2 := by
  unfold gc_alloc_map_insert
  simp only
  cases hwalk : gc_alloc_map_insert_walk (gc_alloc_new p s)
      (slot am.allocs (gc_hash p % am.nslots)) with
  | some chain => exact capacity_ok_of_fields h rfl rfl
  | none =>
    simp only
    have hfront : capacity_ok (insert_front am p s) := capacity_ok_of_fields h rfl rfl
    have hfit : capacity_ok (gc_alloc_map_resize_to_fit (insert_front am p s)).2 :=
      capacity_ok_resize_to_fit hfront
    split
    · exact hfit
    · exact hfit

theorem capacity_ok_remove {am : AllocationMap} (h : capacity_ok am) (p : Nat)
    (allow_resize : Bool) : capacity_ok (gc_allocation_map_remove am p allow_resize) := by
  have hfalse : capacity_ok (gc_allocation_map_remove am p false) := by
    unfold gc_allocation_map_remove
    simp only [Bool.false_eq_true, if_false]
    exact capacity_ok_of_fields h rfl rfl
  cases allow_resize with
  | false => exact hfalse
  | true =>
    rw [remove_true_eq]
    exact capacity_ok_resize_to_fit hfalse

theorem capacity_ok_sweep {gc : KiGc} (h : capacity_ok gc.allocs) :
    capacity_ok (gc_sweep gc).2.allocs := by
  show capacity_ok (gc_alloc_map_resize_to_fit (gc_sweep_loop gc.allocs).1).2
  apply capacity_ok_resize_to_fit
  exact capacity_ok_of_fields h (sweep_loop_fields gc.allocs).1 (sweep_loop_fields gc.allocs).2.1

/-- C12. Capacity invariant: every map reached from `gc_alloc_map_new` (any `nslots_init`,
`nslots_min`) by any sequence of inserts, removes (with or without the follow-up resize),
resizes to fit, sweeps and tag writes has `nslots >= nslots_min`, and its `nslots` (and its
`nslots_min`) is an entry of the prime ladder `gc_primes`. -/
theorem capacity_invariant (am : AllocationMap) (h : reachable_map am) :
    am.nslots_min ≤ am.nslots ∧ am.nslots ∈ gc_primes ∧ am.nslots_min ∈ gc_primes := by
  have hcap : capacity_ok am := by
    induction h with
    | new ni nm sf ld lu => exact capacity_ok_new ni nm sf ld lu
    | insert am p s _ ih => exact capacity_ok_insert ih p s
    | remove am p b _ ih => exact capacity_ok_remove ih p b
    | resize_to_fit am _ ih => exact capacity_ok_resize_to_fit ih
    | sweep gc _ ih => exact capacity_ok_sweep ih
    | tag am p f _ ih => exact capacity_ok_of_fields ih rfl rfl
  exact ⟨hcap.2.2, hcap.2.1, hcap.1⟩

theorem reachable_insert_keys (ps : List Nat) :
    ∀ am, reachable_map am → reachable_map (insert_keys am ps) := by
  induction ps with
  | nil => intro am h; exact h
  | cons p rest ih =>
    intro am h
    exact ih _ (reachable_map.insert am p 16 h)

theorem reachable_remove_keys (ps : List Nat) :
    ∀ am, reachable_map am → reachable_map (remove_keys am ps) := by
  induction ps with
  | nil => intro am h; exact h
  | cons p rest ih =>
    intro am h
    exact ih _ (reachable_map.remove am p true h)

/-- C12, witness: scenario 5, a map with `nslots = 53` and `nslots_min = 11`, 11 items
inserted and 10 of them removed with `allow_resize = true`: `nslots` ends at 11. -/
theorem capacity_invariant_witness :
    (gc_alloc_map_new 23 5 (5 / 10) (2 / 10) (8 / 10)).nslots = 53 ∧
    (gc_alloc_map_new 23 5 (5 / 10) (2 / 10) (8 / 10)).nslots_min = 11 ∧
    scenario5_map.nitems = 1 ∧ scenario5_map.nslots = 11 ∧ scenario5_map.nslots_min = 11 ∧
    (scenario5_map.nslots_min ≤ scenario5_map.nslots ∧ scenario5_map.nslots ∈ gc_primes ∧
      scenario5_map.nslots_min ∈ gc_primes) :=
  ⟨by decide!, by decide!, by decide!, by decide!, by decide!,
    capacity_invariant scenario5_map
      (reachable_remove_keys _ _ (reachable_insert_keys _ _ (reachable_map.new _ _ _ _ _)))⟩

end PineGc

namespace PineGc

/-! ## Growth at the upper load factor -/

theorem insert_new_eq (am : AllocationMap) (p s : Nat)
    (hnew : gc_alloc_map_get am p = none) :
    (gc_alloc_map_insert am p s).2 = (gc_alloc_map_resize_to_fit (insert_front am p s)).2 := by
  have hwalk : gc_alloc_map_insert_walk (gc_alloc_new p s)
      (slot am.allocs (gc_hash p % am.nslots)) = none := by
    rw [insert_walk_none_iff]
    exact (get_walk_none_iff p _).mp hnew
  unfold gc_alloc_map_insert
  simp only [hwalk]
  unfold insert_front
  split <;> rfl

theorem insert_keys_wf (ps : List Nat) :
    ∀ am, well_formed am → well_formed (insert_keys am ps) := by
  induction ps with
  | nil => intro am h; exact h
  | cons p rest ih =>
    intro am h
    exact ih _ (insert_wf h p 16)

/-- C15, counterexample: the map of `gc_start_ext(&local, 5, 5, 0.2, 0.8, 0.5)` has
`nslots = 11` from the start (so scenario 4, paused, leaves `nslots = 11` through five
allocations and nothing grows at the fourth).  With eight items in it (`8/11 <= 0.8`), the
insert of a ninth distinct key is the first after which `nitems/nslots > lf_up` (`9/11`), and
it performs no resize: `nslots` stays 11, because `gc_ideal_size 9 = 11` is not larger. -/
theorem no_growth_when_ideal_size_not_larger :
    small_start.allocs.nslots = 11 ∧ small_start.allocs.lf_up = 8 / 10 ∧
    (∀ n ≤ 5, ∃ g, scenario4_state n = some g ∧ g.allocs = scenario4_map n ∧
      g.allocs.nitems = n ∧ g.allocs.nslots = 11) ∧
    well_formed (scenario4_map 8) ∧ (scenario4_map 8).nslots ∈ gc_primes ∧
    (scenario4_map 8).nitems = 8 ∧
    gc_alloc_map_load_factor (scenario4_map 8) ≤ (scenario4_map 8).lf_up ∧
    gc_alloc_map_get (scenario4_map 8) 0x50001100 = none ∧
    (gc_alloc_map_insert (scenario4_map 8) 0x50001100 16).2.nitems = 9 ∧
    gc_alloc_map_load_factor (gc_alloc_map_insert (scenario4_map 8) 0x50001100 16).2 >
      (scenario4_map 8).lf_up ∧
    (gc_alloc_map_insert (scenario4_map 8) 0x50001100 16).2.nslots = (scenario4_map 8).nslots ∧
    (gc_alloc_map_resize_to_fit (insert_front (scenario4_map 8) 0x50001100 16)).1 = false := by
  refine ⟨by decide!, by decide!, by decide!, by decide!, by decide!, by decide!, by decide!,
    by decide!, by decide!, by decide!, by decide!, by decide!⟩

/-- C15, amended.  For every map and every key not in it, `gc_alloc_map_insert` links the
record, increments `nitems` and calls `gc_alloc_map_resize_to_fit` once.  When afterwards
`nitems/nslots > lf_up`: if `gc_ideal_size nitems` (of the new count) is larger than `nslots`,
the insert performs exactly one resize, to that capacity, a strictly larger entry of the prime
ladder; if it is not larger, the insert performs no resize and `nslots` is unchanged. -/
theorem growth_at_upper_load_factor (am : AllocationMap) (p s : Nat)
    (hnew : gc_alloc_map_get am p = none)
    (hload : gc_alloc_map_load_factor (insert_front am p s) > am.lf_up) :
    (insert_front am p s).nitems = am.nitems + 1 ∧
    (gc_ideal_size (am.nitems + 1) > am.nslots →
      (gc_alloc_map_resize_to_fit (insert_front am p s)).1 = true ∧
      (gc_alloc_map_insert am p s).2 =
        gc_alloc_map_resize (insert_front am p s) (gc_ideal_size (am.nitems + 1)) ∧
      (gc_alloc_map_insert am p s).2.nslots = gc_ideal_size (am.nitems + 1) ∧
      am.nslots < (gc_alloc_map_insert am p s).2.nslots ∧
      (gc_alloc_map_insert am p s).2.nslots ∈ gc_primes) ∧
    (¬ gc_ideal_size (am.nitems + 1) > am.nslots →
      (gc_alloc_map_resize_to_fit (insert_front am p s)).1 = false ∧
      (gc_alloc_map_insert am p s).2 = insert_front am p s ∧
      (gc_alloc_map_insert am p s).2.nslots = am.nslots) := by
  have hfit : gc_alloc_map_resize_to_fit (insert_front am p s) =
      gc_resize_more (insert_front am p s) := by
    unfold gc_alloc_map_resize_to_fit
    simp only
    exact if_pos hload
  refine ⟨rfl, ?_, ?_⟩
  · intro hgt
    have hmore : gc_resize_more (insert_front am p s) =
        (true, gc_alloc_map_resize (insert_front am p s) (gc_ideal_size (am.nitems + 1))) := by
      unfold gc_resize_more
      simp only
      exact if_pos hgt
    rw [insert_new_eq am p s hnew, hfit, hmore]
    exact ⟨rfl, rfl, rfl, hgt, gc_ideal_size_mem _⟩
  · intro hle
    have hmore : gc_resize_more (insert_front am p s) = (false, insert_front am p s) := by
      unfold gc_resize_more
      simp only
      exact if_neg hle
    rw [insert_new_eq am p s hnew, hfit, hmore]
    exact ⟨rfl, rfl, rfl⟩

/-- C15, witness: the map of `gc_start_ext(&local, 5, 5, 0.2, 0.8, 0.5)` with ten items; the
insert of the eleventh distinct key resizes it from 11 to 23 chains. -/
theorem growth_at_upper_load_factor_witness :
    gc_alloc_map_get (scenario4_map 10) 0x50001140 = none ∧
    gc_alloc_map_load_factor (insert_front (scenario4_map 10) 0x50001140 16) >
      (scenario4_map 10).lf_up ∧
    (scenario4_map 10).nslots = 11 ∧
    (gc_alloc_map_insert (scenario4_map 10) 0x50001140 16).2.nslots = 23 ∧
    ((insert_front (scenario4_map 10) 0x50001140 16).nitems = (scenario4_map 10).nitems + 1 ∧
    (gc_ideal_size ((scenario4_map 10).nitems + 1) > (scenario4_map 10).nslots →
      (gc_alloc_map_resize_to_fit (insert_front (scenario4_map 10) 0x50001140 16)).1 = true ∧
      (gc_alloc_map_insert (scenario4_map 10) 0x50001140 16).2 =
        gc_alloc_map_resize (insert_front (scenario4_map 10) 0x50001140 16)
          (gc_ideal_size ((scenario4_map 10).nitems + 1)) ∧
      (gc_alloc_map_insert (scenario4_map 10) 0x50001140 16).2.nslots =
        gc_ideal_size ((scenario4_map 10).nitems + 1) ∧
      (scenario4_map 10).nslots < (gc_alloc_map_insert (scenario4_map 10) 0x50001140 16).2.nslots ∧
      (gc_alloc_map_insert (scenario4_map 10) 0x50001140 16).2.nslots ∈ gc_primes) ∧
    (¬ gc_ideal_size ((scenario4_map 10).nitems + 1) > (scenario4_map 10).nslots →
      (gc_alloc_map_resize_to_fit (insert_front (scenario4_map 10) 0x50001140 16)).1 = false ∧
      (gc_alloc_map_insert (scenario4_map 10) 0x50001140 16).2 =
        insert_front (scenario4_map 10) 0x50001140 16 ∧
      (gc_alloc_map_insert (scenario4_map 10) 0x50001140 16).2.nslots =
        (scenario4_map 10).nslots)) :=
  ⟨by decide!, by decide!, by decide!, by decide!,
    growth_at_upper_load_factor (scenario4_map 10) 0x50001140 16 (by decide!) (by decide!)⟩

end PineGc

namespace PineGc

/-! ## Preservation of well-formedness -/

/-- C16. Map well-formedness is preserved.  The predicate `well_formed` (every record stored in
bucket `i` satisfies `gc_hash base % nslots = i`, no two records have the same base, `nitems`
is the number of records in all chains; and, for the array of the model, it has `nslots >= 1`
chains) gives the three conditions of the claim, holds for the map returned by
`gc_alloc_map_new`, and is preserved by `gc_alloc_map_insert` (any key, new or present),
`gc_allocation_map_remove` (any key, either `allow_resize`), `gc_alloc_map_resize` to any
capacity `>= 1`, `gc_alloc_map_resize_to_fit` and `gc_sweep`. -/
theorem well_formedness_preserved :
    (∀ am, well_formed am →
      (∀ i < am.nslots, ∀ a ∈ slot am.allocs i, gc_hash a.ptr % am.nslots = i) ∧
      (∀ a ∈ records am, ∀ b ∈ records am, a.ptr = b.ptr → a = b) ∧
      ((records am).map Allocation.ptr).Nodup ∧
      am.nitems = (am.allocs.map List.length).sum) ∧
    (∀ nslots_init nslots_min sf ld lu,
      well_formed (gc_alloc_map_new nslots_init nslots_min sf ld lu)) ∧
    (∀ am p s, well_formed am → well_formed (gc_alloc_map_insert am p s).2) ∧
    (∀ am p allow_resize, well_formed am →
      well_formed (gc_allocation_map_remove am p allow_resize)) ∧
    (∀ am c, well_formed am → 1 ≤ c → well_formed (gc_alloc_map_resize am c)) ∧
    (∀ am, well_formed am → well_formed (gc_alloc_map_resize_to_fit am).2) ∧
    (∀ gc, well_formed gc.allocs → well_formed (gc_sweep gc).2.allocs) := by
  refine ⟨?_, well_formed_new, ?_, ?_, ?_, ?_, ?_⟩
  · intro am h
    refine ⟨fun i hi a ha => h.bucket hi ha, ?_, h.nodup, ?_⟩
    · intro a ha b hb hab
      exact h.ptr_inj ha hb hab
    · rw [h.nitems_eq]
      unfold records
      rw [List.length_flatten]
  · intro am p s h; exact insert_wf h p s
  · intro am p b h; exact remove_wf h p b
  · intro am c h hc; exact well_formed_resize h c hc
  · intro am h; exact well_formed_resize_to_fit h
  · intro gc h; exact (sweep_spec gc h).1

/-! ## Positions scanned inside a block -/

/-- C17, counterexample: scenario 2 (blocks X and Y of 32 bytes, both tracked and unmarked)
with a memory in which the eight bytes from `X + 1` on hold the base of Y.  `gc_mark_alloc` on
X reads a word at each of the 25 positions `X, X + 1, ..., X + 24`, not only at the four
word-aligned ones; none of the four word-aligned words is the base of a tracked block, the word
at `X + 1` is the base of Y, and the call marks Y. -/
theorem mark_alloc_scans_unaligned_positions :
    gc_alloc_map_get scenario2_state.allocs scenario2_X = some ⟨scenario2_X, 32, 0⟩ ∧
    gc_alloc_map_get scenario2_state.allocs scenario2_Y = some ⟨scenario2_Y, 32, 0⟩ ∧
    spec_mark_positions ⟨scenario2_X, 32, 0⟩ =
      [scenario2_X, scenario2_X + 8, scenario2_X + 16, scenario2_X + 24] ∧
    gc_mark_alloc_positions ⟨scenario2_X, 32, 0⟩ =
      (List.range 25).map (fun k => scenario2_X + k) ∧
    gc_mark_alloc_positions ⟨scenario2_X, 32, 0⟩ ≠ spec_mark_positions ⟨scenario2_X, 32, 0⟩ ∧
    scenario2_X + 1 ∈ gc_mark_alloc_positions ⟨scenario2_X, 32, 0⟩ ∧
    scenario2_X + 1 ∉ spec_mark_positions ⟨scenario2_X, 32, 0⟩ ∧
    (∀ pos ∈ spec_mark_positions ⟨scenario2_X, 32, 0⟩,
      gc_alloc_map_get scenario2_state.allocs (load_word scenario2_mem_unaligned pos) = none) ∧
    load_word scenario2_mem_unaligned (scenario2_X + 1) = scenario2_Y ∧
    (gc_mark_alloc scenario2_mem_unaligned 3 scenario2_state scenario2_X).map
      (fun g => gc_alloc_map_get g.allocs scenario2_Y) =
      some (some ⟨scenario2_Y, 32, GC_FLAG_MARK⟩) := by
  refine ⟨by decide!, by decide!, by decide!, by decide!, by decide!, by decide!, by decide!,
    by decide!, by decide!, by decide!⟩

/-- C17, amended.  When `gc_mark_alloc(ptr)` finds an unmarked record with base `b` and size
`s`, it sets MARK and then reads a machine word and recursively marks at the positions
`b, b + 1, b + 2, ...` up to and including `b + s - word`, in this order: exactly the
positions `b + k` with `k + word <= s` (every byte offset, not only the word-aligned ones),
and no others.  The word-aligned positions `b + k * word` with `k * word + word <= s` are among
them; for `s < word` it reads nothing. -/
theorem mark_alloc_scan_positions (mem : Nat → Nat) (fuel : Nat) (gc : KiGc) (ptr : Nat)
    (alloc : Allocation) (hget : gc_alloc_map_get gc.allocs ptr = some alloc)
    (hun : ¬ is_marked alloc) :
    gc_mark_alloc mem (fuel + 1) gc ptr =
      (gc_mark_alloc_positions alloc).foldlM
        (fun g p => gc_mark_alloc mem fuel g (load_word mem p))
        { gc with allocs := tag_update gc.allocs ptr (fun t => t ||| GC_FLAG_MARK) } ∧
    gc_mark_alloc_positions alloc =
      (List.range (alloc.size + 1 - PTRSIZE)).map (fun k => alloc.ptr + k) ∧
    (∀ pos, pos ∈ gc_mark_alloc_positions alloc ↔
      ∃ k, pos = alloc.ptr + k ∧ k + PTRSIZE ≤ alloc.size) ∧
    (∀ k, k * PTRSIZE + PTRSIZE ≤ alloc.size →
      alloc.ptr + k * PTRSIZE ∈ gc_mark_alloc_positions alloc) ∧
    (∀ pos ∈ spec_mark_positions alloc, pos ∈ gc_mark_alloc_positions alloc) ∧
    (alloc.size < PTRSIZE → gc_mark_alloc_positions alloc = []) := by
  have hmem : ∀ pos, pos ∈ gc_mark_alloc_positions alloc ↔
      ∃ k, pos = alloc.ptr + k ∧ k + PTRSIZE ≤ alloc.size := by
    intro pos
    unfold gc_mark_alloc_positions PTRSIZE
    rw [List.mem_map]
    constructor
    · rintro ⟨k, hk, rfl⟩
      rw [List.mem_range] at hk
      exact ⟨k, rfl, by omega⟩
    · rintro ⟨k, rfl, hk⟩
      exact ⟨k, List.mem_range.mpr (by omega), rfl⟩
  refine ⟨?_, rfl, hmem, ?_, ?_, ?_⟩
  · have hun2 : ¬ (alloc.tag &&& GC_FLAG_MARK ≠ 0) := hun
    show (match gc_alloc_map_get gc.allocs ptr with
      | none => some gc
      | some alloc =>
        if alloc.tag &&& GC_FLAG_MARK ≠ 0 then some gc
        else
          (gc_mark_alloc_positions alloc).foldlM
            (fun g p => gc_mark_alloc mem fuel g (load_word mem p))
            { gc with allocs := tag_update gc.allocs ptr (fun t => t ||| GC_FLAG_MARK) }) = _
    rw [hget]
    exact if_neg hun2
  · intro k hk
    exact (hmem _).mpr ⟨k * PTRSIZE, rfl, hk⟩
  · intro pos hpos
    unfold spec_mark_positions at hpos
    rw [List.mem_map] at hpos
    obtain ⟨k, hk, rfl⟩ := hpos
    rw [List.mem_range] at hk
    refine (hmem _).mpr ⟨k * PTRSIZE, rfl, ?_⟩
    unfold PTRSIZE at hk ⊢
    omega
  · intro hs
    unfold gc_mark_alloc_positions
    have : alloc.size + 1 - PTRSIZE = 0 := by omega
    rw [this]
    rfl

/-- C17, witness: block X of scenario 2 (32 bytes, tracked, unmarked). -/
theorem mark_alloc_scan_positions_witness :
    gc_mark_alloc scenario2_mem_unaligned (2 + 1) scenario2_state scenario2_X =
      (gc_mark_alloc_positions ⟨scenario2_X, 32, 0⟩).foldlM
        (fun g p => gc_mark_alloc scenario2_mem_unaligned 2 g
          (load_word scenario2_mem_unaligned p))
        { scenario2_state with
          allocs := tag_update scenario2_state.allocs scenario2_X
            (fun t => t ||| GC_FLAG_MARK) } ∧
    gc_mark_alloc_positions ⟨scenario2_X, 32, 0⟩ =
      (List.range ((⟨scenario2_X, 32, 0⟩ : Allocation).size + 1 - PTRSIZE)).map
        (fun k => (⟨scenario2_X, 32, 0⟩ : Allocation).ptr + k) ∧
    (∀ pos, pos ∈ gc_mark_alloc_positions ⟨scenario2_X, 32, 0⟩ ↔
      ∃ k, pos = (⟨scenario2_X, 32, 0⟩ : Allocation).ptr + k ∧
        k + PTRSIZE ≤ (⟨scenario2_X, 32, 0⟩ : Allocation).size) ∧
    (∀ k, k * PTRSIZE + PTRSIZE ≤ (⟨scenario2_X, 32, 0⟩ : Allocation).size →
      (⟨scenario2_X, 32, 0⟩ : Allocation).ptr + k * PTRSIZE ∈
        gc_mark_alloc_positions ⟨scenario2_X, 32, 0⟩) ∧
    (∀ pos ∈ spec_mark_positions ⟨scenario2_X, 32, 0⟩,
      pos ∈ gc_mark_alloc_positions ⟨scenario2_X, 32, 0⟩) ∧
    ((⟨scenario2_X, 32, 0⟩ : Allocation).size < PTRSIZE →
      gc_mark_alloc_positions ⟨scenario2_X, 32, 0⟩ = []) :=
  mark_alloc_scan_positions scenario2_mem_unaligned 2 scenario2_state scenario2_X
    ⟨scenario2_X, 32, 0⟩ (by decide!) (by decide)

/-! ## Stack scan range -/

/-- C18, evaluation at the failing input (scenario 1, `bot = 0x7ffc0100 > top = 0x7ffc0000`,
and the same two addresses exchanged for the other growth direction): the stack top and the
variable at `scenario1_var` are pointer-stride positions of the closed interval between top and
bottom, yet `gc_mark_stack` reads a word at no position, in either direction, and returns the
state as it was; this holds for every bottom and top.  For `bot = top` it reads nothing. -/
theorem stack_scan_reads_no_position :
    scenario1_bottom ≠ scenario1_top ∧
    scenario1_top ≤ scenario1_var ∧ scenario1_var ≤ scenario1_bottom ∧
    (scenario1_var - scenario1_top) % PTRSIZE = 0 ∧
    scenario1_state.bottom = scenario1_bottom ∧
    scenario1_top ∉ gc_mark_stack_positions scenario1_bottom scenario1_top ∧
    scenario1_var ∉ gc_mark_stack_positions scenario1_bottom scenario1_top ∧
    gc_mark_stack_positions scenario1_bottom scenario1_top = [] ∧
    gc_mark_stack_positions scenario1_top scenario1_bottom = [] ∧
    gc_mark_stack scenario1_mem 3 scenario1_top scenario1_state = some scenario1_state ∧
    (∀ bot top, gc_mark_stack_positions bot top = []) ∧
    (∀ mem fuel top gc, gc_mark_stack mem fuel top gc = some gc) := by
  have hall : ∀ mem fuel top gc, gc_mark_stack mem fuel top gc = some gc := by
    intro mem fuel top gc
    unfold gc_mark_stack
    rw [mark_stack_positions_nil]
    rfl
  refine ⟨by decide, by decide, by decide, by decide, by decide!, ?_, ?_,
    mark_stack_positions_nil _ _, mark_stack_positions_nil _ _, hall _ _ _ _,
    mark_stack_positions_nil, hall⟩
  · rw [mark_stack_positions_nil]; exact List.not_mem_nil _
  · rw [mark_stack_positions_nil]; exact List.not_mem_nil _

end PineGc

namespace PineGc

/-! ## Termination of the mark recursion -/

theorem set_mark_of_marked (a : Allocation) (h : is_marked a) : set_mark a = a := by
  have hb : a.tag.testBit 1 = true := (is_marked_iff a).mp h
  have ht : a.tag ||| GC_FLAG_MARK = a.tag := by
    apply Nat.eq_of_testBit_eq
    intro i
    rw [Nat.testBit_or]
    by_cases hi : i = 1
    · subst hi
      rw [hb, Bool.true_or]
    · have h2 : Nat.testBit GC_FLAG_MARK i = false := by
        show Nat.testBit (2 ^ 1) i = false
        rw [Nat.testBit_two_pow]
        exact decide_eq_false (fun h1 => hi h1.symm)
      rw [h2, Bool.or_false]
  unfold set_mark
  rw [ht]

theorem mark_ext_marked_mem {g g' : KiGc} (h : mark_ext g g') (a : Allocation)
    (ha : a ∈ records g.allocs) (hm : is_marked a) : a ∈ records g'.allocs := by
  obtain ⟨F, hF, rfl⟩ := h
  show a ∈ records (map_records F g.allocs)
  rw [records_map_records]
  refine List.mem_map.mpr ⟨a, ha, ?_⟩
  rcases hF a with h1 | h1
  · exact h1
  · rw [h1, set_mark_of_marked a hm]

theorem mark_ext_unmarked_lt {g g' : KiGc} (h : mark_ext g g') (hw : well_formed g.allocs)
    (a : Allocation) (ha : a ∈ records g.allocs) (hun : ¬ is_marked a)
    (hm : marked_ptr g'.allocs a.ptr) : unmarked_count g'.allocs < unmarked_count g.allocs := by
  obtain ⟨F, hF, rfl⟩ := h
  obtain ⟨b, hb, hbp, hbm⟩ := hm
  change b ∈ records (map_records F g.allocs) at hb
  rw [records_map_records] at hb
  obtain ⟨c, hc, rfl⟩ := List.mem_map.mp hb
  rw [mark_ext_F_ptr hF] at hbp
  have hca : c = a := hw.ptr_inj hc ha hbp
  subst hca
  show unmarked_count (map_records F g.allocs) < unmarked_count g.allocs
  unfold unmarked_count
  rw [records_map_records, List.countP_map]
  apply countP_lt_of_witness
  · intro x _ hx
    simp only [Function.comp, decide_eq_true_eq] at hx ⊢
    exact fun hmx => hx (mark_ext_F_marked hF x hmx)
  · refine ⟨c, hc, ?_, ?_⟩
    · simp only [decide_eq_true_eq]; exact hun
    · simp only [Function.comp, decide_eq_false_iff_not, not_not]; exact hbm

/-- C19. Mark is cycle-safe and terminates.  For every well-formed collector state (its records
are finitely many), every memory (so also one in which blocks refer to each other cyclically or
to themselves) and every pointer value `ptr`, the recursion `gc_mark_alloc(gc, ptr)` returns
once its depth bound exceeds the number of unmarked records.  It returns the state unchanged
when `ptr` is not the base of a tracked record or when that record already has MARK set.
Records differ from before only by MARK bits that got set, a record that had MARK set is left
as it was (no MARK bit is set twice), and a call that finds an unmarked record makes its
recursive calls in a state with strictly fewer unmarked records, and returns one with strictly
fewer unmarked records in which that record is marked. -/
theorem mark_cycle_safe_and_terminates (mem : Nat → Nat) (fuel : Nat) (gc : KiGc) (ptr : Nat)
    (hw : well_formed gc.allocs) (hu : unmarked_count gc.allocs < fuel) :
    ∃ g', gc_mark_alloc mem fuel gc ptr = some g' ∧
      mark_ext gc g' ∧
      (gc_alloc_map_get gc.allocs ptr = none → g' = gc) ∧
      (∀ a, gc_alloc_map_get gc.allocs ptr = some a → is_marked a → g' = gc) ∧
      (∀ a ∈ records gc.allocs, is_marked a → a ∈ records g'.allocs) ∧
      unmarked_count g'.allocs ≤ unmarked_count gc.allocs ∧
      (∀ a, gc_alloc_map_get gc.allocs ptr = some a → ¬ is_marked a →
        unmarked_count (tag_update gc.allocs ptr (fun t => t ||| GC_FLAG_MARK)) <
          unmarked_count gc.allocs ∧
        unmarked_count g'.allocs < unmarked_count gc.allocs ∧
        gc_alloc_map_get g'.allocs ptr = some (set_mark a)) := by
  obtain ⟨g', hg, hext, hstart, _⟩ := mark_alloc_spec mem fuel gc ptr hw hu
  have hw' := mark_ext_wf hext hw
  obtain ⟨n, rfl⟩ : ∃ n, fuel = n + 1 := ⟨fuel - 1, by omega⟩
  have hunf : gc_mark_alloc mem (n + 1) gc ptr =
      (match gc_alloc_map_get gc.allocs ptr with
      | none => some gc
      | some alloc =>
        if alloc.tag &&& GC_FLAG_MARK ≠ 0 then some gc
        else
          (gc_mark_alloc_positions alloc).foldlM
            (fun g p => gc_mark_alloc mem n g (load_word mem p))
            { gc with allocs := tag_update gc.allocs ptr (fun t => t ||| GC_FLAG_MARK) }) := rfl
  refine ⟨g', hg, hext, ?_, ?_, ?_, mark_ext_unmarked_le hext, ?_⟩
  · intro hnone
    rw [hunf, hnone] at hg
    exact (Option.some.inj hg).symm
  · intro a hget hm
    have hm2 : a.tag &&& GC_FLAG_MARK ≠ 0 := hm
    rw [hunf, hget] at hg
    simp only at hg
    rw [if_pos hm2] at hg
    exact (Option.some.inj hg).symm
  · intro a ha hm
    exact mark_ext_marked_mem hext a ha hm
  · intro a hget hun
    obtain ⟨hmem, hp⟩ := get_some_mem hget
    have hmp : marked_ptr g'.allocs ptr := hstart ptr (List.mem_singleton.mpr rfl) ⟨a, hmem, hp⟩
    refine ⟨?_, ?_, ?_⟩
    · rw [tag_update_eq hw ptr _]
      exact mark_one_unmarked_lt gc ptr a hmem hp hun
    · exact mark_ext_unmarked_lt hext hw a hmem hun (by rw [hp]; exact hmp)
    · obtain ⟨b, hb, hbp, hbm⟩ := hmp
      rw [(get_eq_some_iff hw' ptr (set_mark a))]
      refine ⟨?_, hp⟩
      obtain ⟨F, hF, rfl⟩ := hext
      change b ∈ records (map_records F gc.allocs) at hb
      rw [records_map_records] at hb
      obtain ⟨c, hc, rfl⟩ := List.mem_map.mp hb
      rw [mark_ext_F_ptr hF] at hbp
      have hca : c = a := hw.ptr_inj hc hmem (by rw [hbp, hp])
      subst hca
      show set_mark c ∈ records (map_records F gc.allocs)
      rw [records_map_records]
      refine List.mem_map.mpr ⟨c, hc, ?_⟩
      rcases hF c with h1 | h1
      · rw [h1] at hbm; exact absurd hbm hun
      · exact h1

/-- C19, witness: scenario 2, the blocks X and Y refer to each other; marking from X returns
with both marked. -/
theorem mark_cycle_safe_and_terminates_witness :
    well_formed scenario2_state.allocs ∧ unmarked_count scenario2_state.allocs = 2 ∧
    load_word scenario2_mem scenario2_X = scenario2_Y ∧
    load_word scenario2_mem scenario2_Y = scenario2_X ∧
    (gc_mark_alloc scenario2_mem 3 scenario2_state scenario2_X).map
      (fun g => (gc_alloc_map_get g.allocs scenario2_X, gc_alloc_map_get g.allocs scenario2_Y)) =
      some (some ⟨scenario2_X, 32, GC_FLAG_MARK⟩, some ⟨scenario2_Y, 32, GC_FLAG_MARK⟩) ∧
    ∃ g', gc_mark_alloc scenario2_mem 3 scenario2_state scenario2_X = some g' ∧
      mark_ext scenario2_state g' ∧
      (gc_alloc_map_get scenario2_state.allocs scenario2_X = none → g' = scenario2_state) ∧
      (∀ a, gc_alloc_map_get scenario2_state.allocs scenario2_X = some a → is_marked a →
        g' = scenario2_state) ∧
      (∀ a ∈ records scenario2_state.allocs, is_marked a → a ∈ records g'.allocs) ∧
      unmarked_count g'.allocs ≤ unmarked_count scenario2_state.allocs ∧
      (∀ a, gc_alloc_map_get scenario2_state.allocs scenario2_X = some a → ¬ is_marked a →
        unmarked_count (tag_update scenario2_state.allocs scenario2_X
          (fun t => t ||| GC_FLAG_MARK)) < unmarked_count scenario2_state.allocs ∧
        unmarked_count g'.allocs < unmarked_count scenario2_state.allocs ∧
        gc_alloc_map_get g'.allocs scenario2_X = some (set_mark a)) :=
  ⟨by decide!, by decide!, by decide!, by decide!, by decide!,
    mark_cycle_safe_and_terminates scenario2_mem 3 scenario2_state scenario2_X (by decide!)
      (by decide!)⟩

end PineGc

namespace PineGc

/-! ## Capacity and item count when the sweep limit is computed -/

theorem top_lt_size_mod : 563201731 < SIZE_MOD := by decide

theorem reachable_wf (am : AllocationMap) (h : reachable_map am) : well_formed am := by
  induction h with
  | new ni nm sf ld lu => exact well_formed_new ni nm sf ld lu
  | insert am p s _ ih => exact insert_wf ih p s
  | remove am p b _ ih => exact remove_wf ih p b
  | resize_to_fit am _ ih => exact well_formed_resize_to_fit ih
  | sweep gc _ ih => exact (sweep_spec gc ih).1
  | tag am p f _ ih => exact tag_update_wf ih p f

/-- Facts about a resize to capacity `c > nitems`, `c < 2^64`. -/
theorem resize_capacity_facts (am : AllocationMap) (c : Nat) (h1 : am.nitems < c)
    (h2 : c < SIZE_MOD) :
    1 ≤ c ∧ am.nitems < c ∧ size_sub c am.nitems = c - am.nitems ∧
    (gc_alloc_map_resize am c).nslots = c ∧
    (gc_alloc_map_resize am c).nitems = am.nitems ∧
    (gc_alloc_map_resize am c).sweep_limit = gc_calc_sweep_limit am.nitems c am.sweep_factor ∧
    (0 ≤ am.sweep_factor → am.sweep_factor ≤ 1 →
      (gc_alloc_map_resize am c).nitems ≤ (gc_alloc_map_resize am c).sweep_limit ∧
      (gc_alloc_map_resize am c).sweep_limit ≤ (gc_alloc_map_resize am c).nslots) :=
  ⟨by omega, h1, size_sub_eq c am.nitems (Nat.le_of_lt h1) h2, rfl, rfl, rfl,
    fun h0 hle => calc_sweep_limit_bounds am.nitems c am.sweep_factor (Nat.le_of_lt h1) h2 h0 hle⟩

/-- C20. Capacity always exceeds the item count when `sweep_limit` is computed.  For the map
returned by `gc_alloc_map_new`, and for every resize performed by `gc_resize_more` or
`gc_resize_less` (the call returns true) on a map with `nitems < 563201731` (and, for
`gc_resize_less`, an `nslots` that is a `size_t` value), the capacity `c` passed to
`gc_calc_sweep_limit` is `>= 1` and greater than `nitems`, the unsigned subtraction
`c - nitems` does not wrap, and for `sweep_factor` in `[0, 1]` the new `sweep_limit` satisfies
`nitems <= sweep_limit <= nslots`.  Every map reached from `gc_alloc_map_new` by inserts,
removes, resizes to fit, sweeps and tag writes has `nslots >= 1`, so no
`gc_hash(ptr) % nslots` divides by zero.  The two resize functions do resize on the maps
`insert_front (scenario4_map 10) ..` and `wide_map`. -/
theorem capacity_exceeds_item_count :
    (∀ nslots_init nslots_min sf ld lu,
      1 ≤ (gc_alloc_map_new nslots_init nslots_min sf ld lu).nslots ∧
      (gc_alloc_map_new nslots_init nslots_min sf ld lu).nitems <
        (gc_alloc_map_new nslots_init nslots_min sf ld lu).nslots ∧
      size_sub (gc_alloc_map_new nslots_init nslots_min sf ld lu).nslots
          (gc_alloc_map_new nslots_init nslots_min sf ld lu).nitems =
        (gc_alloc_map_new nslots_init nslots_min sf ld lu).nslots -
          (gc_alloc_map_new nslots_init nslots_min sf ld lu).nitems ∧
      (gc_alloc_map_new nslots_init nslots_min sf ld lu).sweep_limit =
        gc_calc_sweep_limit (gc_alloc_map_new nslots_init nslots_min sf ld lu).nitems
          (gc_alloc_map_new nslots_init nslots_min sf ld lu).nslots sf ∧
      (0 ≤ sf → sf ≤ 1 →
        (gc_alloc_map_new nslots_init nslots_min sf ld lu).nitems ≤
          (gc_alloc_map_new nslots_init nslots_min sf ld lu).sweep_limit ∧
        (gc_alloc_map_new nslots_init nslots_min sf ld lu).sweep_limit ≤
          (gc_alloc_map_new nslots_init nslots_min sf ld lu).nslots)) ∧
    (∀ am : AllocationMap, am.nitems < 563201731 → (gc_resize_more am).1 = true →
      ∃ c, (gc_resize_more am).2 = gc_alloc_map_resize am c ∧
        1 ≤ c ∧ am.nitems < c ∧ size_sub c am.nitems = c - am.nitems ∧
        (gc_resize_more am).2.nslots = c ∧ (gc_resize_more am).2.nitems = am.nitems ∧
        (gc_resize_more am).2.sweep_limit = gc_calc_sweep_limit am.nitems c am.sweep_factor ∧
        (0 ≤ am.sweep_factor → am.sweep_factor ≤ 1 →
          (gc_resize_more am).2.nitems ≤ (gc_resize_more am).2.sweep_limit ∧
          (gc_resize_more am).2.sweep_limit ≤ (gc_resize_more am).2.nslots)) ∧
    (∀ am : AllocationMap, am.nitems < 563201731 → am.nslots < SIZE_MOD →
      (gc_resize_less am).1 = true →
      ∃ c, (gc_resize_less am).2 = gc_alloc_map_resize am c ∧
        1 ≤ c ∧ am.nitems < c ∧ size_sub c am.nitems = c - am.nitems ∧
        (gc_resize_less am).2.nslots = c ∧ (gc_resize_less am).2.nitems = am.nitems ∧
        (gc_resize_less am).2.sweep_limit = gc_calc_sweep_limit am.nitems c am.sweep_factor ∧
        (0 ≤ am.sweep_factor → am.sweep_factor ≤ 1 →
          (gc_resize_less am).2.nitems ≤ (gc_resize_less am).2.sweep_limit ∧
          (gc_resize_less am).2.sweep_limit ≤ (gc_resize_less am).2.nslots)) ∧
    (∀ am, reachable_map am → 1 ≤ am.nslots) ∧
    (gc_resize_more (insert_front (scenario4_map 10) 0x50001140 16)).1 = true ∧
    (gc_resize_less wide_map).1 = true := by
  refine ⟨?_, ?_, ?_, fun am h => (reachable_wf am h).nslots_pos, by decide!, by decide!⟩
  · intro ni nm sf ld lu
    have hpos : 0 < (gc_alloc_map_new ni nm sf ld lu).nslots :=
      (well_formed_new ni nm sf ld lu).nslots_pos
    have hcap := (capacity_ok_new ni nm sf ld lu).2.1
    have hlt : (gc_alloc_map_new ni nm sf ld lu).nslots < SIZE_MOD :=
      Nat.lt_of_le_of_lt (gc_primes_le_top _ hcap) top_lt_size_mod
    have hn : (gc_alloc_map_new ni nm sf ld lu).nitems = 0 := rfl
    rw [hn]
    refine ⟨hpos, hpos, size_sub_eq _ 0 (Nat.zero_le _) hlt, rfl, fun h0 h1 => ?_⟩
    exact calc_sweep_limit_bounds 0 _ sf (Nat.zero_le _) hlt h0 h1
  · intro am hn hres
    have hgt := gc_ideal_size_gt am.nitems hn
    have hlt : gc_ideal_size am.nitems < SIZE_MOD :=
      Nat.lt_of_le_of_lt (gc_ideal_size_le_top _) top_lt_size_mod
    have hcase : gc_resize_more am = (true, gc_alloc_map_resize am (gc_ideal_size am.nitems)) := by
      unfold gc_resize_more at hres ⊢
      simp only at hres ⊢
      by_cases h : gc_ideal_size am.nitems > am.nslots
      · rw [if_pos h]
      · rw [if_neg h] at hres; cases hres
    rw [hcase]
    exact ⟨gc_ideal_size am.nitems, rfl, resize_capacity_facts am _ hgt hlt⟩
  · intro am hn hsz hres
    have hgt := gc_ideal_size_gt am.nitems hn
    have hcase : ∃ c, am.nitems < c ∧ c < am.nslots ∧
        gc_resize_less am = (true, gc_alloc_map_resize am c) := by
      unfold gc_resize_less at hres ⊢
      simp only at hres ⊢
      by_cases h : (if gc_ideal_size am.nitems < am.nslots_min then am.nslots_min
          else gc_ideal_size am.nitems) < am.nslots
      · rw [if_pos h]
        refine ⟨_, ?_, h, rfl⟩
        by_cases h5 : gc_ideal_size am.nitems < am.nslots_min
        · rw [if_pos h5]; omega
        · rw [if_neg h5]; exact hgt
      · rw [if_neg h] at hres; cases hres
    obtain ⟨c, hc1, hc2, hcase⟩ := hcase
    rw [hcase]
    exact ⟨c, rfl, resize_capacity_facts am c hc1 (by omega)⟩

end PineGc
